import Mathlib

/-!
# Verification of the jellyfish-merkle core against its specification

This file gives a shallow embedding, in Lean 4, of the core of the
jellyfish-merkle repository (node model, canonical serialization, internal
node hashing, proof-witness extraction, the streaming restore state machine
and the ordered iterator), together with theorems settling the spec claims.

Machine integers are modelled as `Nat` (bytes are `Nat < 256`, `u16` bitmaps
are `Nat < 2^16`, `u64` versions are `Nat < 2^64`); byte strings are
`List Nat`; fallible Rust code (`Result`, panics, `unwrap`) is modelled with
`Option`/`Except`.  The cryptographic hash functions are abstract parameters.
-/

namespace JMT

/-! ## Varint encoding (`node_type.rs`: `serialize_u64_varint` / `deserialize_u64_varint`)

The encoder loops at most 8 times emitting 7-bit groups with a continuation
bit (high bit set when more bytes follow); if, after 8 groups, value bits
remain, the 9th byte is emitted raw and covers the top 8 bits of the `u64`.
-/

/-- Fuel-indexed body of `serialize_u64_varint`.  Fuel counts the remaining
iterations of the `for _ in 0..8` loop; at fuel 0 the final raw byte is
pushed (`num as u8`, modelled as `num % 256`). -/
def serializeVarintAux : Nat → Nat → List Nat
  | 0, num => [num % 256]
  | k + 1, num =>
    let low := num % 128
    let rest := num / 128
    if rest = 0 then [low] else (low + 128) :: serializeVarintAux k rest

/-- `serialize_u64_varint` from `node_type.rs`. -/
def serialize_u64_varint (num : Nat) : List Nat :=
  serializeVarintAux 8 num

/-- Fuel-indexed body of `deserialize_u64_varint`; `i` is the loop index
(number of continuation bytes already consumed), `acc` the bits accumulated
so far.  At fuel 0 the 9th byte is read raw and ORed in at bit 56.  Returns
the decoded value together with the unconsumed rest of the input. -/
def deserializeVarintAux : Nat → Nat → Nat → List Nat → Option (Nat × List Nat)
  | 0, acc, _, bytes =>
    match bytes with
    | [] => none
    | b :: rest => some (acc ||| (b <<< 56), rest)
  | k + 1, acc, i, bytes =>
    match bytes with
    | [] => none
    | b :: rest =>
      let acc := acc ||| ((b % 128) <<< (i * 7))
      if b % 256 < 128 then some (acc, rest) else deserializeVarintAux k acc (i + 1) rest

/-- `deserialize_u64_varint` from `node_type.rs`, over a byte list. -/
def deserialize_u64_varint (bytes : List Nat) : Option (Nat × List Nat) :=
  deserializeVarintAux 8 0 0 bytes

/-! ## Nibbles, nibble paths and `NodeKey` (`node_type.rs` lines 39-135)

A nibble path is modelled as its list of nibbles (each `< 16`); the physical
packed-byte form of `NibblePath` (two nibbles per byte, a zero low nibble
padding an odd length) is produced by `packNibbles` and consumed by
`unpackNibbles`. -/

/-- The packed byte buffer backing a `NibblePath` (`NibblePath::bytes`). -/
def packNibbles : List Nat → List Nat
  | [] => []
  | [n] => [n * 16]
  | n1 :: n2 :: rest => (n1 * 16 + n2) :: packNibbles rest

/-- Recover the nibbles of a packed buffer; `numNibbles` says whether the
last byte carries one nibble (odd) or two (even). -/
def unpackNibbles : Nat → List Nat → List Nat
  | _, [] => []
  | numNibbles, b :: rest =>
    if numNibbles = 1 then [b / 16 % 16]
    else b / 16 % 16 :: b % 16 :: unpackNibbles (numNibbles - 2) rest

/-- `NodeKey` (`node_type.rs`): a version paired with a nibble path. -/
structure NodeKey where
  version : Nat
  nibble_path : List Nat
  deriving DecidableEq, Repr

/-- `NodeKey::new_empty_path`. -/
def NodeKey.new_empty_path (version : Nat) : NodeKey := ⟨version, []⟩

/-- `NodeKey::gen_child_node_key`: append a nibble to the path, at the
child's version. -/
def NodeKey.gen_child_node_key (k : NodeKey) (version : Nat) (n : Nat) : NodeKey :=
  ⟨version, k.nibble_path ++ [n]⟩

/-- `NodeKey::gen_parent_node_key`: drop the last nibble (panics on the
root, modelled with `Option`). -/
def NodeKey.gen_parent_node_key (k : NodeKey) : Option NodeKey :=
  match k.nibble_path.dropLast, k.nibble_path with
  | _, [] => none
  | p, _ => some ⟨k.version, p⟩

/-- 8-byte big-endian encoding of a `u64`. -/
def be64 (v : Nat) : List Nat :=
  [v / 2 ^ 56 % 256, v / 2 ^ 48 % 256, v / 2 ^ 40 % 256, v / 2 ^ 32 % 256,
   v / 2 ^ 24 % 256, v / 2 ^ 16 % 256, v / 2  ^ 8 % 256, v % 256]

/-- Big-endian decoding of 8 bytes (the cursor read of `read_u64`). -/
def readBe64 : List Nat → Option (Nat × List Nat)
  | b0 :: b1 :: b2 :: b3 :: b4 :: b5 :: b6 :: b7 :: rest =>
    some (((((((b0 * 256 + b1) * 256 + b2) * 256 + b3) * 256 + b4) * 256 + b5) * 256
      + b6) * 256 + b7, rest)
  | _ => none

/-- `NodeKey::encode`: 8-byte big-endian version, one byte of nibble count
(`num_nibbles as u8`, hence `% 256`), then the packed nibble bytes. -/
def NodeKey.encode (k : NodeKey) : List Nat :=
  be64 k.version ++ [k.nibble_path.length % 256] ++ packNibbles k.nibble_path

/-- The root nibble height: 64 nibbles address a 256-bit key. -/
def ROOT_NIBBLE_HEIGHT : Nat := 64

/-- `NodeKey::decode`: read the version and nibble count, check
`num_nibbles <= 64`, that the remaining buffer is exactly
`ceil(num_nibbles/2)` bytes, and that an odd length has a zero padding
nibble. -/
def NodeKey.decode (bytes : List Nat) : Option NodeKey :=
  match readBe64 bytes with
  | none => none
  | some (version, rest) =>
    match rest with
    | [] => none
    | numNibbles :: nibbleBytes =>
      if numNibbles ≤ ROOT_NIBBLE_HEIGHT then
        if (numNibbles + 1) / 2 = nibbleBytes.length then
          if numNibbles % 2 = 0 then
            some ⟨version, unpackNibbles numNibbles nibbleBytes⟩
          else
            match nibbleBytes.getLast? with
            | none => none
            | some lastByte =>
              if lastByte % 16 = 0 then
                some ⟨version, unpackNibbles numNibbles nibbleBytes⟩
              else none
        else none
      else none

/-! ## Node model (`node_type.rs` lines 137-430)

Hash digests are `List Nat` (32 bytes in well-formed data).  `Children` is
the 16-slot array `Box<[Option<Child>; 16]>`; the cached `num_children`
field is derived (`countP isSome`) rather than stored. -/

/-- `NodeType` from `node_type.rs`. -/
inductive NodeType where
  | leaf : NodeType
  | internalLegacy : NodeType
  | internal (leaf_count : Nat) : NodeType
  deriving DecidableEq, Repr

/-- `Child` from `node_type.rs`. -/
structure Child where
  hash : List Nat
  version : Nat
  node_type : NodeType
  deriving DecidableEq, Repr

/-- `Child::is_leaf`. -/
def Child.is_leaf (c : Child) : Bool :=
  match c.node_type with
  | .leaf => true
  | _ => false

/-- `Child::leaf_count`. -/
def Child.leaf_count (c : Child) : Option Nat :=
  match c.node_type with
  | .leaf => some 1
  | .internalLegacy => none
  | .internal lc => some lc

/-- The 16 child slots of an internal node. -/
abbrev Children := List (Option Child)

/-- Slot lookup (`children[i]`, absent outside the list). -/
def childAt (cs : Children) (i : Nat) : Option Child :=
  cs.getD i none

/-- `Children::num_children` (derived population count). -/
def numChildren (cs : Children) : Nat :=
  cs.countP (·.isSome)

/-- `Children::values().next()`: the first existing child in slot order. -/
def firstChild (cs : Children) : Option Child :=
  cs.findSome? id

/-- `LeafNode` from `node_type.rs`: key hash and value hash are 32-byte
strings, the value an arbitrary byte string. -/
structure LeafNode where
  key_hash : List Nat
  value_hash : List Nat
  value : List Nat
  deriving DecidableEq, Repr

/-- `InternalNode` from `node_type.rs`. -/
structure InternalNode where
  children : Children
  leaf_count : Option Nat
  leaf_count_migration : Bool
  deriving DecidableEq, Repr

/-- `InternalNode::sum_leaf_count`: sum of the children's leaf counts, or
`None` as soon as one child's count is unknown. -/
def sumLeafCount : Children → Option Nat
  | [] => some 0
  | none :: rest => sumLeafCount rest
  | some c :: rest =>
    match c.leaf_count, sumLeafCount rest with
    | some n, some acc => some (n + acc)
    | _, _ => none

/-- `InternalNode::new_impl`: reject empty children and a single leaf
child, then record the children with the computed leaf count. -/
def InternalNode.new_impl (cs : Children) (leaf_count_migration : Bool) :
    Option InternalNode :=
  if numChildren cs = 0 then none
  else if numChildren cs = 1 ∧ (firstChild cs).elim false Child.is_leaf then none
  else some ⟨cs, sumLeafCount cs, leaf_count_migration⟩

/-- `InternalNode::new` = `new_migration(children, true)`; panics (here
`none`) when `new_impl` rejects. -/
def InternalNode.new (cs : Children) : Option InternalNode :=
  InternalNode.new_impl cs true

/-- `InternalNode::node_type`. -/
def InternalNode.node_type (n : InternalNode) : NodeType :=
  match n.leaf_count with
  | some lc => .internal lc
  | none => .internalLegacy

/-- `Node` from `node_type.rs`. -/
inductive Node where
  | null : Node
  | internal (n : InternalNode) : Node
  | leaf (l : LeafNode) : Node
  deriving DecidableEq, Repr

/-- `Node::leaf_count`. -/
def Node.leaf_count : Node → Option Nat
  | .null => some 0
  | .leaf _ => some 1
  | .internal n => n.leaf_count

/-! ## Bitmaps (`node_type.rs` lines 563-589) -/

/-- `InternalNode::generate_bitmaps`: bit `i` of the existence bitmap is
set iff slot `i` holds a child; bit `i` of the leaf bitmap iff that child
is a leaf.  (The code folds `existence |= 1 << i` over the existing
children in ascending order; this recursion builds the same two values
little-endian.) -/
def genBitmaps : Children → Nat × Nat
  | [] => (0, 0)
  | slot :: rest =>
    let (e, l) := genBitmaps rest
    match slot with
    | none => (2 * e, 2 * l)
    | some c => (2 * e + 1, 2 * l + (if c.is_leaf then 1 else 0))

/-- The mask `((1u32 << width) - 1) << start` of `range_bitmaps`. -/
def rangeMask (start width : Nat) : Nat :=
  ((1 <<< width) - 1) <<< start

/-- `InternalNode::range_bitmaps`: restrict both bitmaps to
`[start, start+width)`. -/
def rangeBitmaps (start width : Nat) (bm : Nat × Nat) : Nat × Nat :=
  (bm.1 &&& rangeMask start width, bm.2 &&& rangeMask start width)

/-- `u16::count_ones` on a 16-bit value. -/
def popcount16 (n : Nat) : Nat :=
  (List.range 16).countP n.testBit

/-- `u16::trailing_zeros` (16 for zero). -/
def ctz16Aux : Nat → Nat → Nat
  | 0, _ => 0
  | fuel + 1, n => if n % 2 = 1 then 0 else 1 + ctz16Aux fuel (n / 2)

/-- `u16::trailing_zeros` on a 16-bit value. -/
def ctz16 (n : Nat) : Nat :=
  ctz16Aux 16 n

/-- `u16::leading_zeros` on a 16-bit value: count down from bit 15. -/
def lz16Aux : Nat → Nat → Nat
  | 0, _ => 16
  | fuel + 1, n => if n.testBit fuel then 16 - (fuel + 1) else lz16Aux fuel n

/-- `u16::leading_zeros` on a 16-bit value (16 for zero). -/
def lz16 (n : Nat) : Nat :=
  lz16Aux 16 n

/-! ## Internal node hashing (`node_type.rs` lines 591-630)

`Hi` is the abstract sparse-Merkle internal-node hasher
(`SparseMerkleInternalNode::new(l, r).hash()`), `ph` the placeholder hash
`SPARSE_MERKLE_PLACEHOLDER_HASH`. -/

/-- `InternalNode::merkle_hash`.  The `.unwrap()` of a child whose
existence the bitmap promises is modelled with `Option`. -/
def merkleHash (Hi : List Nat → List Nat → List Nat) (ph : List Nat)
    (cs : Children) (start width : Nat) (bm : Nat × Nat) : Option (List Nat) :=
  if h0 : (rangeBitmaps start width bm).1 = 0 then some ph
  else if width = 1 ∨ (popcount16 (rangeBitmaps start width bm).1 = 1 ∧
      (rangeBitmaps start width bm).2 ≠ 0) then
    (childAt cs (ctz16 (rangeBitmaps start width bm).1)).map Child.hash
  else do
    let left ← merkleHash Hi ph cs start (width / 2) (rangeBitmaps start width bm)
    let right ← merkleHash Hi ph cs (start + width / 2) (width / 2)
      (rangeBitmaps start width bm)
    some (Hi left right)
termination_by width
decreasing_by
  all_goals
  · have hw : width ≠ 0 := by
      intro hzero
      apply h0
      subst hzero
      simp [rangeBitmaps, rangeMask, Nat.shiftLeft_zero, Nat.zero_shiftLeft,
        Nat.and_zero]
    omega

/-- `InternalNode::hash` = `merkle_hash(0, 16, generate_bitmaps())`. -/
def InternalNode.hash (Hi : List Nat → List Nat → List Nat) (ph : List Nat)
    (n : InternalNode) : Option (List Nat) :=
  merkleHash Hi ph n.children 0 16 (genBitmaps n.children)

/-- The existing child slots inside `[start, start+width)`, ascending. -/
def existingIndices (cs : Children) (start width : Nat) : List Nat :=
  (List.range 16).filter
    (fun i => decide (start ≤ i) && decide (i < start + width) && (childAt cs i).isSome)

/-- Whether slot `i` holds a leaf child. -/
def isLeafAt (cs : Children) (i : Nat) : Bool :=
  (childAt cs i).elim false Child.is_leaf

/-- The specification's recursive sparse-Merkle evaluation (spec §4.1),
written over the children slots themselves: an empty range hashes to the
placeholder; a width-1 range, or a range containing exactly one child that
is a leaf, collapses to that single child's stored hash; every other range
(in particular one whose only child is a non-leaf) hashes the two halves
and combines them with the internal-node hasher. -/
def specSubtreeHash (Hi : List Nat → List Nat → List Nat) (ph : List Nat)
    (cs : Children) (start width : Nat) : List Nat :=
  if hx : existingIndices cs start width = [] then ph
  else if width = 1 ∨ ((existingIndices cs start width).length = 1 ∧
      isLeafAt cs ((existingIndices cs start width).headD 0)) then
    (childAt cs ((existingIndices cs start width).headD 0)).elim ph Child.hash
  else
    Hi (specSubtreeHash Hi ph cs start (width / 2))
       (specSubtreeHash Hi ph cs (start + width / 2) (width / 2))
termination_by width
decreasing_by
  all_goals
  · obtain ⟨i, hmem⟩ := List.exists_mem_of_ne_nil _ hx
    have hw : width ≠ 0 := by
      intro hzero
      subst hzero
      simp only [existingIndices, List.mem_filter, List.mem_range,
        Bool.and_eq_true, decide_eq_true_eq] at hmem
      omega
    omega

/-! ## Proof-witness extraction (`node_type.rs` lines 635-796) -/

/-- `get_child_and_sibling_half_start`: `(0xff << h) & n` in `u8`
arithmetic, paired with its sibling start `child_half_start ^ (1 << h)`. -/
def get_child_and_sibling_half_start (n h : Nat) : Nat × Nat :=
  let child_half_start := ((255 <<< h) % 256) &&& n
  (child_half_start, child_half_start ^^^ (1 <<< h))

/-- `get_child_half_start`: just the first component. -/
def get_child_half_start (n h : Nat) : Nat :=
  ((255 <<< h) % 256) &&& n

/-- Loop body of `InternalNode::get_child_with_siblings`, walking the
heights in the given list (the source iterates `h = 3, 2, 1, 0`; the final
`unreachable!()` is the `[]` case). -/
def getChildWithSiblingsAux (Hi : List Nat → List Nat → List Nat) (ph : List Nat)
    (node : InternalNode) (node_key : NodeKey) (n : Nat) (bm : Nat × Nat) :
    List Nat → Option (Option NodeKey × List (List Nat))
  | [] => none
  | h :: hs =>
    let width := 1 <<< h
    let starts := get_child_and_sibling_half_start n h
    match merkleHash Hi ph node.children starts.2 width bm with
    | none => none
    | some sib =>
      let rbm := rangeBitmaps starts.1 width bm
      if rbm.1 = 0 then some (none, [sib])
      else if width = 1 ∨ (popcount16 rbm.1 = 1 ∧ rbm.2 ≠ 0) then
        match childAt node.children (ctz16 rbm.1) with
        | none => none
        | some c =>
          some (some (node_key.gen_child_node_key c.version (ctz16 rbm.1)), [sib])
      else
        match getChildWithSiblingsAux Hi ph node node_key n bm hs with
        | none => none
        | some (dec, sibs) => some (dec, sib :: sibs)

/-- `InternalNode::get_child_with_siblings`. -/
def InternalNode.get_child_with_siblings (Hi : List Nat → List Nat → List Nat)
    (ph : List Nat) (node : InternalNode) (node_key : NodeKey) (n : Nat) :
    Option (Option NodeKey × List (List Nat)) :=
  getChildWithSiblingsAux Hi ph node node_key n (genBitmaps node.children) [3, 2, 1, 0]

/-- Loop body of `InternalNode::get_child_without_siblings`. -/
def getChildWithoutSiblingsAux (node : InternalNode) (node_key : NodeKey) (n : Nat)
    (bm : Nat × Nat) : List Nat → Option (Option NodeKey)
  | [] => none
  | h :: hs =>
    let width := 1 <<< h
    let child_half_start := get_child_half_start n h
    let rbm := rangeBitmaps child_half_start width bm
    if rbm.1 = 0 then some none
    else if width = 1 ∨ (popcount16 rbm.1 = 1 ∧ rbm.2 ≠ 0) then
      match childAt node.children (ctz16 rbm.1) with
      | none => none
      | some c => some (some (node_key.gen_child_node_key c.version (ctz16 rbm.1)))
    else getChildWithoutSiblingsAux node node_key n bm hs

/-- `InternalNode::get_child_without_siblings`. -/
def InternalNode.get_child_without_siblings (node : InternalNode)
    (node_key : NodeKey) (n : Nat) : Option (Option NodeKey) :=
  getChildWithoutSiblingsAux node node_key n (genBitmaps node.children) [3, 2, 1, 0]

/-! ## Node serialization (`node_type.rs` lines 459-556 and 929-983) -/

/-- Two-byte little-endian encoding of a `u16`. -/
def u16LE (n : Nat) : List Nat := [n % 256, n / 256 % 256]

/-- Little-endian read of a `u16`. -/
def readU16LE : List Nat → Option (Nat × List Nat)
  | b0 :: b1 :: rest => some (b0 + 256 * b1, rest)
  | _ => none

/-- One serialized child record of `InternalNode::serialize`: varint
version, 32 raw hash bytes, and — only when leaf counts are persisted and
the child is not a leaf — a varint leaf count (`0` encodes "unknown"). -/
def serializeChildRecord (persist_leaf_counts : Bool) (c : Child) : List Nat :=
  serialize_u64_varint c.version ++ c.hash ++
    (match c.node_type with
     | .leaf => []
     | .internalLegacy => if persist_leaf_counts then serialize_u64_varint 0 else []
     | .internal lc => if persist_leaf_counts then serialize_u64_varint lc else [])

/-- `InternalNode::serialize`: both bitmaps little-endian, then the child
records.  (The source peels the lowest set bit of the existence bitmap
`count_ones` times, which visits the existing children in ascending slot
order; the fold below performs the same ascending traversal.) -/
def InternalNode.serialize (node : InternalNode) (persist_leaf_counts : Bool) :
    List Nat :=
  let bm := genBitmaps node.children
  u16LE bm.1 ++ u16LE bm.2 ++
    (List.range 16).foldr (fun i acc =>
      match childAt node.children i with
      | none => acc
      | some c => serializeChildRecord persist_leaf_counts c ++ acc) []

/-- Child-record parsing loop of `InternalNode::deserialize`, filling slots
`i, i+1, …, 15` (`fuel = 16 - i`).  The source iterates `count_ones` times
over the lowest set bit, which visits the set bits in ascending order;
absent slots decode to `none`.  The `ensure!(remaining >= 32)` guard is the
length test before taking the hash bytes. -/
def deserializeChildrenAux (read_leaf_counts : Bool) (e lbm : Nat) :
    Nat → Nat → List Nat → Option (Children × List Nat)
  | 0, _, bytes => some ([], bytes)
  | fuel + 1, i, bytes =>
    if e.testBit i then
      match deserialize_u64_varint bytes with
      | none => none
      | some (version, bytes) =>
        if 32 ≤ bytes.length then
          let hash := bytes.take 32
          let bytes := bytes.drop 32
          if lbm.testBit i then
            match deserializeChildrenAux read_leaf_counts e lbm fuel (i + 1) bytes with
            | none => none
            | some (cs, rest) => some (some ⟨hash, version, .leaf⟩ :: cs, rest)
          else if read_leaf_counts then
            match deserialize_u64_varint bytes with
            | none => none
            | some (lc, bytes) =>
              let nt := if lc = 0 then NodeType.internalLegacy else NodeType.internal lc
              match deserializeChildrenAux read_leaf_counts e lbm fuel (i + 1) bytes with
              | none => none
              | some (cs, rest) => some (some ⟨hash, version, nt⟩ :: cs, rest)
          else
            match deserializeChildrenAux read_leaf_counts e lbm fuel (i + 1) bytes with
            | none => none
            | some (cs, rest) => some (some ⟨hash, version, .internalLegacy⟩ :: cs, rest)
        else none
    else
      match deserializeChildrenAux read_leaf_counts e lbm fuel (i + 1) bytes with
      | none => none
      | some (cs, rest) => some (none :: cs, rest)

/-- `InternalNode::deserialize`: read and validate the bitmaps
(`NoChildren` when the existence bitmap is zero, `ExtraLeaves` when a leaf
bit lacks an existence bit), parse the child records, and rebuild through
`new_impl` (with `leaf_count_migration = read_leaf_counts`).  Trailing
bytes are ignored, as in the source. -/
def InternalNode.deserialize (data : List Nat) (read_leaf_counts : Bool) :
    Option InternalNode :=
  match readU16LE data with
  | none => none
  | some (e, rest) =>
    match readU16LE rest with
    | none => none
    | some (lbm, rest) =>
      if e = 0 then none
      else if ¬ (e &&& lbm = lbm) then none
      else
        match deserializeChildrenAux read_leaf_counts e lbm 16 0 rest with
        | none => none
        | some (cs, _) => InternalNode.new_impl cs read_leaf_counts

/-- ULEB128 length prefix used by the `bcs` byte-vector encoding. -/
def uleb128 (n : Nat) : List Nat :=
  if n < 128 then [n] else (n % 128 + 128) :: uleb128 (n / 128)
termination_by n
decreasing_by
  · exact Nat.div_lt_self (by omega) (by norm_num)

/-- ULEB128 read. -/
def readUleb128 : List Nat → Option (Nat × List Nat)
  | [] => none
  | b :: rest =>
    if b < 128 then some (b, rest)
    else
      match readUleb128 rest with
      | none => none
      | some (m, r) => some (b - 128 + 128 * m, r)

/-- Take exactly `n` bytes. -/
def readExact (n : Nat) (l : List Nat) : Option (List Nat × List Nat) :=
  if n ≤ l.length then some (l.take n, l.drop n) else none

/-- Modelled from the spec: the leaf payload is the canonical binary (`bcs`)
encoding of `{key_hash, value_hash, value}` — the `serde` derive and the
`bcs` crate live outside `src/` — i.e. 32 raw key-hash bytes, 32 raw
value-hash bytes, then the length-prefixed value bytes. -/
def encodeLeafBody (l : LeafNode) : List Nat :=
  l.key_hash ++ l.value_hash ++ uleb128 l.value.length ++ l.value

/-- Modelled from the spec: `bcs` decoding of a leaf payload; `bcs`
rejects trailing bytes. -/
def decodeLeafBody (bytes : List Nat) : Option LeafNode :=
  match readExact 32 bytes with
  | none => none
  | some (kh, rest) =>
    match readExact 32 rest with
    | none => none
    | some (vh, rest) =>
      match readUleb128 rest with
      | none => none
      | some (len, rest) =>
        match readExact len rest with
        | none => none
        | some (value, rest) =>
          if rest = [] then some ⟨kh, vh, value⟩ else none

/-- `Node::encode`: tag byte (`Null=0, InternalLegacy=1, Leaf=2,
Internal=3`) then the payload; an internal node is tagged `Internal` and
persists leaf counts exactly when `leaf_count_migration` is set. -/
def Node.encode : Node → List Nat
  | .null => [0]
  | .internal n =>
    (if n.leaf_count_migration then 3 else 1) :: n.serialize n.leaf_count_migration
  | .leaf l => 2 :: encodeLeafBody l

/-- `Node::decode`. -/
def Node.decode (bytes : List Nat) : Option Node :=
  match bytes with
  | [] => none
  | tag :: rest =>
    if tag = 0 then some .null
    else if tag = 1 then (InternalNode.deserialize rest false).map .internal
    else if tag = 2 then (decodeLeafBody rest).map .leaf
    else if tag = 3 then (InternalNode.deserialize rest true).map .internal
    else none

/-! ## Keys as byte strings

A `KeyHash` is its 32-byte big-endian string; nibbles and bits are derived
most-significant first, and ordering is lexicographic (= byte-array
ordering in the source). -/

/-- The nibble sequence of a byte string, most-significant nibble first. -/
def keyNibbles : List Nat → List Nat
  | [] => []
  | b :: rest => b / 16 % 16 :: b % 16 :: keyNibbles rest

/-- The bit sequence of one byte, most significant first. -/
def byteBits (b : Nat) : List Bool :=
  [b.testBit 7, b.testBit 6, b.testBit 5, b.testBit 4,
   b.testBit 3, b.testBit 2, b.testBit 1, b.testBit 0]

/-- The bit sequence of a byte string, most significant first
(`iter_bits`). -/
def keyBits : List Nat → List Bool
  | [] => []
  | b :: rest => byteBits b ++ keyBits rest

/-- Strict lexicographic byte-string order (the `Ord` of `KeyHash`). -/
def bytesLt : List Nat → List Nat → Bool
  | [], [] => false
  | [], _ :: _ => true
  | _ :: _, [] => false
  | a :: as, b :: bs => if a < b then true else if b < a then false else bytesLt as bs

/-- `key <= other` for byte strings. -/
def bytesLe (a b : List Nat) : Bool :=
  a = b || bytesLt a b

/-- `common_prefix_nibbles_len` over two byte strings. -/
def commonPrefixLenAux : List Nat → List Nat → Nat
  | a :: as, b :: bs => if a = b then 1 + commonPrefixLenAux as bs else 0
  | _, _ => 0

/-- Length of the shared nibble prefix of two keys. -/
def commonPrefixNibblesLen (k1 k2 : List Nat) : Nat :=
  commonPrefixLenAux (keyNibbles k1) (keyNibbles k2)

/-! ## Restore (`restore.rs`)

Panics (`assert!`, `expect`, the `InternalNode` constructor) are modelled
with `Except Panic`; the hashers `Hi` (internal), `Hl` (leaf:
`SparseMerkleLeafNode::new(key_hash, value_hash).hash()`) and `Hv` (value
hash) are abstract parameters. -/

/-- Why the `InternalNode` constructor rejects its input. -/
inductive NewNodeErr where
  | emptyChildren : NewNodeErr
  | singleLeafChild : NewNodeErr
  deriving DecidableEq, Repr

/-- `InternalNode::new_impl` again, with the error reason exposed (the
`Option`-valued `new_impl` above is this composed with `toOption`). -/
def InternalNode.newChecked (cs : Children) (leaf_count_migration : Bool) :
    Except NewNodeErr InternalNode :=
  if numChildren cs = 0 then .error .emptyChildren
  else if numChildren cs = 1 ∧ (firstChild cs).elim false Child.is_leaf then
    .error .singleLeafChild
  else .ok ⟨cs, sumLeafCount cs, leaf_count_migration⟩

/-- The panics that the restore code can hit. -/
inductive Panic where
  | constructorFailed (e : NewNodeErr) : Panic
  | hashMustBeKnown : Panic
  | leafCountUnknown : Panic
  | mustHaveChild : Panic
  | leafExpected : Panic
  | rightmostNotInternal : Panic
  | hashAlreadyKnown : Panic
  | leafCountNotZero : Panic
  | indexBound : Panic
  | nibbleMissing : Panic
  | leafNotLowest : Panic
  | newLeafNotRight : Panic
  | corruptedNode : Panic
  | previousLeafMissing : Panic
  | sliceBound : Panic
  | notPowerOfTwo : Panic
  | frozenNotEmpty : Panic
  deriving DecidableEq, Repr

/-- The `LeafNode` as used by `restore.rs`: key hash and value hash (the
restorer never reads a stored value out of a leaf). -/
structure RLeafNode where
  key_hash : List Nat
  value_hash : List Nat
  deriving DecidableEq, Repr

/-- `ChildInfo` from `restore.rs`. -/
inductive ChildInfo where
  | internal (hash : Option (List Nat)) (leaf_count : Nat) : ChildInfo
  | leaf (node : RLeafNode) : ChildInfo
  deriving DecidableEq, Repr

/-- `ChildInfo::into_child`: an internal child must have a known hash
(`expect("Must have been initialized.")`). -/
def ChildInfo.into_child (Hl : List Nat → List Nat → List Nat) (version : Nat) :
    ChildInfo → Except Panic Child
  | .internal hash leaf_count =>
    match hash with
    | none => .error .hashMustBeKnown
    | some h => .ok ⟨h, version, .internal leaf_count⟩
  | .leaf node => .ok ⟨Hl node.key_hash node.value_hash, version, .leaf⟩

/-- `InternalInfo` from `restore.rs`: a node key and 16 child slots. -/
structure InternalInfo where
  node_key : NodeKey
  children : List (Option ChildInfo)
  deriving DecidableEq, Repr

/-- `InternalInfo::new_empty`. -/
def InternalInfo.new_empty (nk : NodeKey) : InternalInfo :=
  ⟨nk, List.replicate 16 none⟩

/-- `InternalInfo::set_child`. -/
def InternalInfo.set_child (info : InternalInfo) (index : Nat) (ci : ChildInfo) :
    InternalInfo :=
  ⟨info.node_key, info.children.set index (some ci)⟩

/-- Convert all the slots of an `InternalInfo` into `Child`ren. -/
def childInfosToChildren (Hl : List Nat → List Nat → List Nat) (version : Nat) :
    List (Option ChildInfo) → Except Panic Children
  | [] => .ok []
  | none :: rest => do
    let cs ← childInfosToChildren Hl version rest
    .ok (none :: cs)
  | some ci :: rest => do
    let c ← ci.into_child Hl version
    let cs ← childInfosToChildren Hl version rest
    .ok (some c :: cs)

/-- `InternalInfo::into_internal_node`: convert the slots and run the
`InternalNode` constructor (whose failure is the constructor panic). -/
def InternalInfo.into_internal_node (Hl : List Nat → List Nat → List Nat)
    (version : Nat) (info : InternalInfo) : Except Panic (NodeKey × InternalNode) := do
  let cs ← childInfosToChildren Hl version info.children
  match InternalNode.newChecked cs true with
  | .error e => .error (.constructorFailed e)
  | .ok node => .ok (info.node_key, node)

/-- A node as stored by the restorer (`NodeBatch` node entries). -/
inductive RNode where
  | internal (n : InternalNode) : RNode
  | leaf (l : RLeafNode) : RNode
  deriving DecidableEq, Repr

/-- `NodeBatch`: staged nodes and values. -/
structure NodeBatch where
  nodes : List (NodeKey × RNode)
  values : List (Nat × List Nat × List Nat)
  deriving DecidableEq, Repr

/-- The empty batch. -/
def NodeBatch.empty : NodeBatch := ⟨[], []⟩

/-- `NodeBatch::insert_node`. -/
def NodeBatch.insert_node (b : NodeBatch) (k : NodeKey) (n : RNode) : NodeBatch :=
  ⟨b.nodes ++ [(k, n)], b.values⟩

/-- `NodeBatch::insert_value`. -/
def NodeBatch.insert_value (b : NodeBatch) (version : Nat) (key value : List Nat) :
    NodeBatch :=
  ⟨b.nodes, b.values ++ [(version, key, value)]⟩

/-- `NodeBatch::is_empty`. -/
def NodeBatch.isEmpty (b : NodeBatch) : Bool :=
  b.nodes = [] ∧ b.values = []

/-- The restorer state (`JellyfishMerkleRestore`); `pendingNodes` models
the field `partial_nodes`, the right spine of the tree under
reconstruction, root first. -/
structure RestoreState where
  version : Nat
  pendingNodes : List InternalInfo
  frozen_nodes : NodeBatch
  previous_leaf : Option RLeafNode
  num_keys_received : Nat
  expected_root_hash : List Nat
  deriving DecidableEq, Repr

/-- A fresh restorer over an empty store (`JellyfishMerkleRestore::new`
when `get_rightmost_leaf` returns `None`, and `new_overwrite`): a single
empty partial root. -/
def freshRestore (version : Nat) (expected_root_hash : List Nat) : RestoreState :=
  ⟨version, [InternalInfo.new_empty (NodeKey.new_empty_path version)],
    NodeBatch.empty, none, 0, expected_root_hash⟩

/-- The restorer fields that the tree-building helpers (`freeze`,
`add_one`, …) never touch: everything except the partial spine and the
staged nodes — in particular the staged values, the previous leaf and the
key counter. -/
def SameMeta (s t : RestoreState) : Prop :=
  t.version = s.version ∧ t.expected_root_hash = s.expected_root_hash ∧
    t.previous_leaf = s.previous_leaf ∧ t.num_keys_received = s.num_keys_received ∧
    t.frozen_nodes.values = s.frozen_nodes.values

/-- Index of the rightmost occupied slot (`children.iter().rposition`). -/
def rpositionSome (cs : List (Option ChildInfo)) : Option Nat :=
  ((List.range cs.length).reverse).find? (fun i => (cs.getD i none).isSome)

/-- `freeze_previous_leaf`: emit the most recently inserted leaf — the
rightmost child of the deepest partial node — under its now-stable node
key. -/
def freezePreviousLeaf (st : RestoreState) : Except Panic RestoreState :=
  if st.num_keys_received = 0 then .ok st
  else
    match st.pendingNodes.getLast? with
    | none => .error .mustHaveChild
    | some last_node =>
      match rpositionSome last_node.children with
      | none => .error .mustHaveChild
      | some rightmost_child_index =>
        match last_node.children.getD rightmost_child_index none with
        | some (.leaf node) =>
          let child_node_key :=
            last_node.node_key.gen_child_node_key st.version rightmost_child_index
          .ok { st with frozen_nodes :=
            st.frozen_nodes.insert_node child_node_key (.leaf node) }
        | _ => .error .leafExpected

/-- One iteration of the `freeze_internal_nodes` loop: pop the deepest
partial node, materialise and stage it, and patch the parent's rightmost
slot with the computed hash and leaf count. -/
def freezeOneInternalNode (Hi : List Nat → List Nat → List Nat) (ph : List Nat)
    (Hl : List Nat → List Nat → List Nat) (st : RestoreState) (last_node : InternalInfo)
    (pending : List InternalInfo) : Except Panic RestoreState := do
  let (node_key, internal_node) ← last_node.into_internal_node Hl st.version
  let node_hash ←
    match InternalNode.hash Hi ph internal_node with
    | none => .error .corruptedNode
    | some h => Except.ok h
  let node_leaf_count ←
    match internal_node.leaf_count with
    | none => .error .leafCountUnknown
    | some lc => Except.ok lc
  let frozen := st.frozen_nodes.insert_node node_key (.internal internal_node)
  match pending.getLast? with
  | none => .ok { st with pendingNodes := pending, frozen_nodes := frozen }
  | some parent_node =>
    match rpositionSome parent_node.children with
    | none => .error .mustHaveChild
    | some rightmost_child_index =>
      match parent_node.children.getD rightmost_child_index none with
      | some (.internal hash leaf_count) =>
        if hash.isSome then .error .hashAlreadyKnown
        else if leaf_count ≠ 0 then .error .leafCountNotZero
        else
          let parent' := parent_node.set_child rightmost_child_index
            (.internal (some node_hash) node_leaf_count)
          .ok { st with
            pendingNodes := pending.dropLast ++ [parent'],
            frozen_nodes := frozen }
      | _ => .error .rightmostNotInternal

/-- Fuelled body of the `freeze_internal_nodes` `while` loop.  Each
iteration pops one partial node, so the loop runs at most
`partial_nodes.len()` times; the caller passes exactly that as fuel. -/
def freezeInternalNodesAux (Hi : List Nat → List Nat → List Nat) (ph : List Nat)
    (Hl : List Nat → List Nat → List Nat) :
    Nat → RestoreState → Nat → Except Panic RestoreState
  | 0, st, _ => .ok st
  | fuel + 1, st, num_remaining_nodes =>
    if num_remaining_nodes < st.pendingNodes.length then
      match st.pendingNodes.getLast? with
      | none => .error .mustHaveChild
      | some last_node => do
        let st' ← freezeOneInternalNode Hi ph Hl st last_node st.pendingNodes.dropLast
        freezeInternalNodesAux Hi ph Hl fuel st' num_remaining_nodes
    else .ok st

/-- `freeze_internal_nodes`: pop and freeze until only
`num_remaining_nodes` partial nodes remain. -/
def freezeInternalNodes (Hi : List Nat → List Nat → List Nat) (ph : List Nat)
    (Hl : List Nat → List Nat → List Nat) (st : RestoreState)
    (num_remaining_nodes : Nat) : Except Panic RestoreState :=
  freezeInternalNodesAux Hi ph Hl st.pendingNodes.length st num_remaining_nodes

/-- `freeze`: freeze the previous leaf, then the extra internal nodes. -/
def freeze (Hi : List Nat → List Nat → List Nat) (ph : List Nat)
    (Hl : List Nat → List Nat → List Nat) (st : RestoreState)
    (num_remaining : Nat) : Except Panic RestoreState := do
  let st' ← freezePreviousLeaf st
  freezeInternalNodes Hi ph Hl st' num_remaining

/-- The chain of fresh internal nodes pushed by `insert_at_leaf` for the
shared prefix: iteration `j` creates the node whose key is the first `j`
nibbles of the new key, with a single unknown-hash internal child at
nibble `j`. -/
def buildChain (version : Nat) (nibbles : List Nat) :
    Nat → Nat → Except Panic (List InternalInfo)
  | _, 0 => .ok []
  | j, count + 1 =>
    match nibbles.get? j with
    | none => .error .nibbleMissing
    | some next_nibble => do
      let info := (InternalInfo.new_empty ⟨version, nibbles.take j⟩).set_child
        next_nibble (.internal none 0)
      let rest ← buildChain version nibbles (j + 1) count
      .ok (info :: rest)

/-- `insert_at_leaf`: replace the slot holding the existing leaf by an
unknown internal child, push internal nodes for the common prefix of the
two keys, install the existing leaf at its diverging nibble, freeze the
previous right spine, and finally install the new leaf (which must be to
the right of the existing one). -/
def insertAtLeaf (Hi : List Nat → List Nat → List Nat) (ph : List Nat)
    (Hl : List Nat → List Nat → List Nat) (st : RestoreState) (child_index : Nat)
    (existing_leaf : RLeafNode) (new_key value_hash : List Nat) :
    Except Panic RestoreState := do
  let numExisting := st.pendingNodes.length
  let st ←
    match st.pendingNodes.getLast? with
    | none => .error .indexBound
    | some last => Except.ok { st with pendingNodes :=
        st.pendingNodes.dropLast ++
          [last.set_child child_index (.internal none 0)] }
  let cpl := commonPrefixNibblesLen existing_leaf.key_hash new_key
  let chain ← buildChain st.version (keyNibbles new_key) numExisting (cpl - numExisting)
  let st := { st with pendingNodes := st.pendingNodes ++ chain }
  let existing_child_index ←
    match (keyNibbles existing_leaf.key_hash).get? cpl with
    | none => .error .nibbleMissing
    | some n => Except.ok n
  let info := (InternalInfo.new_empty ⟨st.version, (keyNibbles new_key).take cpl⟩).set_child
    existing_child_index (.leaf existing_leaf)
  let st := { st with pendingNodes := st.pendingNodes ++ [info] }
  let st ← freeze Hi ph Hl st st.pendingNodes.length
  let new_child_index ←
    match (keyNibbles new_key).get? cpl with
    | none => .error .nibbleMissing
    | some n => Except.ok n
  if new_child_index ≤ existing_child_index then .error .newLeafNotRight
  else
    match st.pendingNodes.getLast? with
    | none => .error .indexBound
    | some last => .ok { st with pendingNodes :=
        st.pendingNodes.dropLast ++
          [last.set_child new_child_index (.leaf ⟨new_key, value_hash⟩)] }

/-- The `for i in 0..ROOT_NIBBLE_HEIGHT` walk of `add_one`: at level `i`,
an internal slot descends, a leaf slot (necessarily at the lowest partial
level) goes through `insert_at_leaf`, and an empty slot freezes the spine
below and installs the new leaf.  The fuel counts the remaining levels
(`ROOT_NIBBLE_HEIGHT - i`); the loop ends when it runs out. -/
def addOneLoop (Hi : List Nat → List Nat → List Nat) (ph : List Nat)
    (Hl : List Nat → List Nat → List Nat) (new_key value_hash : List Nat) :
    Nat → Nat → RestoreState → Except Panic RestoreState
  | 0, _, st => .ok st
  | fuel + 1, i, st =>
    match (keyNibbles new_key).get? i with
    | none => .error .nibbleMissing
    | some child_index =>
      match st.pendingNodes.get? i with
      | none => .error .indexBound
      | some info =>
        match info.children.getD child_index none with
        | some (.leaf node) =>
          if i = st.pendingNodes.length - 1 then
            insertAtLeaf Hi ph Hl st child_index node new_key value_hash
          else .error .leafNotLowest
        | some (.internal _ _) =>
          addOneLoop Hi ph Hl new_key value_hash fuel (i + 1) st
        | none => do
          let st' ← freeze Hi ph Hl st (i + 1)
          match st'.pendingNodes.get? i with
          | none => .error .indexBound
          | some info' =>
            let updated := info'.set_child child_index (.leaf ⟨new_key, value_hash⟩)
            .ok { st' with pendingNodes := st'.pendingNodes.set i updated }

/-- `add_one`. -/
def addOne (Hi : List Nat → List Nat → List Nat) (ph : List Nat)
    (Hl : List Nat → List Nat → List Nat) (st : RestoreState)
    (new_key value_hash : List Nat) : Except Panic RestoreState :=
  addOneLoop Hi ph Hl new_key value_hash ROOT_NIBBLE_HEIGHT 0 st

/-! ### Incremental verification (`restore.rs` lines 563-678) -/

/-- `usize::is_power_of_two`. -/
def isPow2 (n : Nat) : Bool :=
  n ≠ 0 && (n &&& (n - 1)) = 0

/-- `compute_left_sibling_impl`: hash of a slice of child-info slots and
whether the slice is "a leaf or empty" (collapsed). -/
def computeLeftSiblingImpl (Hi : List Nat → List Nat → List Nat) (ph : List Nat)
    (Hl : List Nat → List Nat → List Nat) (cs : List (Option ChildInfo)) :
    Except Panic (List Nat × Bool) :=
  match cs with
  | [] => .error .mustHaveChild
  | [c] =>
    match c with
    | some (.internal hash _) =>
      match hash with
      | none => .error .hashMustBeKnown
      | some h => .ok (h, false)
    | some (.leaf node) => .ok (Hl node.key_hash node.value_hash, true)
    | none => .ok (ph, true)
  | hd1 :: hd2 :: t =>
    if isPow2 (hd1 :: hd2 :: t).length then do
      let l ← computeLeftSiblingImpl Hi ph Hl
        ((hd1 :: hd2 :: t).take ((hd1 :: hd2 :: t).length / 2))
      let r ← computeLeftSiblingImpl Hi ph Hl
        ((hd1 :: hd2 :: t).drop ((hd1 :: hd2 :: t).length / 2))
      if l.1 = ph ∧ r.2 then .ok (r.1, true)
      else if l.2 ∧ r.1 = ph then .ok (l.1, true)
      else .ok (Hi l.1 r.1, false)
    else .error .notPowerOfTwo
termination_by cs.length
decreasing_by
  all_goals
  · simp only [List.length_take, List.length_drop, List.length_cons]
    omega

/-- `compute_left_sibling`: evaluate the recursion on the sibling range
`[sibling_half_start, sibling_half_start + 2^height)` of a partial node. -/
def computeLeftSibling (Hi : List Nat → List Nat → List Nat) (ph : List Nat)
    (Hl : List Nat → List Nat → List Nat) (info : InternalInfo) (n : Nat)
    (height : Nat) : Except Panic (List Nat) :=
  if height < 4 then
    let width := 1 <<< height
    let start := (get_child_and_sibling_half_start n height).2
    if start + width ≤ info.children.length then
      (computeLeftSiblingImpl Hi ph Hl ((info.children.drop start).take width)).map
        Prod.fst
    else .error .sliceBound
  else .error .sliceBound

/-- First phase of `verify`: walk the bits of the previous key, collecting
a left sibling for every 1-bit (from the partial spine within its depth,
the placeholder below it) and counting the 0-bits as visited right
siblings. -/
def collectLeftSiblingsAux (Hi : List Nat → List Nat → List Nat) (ph : List Nat)
    (Hl : List Nat → List Nat → List Nat) (st : RestoreState) (key : List Nat) :
    List Bool → Nat → Except Panic (List (List Nat) × Nat)
  | [], _ => .ok ([], 0)
  | bit :: rest, i =>
    if bit then do
      let sibling ←
        if st.pendingNodes.length * 4 ≤ i then Except.ok ph
        else
          match st.pendingNodes.get? (i / 4) with
          | none => Except.error .indexBound
          | some pnode =>
            computeLeftSibling Hi ph Hl pnode ((keyNibbles key).getD (i / 4) 0)
              (3 - i % 4)
      let (sibs, cnt) ← collectLeftSiblingsAux Hi ph Hl st key rest (i + 1)
      .ok (sibling :: sibs, cnt)
    else do
      let (sibs, cnt) ← collectLeftSiblingsAux Hi ph Hl st key rest (i + 1)
      .ok (sibs, cnt + 1)

/-- Second phase of `verify`: walking the bits in reverse, drop trailing
placeholder left siblings (for 1-bits) and give back surplus right-sibling
visits (for 0-bits), stopping as soon as neither applies. -/
def trimSiblings (ph : List Nat) (rightLen : Nat) :
    List Bool → List (List Nat) → Nat → Except Panic (List (List Nat) × Nat)
  | [], sibs, cnt => .ok (sibs, cnt)
  | bit :: rest, sibs, cnt =>
    if bit then
      match sibs.getLast? with
      | none => .error .mustHaveChild
      | some lastSib =>
        if lastSib = ph then trimSiblings ph rightLen rest sibs.dropLast cnt
        else .ok (sibs, cnt)
    else if rightLen < cnt then trimSiblings ph rightLen rest sibs (cnt - 1)
    else .ok (sibs, cnt)

/-- The range proof handed to `add_chunk`: its right siblings and its
(opaque) `verify` method. -/
structure RangeProof where
  right_siblings : List (List Nat)
  verifyFn : List Nat → List Nat × List Nat → List (List Nat) → Bool

/-- `JellyfishMerkleRestore::verify`: returns `false` where the source
returns a verification error (the `ensure!` on sibling counts and the
proof's own verdict), and a `Panic` where it panics. -/
def RestoreState.verify (Hi : List Nat → List Nat → List Nat) (ph : List Nat)
    (Hl : List Nat → List Nat → List Nat) (st : RestoreState) (proof : RangeProof) :
    Except Panic Bool :=
  match st.previous_leaf with
  | none => .error .previousLeafMissing
  | some previous_leaf => do
    let previous_key := previous_leaf.key_hash
    let (left_siblings, num_visited) ←
      collectLeftSiblingsAux Hi ph Hl st previous_key (keyBits previous_key) 0
    if num_visited < proof.right_siblings.length then .ok false
    else do
      let (left_siblings, _) ← trimSiblings ph proof.right_siblings.length
        (keyBits previous_key).reverse left_siblings num_visited
      .ok (proof.verifyFn st.expected_root_hash
        (previous_key, previous_leaf.value_hash) left_siblings.reverse)

/-! ### `add_chunk` and `finish` -/

/-- `RestoreError` (without the carried payloads). -/
inductive RestoreErr where
  | emptyChunk : RestoreErr
  | outOfOrder : RestoreErr
  | verificationFailed : RestoreErr
  | writeFailed : RestoreErr
  deriving DecidableEq, Repr

/-- The `for (key, value) in chunk` loop of `add_chunk_impl`: check the
ordering against the previous leaf, stage the value, `add_one`, update the
previous leaf and the key counter.  An out-of-order key stops the loop with
the state mutated so far. -/
def addChunkLoop (Hi : List Nat → List Nat → List Nat) (ph : List Nat)
    (Hl : List Nat → List Nat → List Nat) (Hv : List Nat → List Nat) :
    RestoreState → List (List Nat × List Nat) →
    Except Panic (Option RestoreErr × RestoreState)
  | st, [] => .ok (none, st)
  | st, (key, value) :: rest =>
    let ooo :=
      match st.previous_leaf with
      | some prev => bytesLe key prev.key_hash
      | none => false
    if ooo then .ok (some .outOfOrder, st)
    else do
      let value_hash := Hv value
      let st := { st with frozen_nodes := st.frozen_nodes.insert_value st.version key value }
      let st ← addOne Hi ph Hl st key value_hash
      let st := { st with previous_leaf := some ⟨key, value_hash⟩,
                          num_keys_received := st.num_keys_received + 1 }
      addChunkLoop Hi ph Hl Hv st rest

/-- What one `add_chunk` call did: the returned result (`none` = `Ok`),
the restorer state afterwards, and the batches passed to
`write_node_batch`. -/
structure ChunkOutcome where
  result : Option RestoreErr
  state : RestoreState
  written : List NodeBatch
  deriving Repr

/-- `add_chunk_impl`: reject an empty chunk, run the loop, verify, and only
then write the frozen nodes (clearing them on success).  `writeOk` is
whether the store's batch write succeeds. -/
def addChunkImpl (Hi : List Nat → List Nat → List Nat) (ph : List Nat)
    (Hl : List Nat → List Nat → List Nat) (Hv : List Nat → List Nat)
    (writeOk : Bool) (st : RestoreState) (chunk : List (List Nat × List Nat))
    (proof : RangeProof) : Except Panic ChunkOutcome :=
  if chunk.isEmpty then .ok ⟨some .emptyChunk, st, []⟩
  else do
    let (r, st') ← addChunkLoop Hi ph Hl Hv st chunk
    match r with
    | some e => .ok ⟨some e, st', []⟩
    | none => do
      let ok ← st'.verify Hi ph Hl proof
      if ok then
        if writeOk then
          .ok ⟨none, { st' with frozen_nodes := NodeBatch.empty }, [st'.frozen_nodes]⟩
        else .ok ⟨some .writeFailed, st', [st'.frozen_nodes]⟩
      else .ok ⟨some .verificationFailed, st', []⟩

/-- The leaf scan of `finish_impl`'s single-leaf special case: the loop
keeps the last `ChildInfo::Leaf` it sees. -/
def lastLeafIn (cs : List (Option ChildInfo)) : Option RLeafNode :=
  cs.foldl (fun acc slot =>
    match slot with
    | some (.leaf n) => some n
    | _ => acc) none

/-- `finish_impl`: a sole partial node with exactly one child that is a
leaf writes that leaf at the empty-path key; otherwise `freeze(0)` and
flush.  Returns the result and the batches passed to `write_node_batch`. -/
def finishImpl (Hi : List Nat → List Nat → List Nat) (ph : List Nat)
    (Hl : List Nat → List Nat → List Nat) (writeOk : Bool) (st : RestoreState) :
    Except Panic (Option RestoreErr × List NodeBatch) :=
  let freezePath : Except Panic (Option RestoreErr × List NodeBatch) := do
    let st' ← freeze Hi ph Hl st 0
    if writeOk then .ok (none, [st'.frozen_nodes])
    else .ok (some .writeFailed, [st'.frozen_nodes])
  match st.pendingNodes with
  | [node0] =>
    let num_children := node0.children.countP (·.isSome)
    let leaf := lastLeafIn node0.children
    if num_children = 1 then
      match leaf with
      | some node =>
        if st.frozen_nodes.isEmpty then
          let batch := st.frozen_nodes.insert_node
            (NodeKey.new_empty_path st.version) (.leaf node)
          if writeOk then .ok (none, [batch]) else .ok (some .writeFailed, [batch])
        else .error .frozenNotEmpty
      | none => freezePath
    else freezePath
  | _ => freezePath

/-! ## Iterator (`iterator.rs`)

The store is a pair of functions: `getNode : NodeKey → Option Node` (the
`TreeReader::get_node`, `none` both for an absent node and a read error)
and `getValue : version → key_hash → Option value`.  The traversal stack is
kept top-first (the source pushes at the end of a `Vec`). -/

/-- `NodeVisitInfo` from `iterator.rs`. -/
structure NodeVisitInfo where
  node_key : NodeKey
  node : InternalNode
  children_bitmap : Nat
  next_child_to_visit : Nat
  deriving DecidableEq, Repr

/-- `NodeVisitInfo::new`: point at the leftmost existing child
(`assert!(children_bitmap != 0)` modelled with `Option`). -/
def NodeVisitInfo.new (node_key : NodeKey) (node : InternalNode) :
    Option NodeVisitInfo :=
  let bm := (genBitmaps node.children).1
  if bm = 0 then none
  else some ⟨node_key, node, bm, 1 <<< ctz16 bm⟩

/-- The `while next & bitmap == 0 { next <<= 1 }` scan; fuel 17 covers
every one-hot start position inside 16 bits. -/
def shiftToBit : Nat → Nat → Nat → Option Nat
  | 0, _, _ => none
  | fuel + 1, next, bm => if next &&& bm = 0 then shiftToBit fuel (next <<< 1) bm else some next

/-- `NodeVisitInfo::new_next_child_to_visit`: point at `next_child_to_visit`
or the closest existing child to its right
(`assert!(children_bitmap >= next_child_to_visit)` modelled with
`Option`, as is the non-terminating shift when no such child exists). -/
def NodeVisitInfo.new_next_child_to_visit (node_key : NodeKey) (node : InternalNode)
    (next_child_to_visit : Nat) : Option NodeVisitInfo :=
  let bm := (genBitmaps node.children).1
  let start := 1 <<< next_child_to_visit
  if bm < start then none
  else
    match shiftToBit 17 start bm with
    | none => none
    | some nx => some ⟨node_key, node, bm, nx⟩

/-- `NodeVisitInfo::is_rightmost` (the leading-zeros `assert!` is the
`none` case). -/
def NodeVisitInfo.is_rightmost (info : NodeVisitInfo) : Option Bool :=
  if lz16 info.next_child_to_visit < lz16 info.children_bitmap then none
  else some (lz16 info.next_child_to_visit = lz16 info.children_bitmap)

/-- `NodeVisitInfo::advance`: shift to the next existing child on the
right (panics when already rightmost). -/
def NodeVisitInfo.advance (info : NodeVisitInfo) : Option NodeVisitInfo := do
  let r ← info.is_rightmost
  if r then none
  else
    match shiftToBit 17 (info.next_child_to_visit <<< 1) info.children_bitmap with
    | none => none
    | some nx => some { info with next_child_to_visit := nx }

/-- The iterator state: version, the traversal stack (top first) and the
`done` flag. -/
structure IterState where
  version : Nat
  stack : List NodeVisitInfo
  done : Bool
  deriving DecidableEq, Repr

/-- `cleanup_stack`: pop while the top's current child is the rightmost,
then advance the first one that is not. -/
def cleanupStack : List NodeVisitInfo → Option (List NodeVisitInfo)
  | [] => some []
  | info :: rest => do
    let r ← info.is_rightmost
    if r then cleanupStack rest
    else do
      let info' ← info.advance
      some (info' :: rest)

/-- The `while let Node::Internal` descent of `JellyfishMerkleIterator::new`
(fuel bounds the walk down; 66 exceeds any 64-nibble path). -/
def iterNewAux (getNode : NodeKey → Option Node) (version : Nat)
    (starting_key : List Nat) :
    Nat → NodeKey → List Nat → List NodeVisitInfo → Option IterState
  | 0, _, _, _ => none
  | fuel + 1, cur, nibbles, stack =>
    match getNode cur with
    | none => none
    | some (.internal node) =>
      match nibbles with
      | [] => none
      | child_index :: rest =>
        match childAt node.children child_index with
        | some child =>
          match NodeVisitInfo.new_next_child_to_visit cur node child_index with
          | none => none
          | some frame =>
            iterNewAux getNode version starting_key fuel
              (cur.gen_child_node_key child.version child_index) rest (frame :: stack)
        | none =>
          let bm := (genBitmaps node.children).1
          if bm = 0 then none
          else if child_index < 15 - lz16 bm then
            match NodeVisitInfo.new_next_child_to_visit cur node child_index with
            | none => none
            | some frame => some ⟨version, frame :: stack, false⟩
          else
            match cleanupStack stack with
            | none => none
            | some stack' => some ⟨version, stack', false⟩
    | some (.leaf leaf_node) =>
      if bytesLt leaf_node.key_hash starting_key then
        match cleanupStack stack with
        | none => none
        | some stack' => some ⟨version, stack', stack' = []⟩
      else some ⟨version, stack, false⟩
    | some .null => some ⟨version, stack, true⟩

/-- `JellyfishMerkleIterator::new`. -/
def iterNew (getNode : NodeKey → Option Node) (version : Nat)
    (starting_key : List Nat) : Option IterState :=
  iterNewAux getNode version starting_key 66 (NodeKey.new_empty_path version)
    (keyNibbles starting_key) []

/-- The `loop` of `next()`: fetch the top frame's current child; push an
internal node, emit a leaf (reading its value and cleaning up the stack).
Fuel bounds the pushes per call. -/
def iterNextLoop (getNode : NodeKey → Option Node)
    (getValue : Nat → List Nat → Option (List Nat)) (version : Nat) :
    Nat → List NodeVisitInfo → Option (Option (List Nat × List Nat) × IterState)
  | 0, _ => none
  | fuel + 1, stack =>
    match stack with
    | [] => none
    | info :: _ =>
      let child_index := ctz16 info.next_child_to_visit
      match childAt info.node.children child_index with
      | none => none
      | some child =>
        let node_key := info.node_key.gen_child_node_key child.version child_index
        match getNode node_key with
        | none => none
        | some (.internal internal_node) =>
          match NodeVisitInfo.new node_key internal_node with
          | none => none
          | some frame => iterNextLoop getNode getValue version fuel (frame :: stack)
        | some (.leaf leaf_node) =>
          match getValue version leaf_node.key_hash with
          | none => none
          | some value =>
            match cleanupStack stack with
            | none => none
            | some stack' =>
              some (some (leaf_node.key_hash, value), ⟨version, stack', false⟩)
        | some .null => none

/-- `next()`: `done` ends the iteration; an empty stack reads the root
(the single-leaf tree emits its leaf, an internal root means exhaustion);
otherwise run the descent loop. -/
def iterNext (getNode : NodeKey → Option Node)
    (getValue : Nat → List Nat → Option (List Nat)) (st : IterState) :
    Option (Option (List Nat × List Nat) × IterState) :=
  if st.done then some (none, st)
  else if st.stack = [] then
    match getNode (NodeKey.new_empty_path st.version) with
    | none => none
    | some (.leaf leaf_node) =>
      match getValue st.version leaf_node.key_hash with
      | none => none
      | some value =>
        some (some (leaf_node.key_hash, value), { st with done := true })
    | some (.internal _) => some (none, st)
    | some .null => none
  else iterNextLoop getNode getValue st.version 66 st.stack

/-- The existing children with their nibbles in ascending order
(`children_sorted`). -/
def childrenSorted (cs : Children) : List (Nat × Child) :=
  (List.range 16).filterMap (fun i => (childAt cs i).map (fun c => (i, c)))

/-- `skip_leaves`: scan the children in ascending order, skipping every
child whose whole leaf count stays at or below the target index, and
return the first child that reaches past it (with the updated skip count).
An unknown leaf count fails. -/
def skipLeavesAux (target_leaf_idx : Nat) :
    List (Nat × Child) → Nat → Option (Nat × Child × Nat)
  | [], _ => none
  | (nibble, child) :: rest, leaves_skipped =>
    match child.leaf_count with
    | none => none
    | some cnt =>
      if leaves_skipped + cnt ≤ target_leaf_idx then
        skipLeavesAux target_leaf_idx rest (leaves_skipped + cnt)
      else some (nibble, child, leaves_skipped)

/-- The `for _ in 0..=ROOT_NIBBLE_HEIGHT` descent of `new_by_index`. -/
def newByIndexAux (getNode : NodeKey → Option Node) (version : Nat)
    (start_idx : Nat) :
    Nat → NodeKey → Node → Nat → List NodeVisitInfo → Option IterState
  | 0, _, _, _, _ => none
  | fuel + 1, cur, node, leaves_skipped, stack =>
    match node with
    | .null => none
    | .leaf _ =>
      if leaves_skipped = start_idx then some ⟨version, stack, false⟩ else none
    | .internal internal_node =>
      match skipLeavesAux start_idx (childrenSorted internal_node.children)
          leaves_skipped with
      | none => none
      | some (nibble, child, skipped') =>
        let next_key := cur.gen_child_node_key child.version nibble
        match NodeVisitInfo.new_next_child_to_visit cur internal_node nibble with
        | none => none
        | some frame =>
          match getNode next_key with
          | none => none
          | some next_node =>
            newByIndexAux getNode version start_idx fuel next_key next_node skipped'
              (frame :: stack)

/-- `JellyfishMerkleIterator::new_by_index`: `start_idx >= leaf_count`
finishes immediately, otherwise descend guided by the children's leaf
counts. -/
def iterNewByIndex (getNode : NodeKey → Option Node) (version : Nat)
    (start_idx : Nat) : Option IterState :=
  match getNode (NodeKey.new_empty_path version) with
  | none => none
  | some root =>
    match root.leaf_count with
    | none => none
    | some total_leaves =>
      if total_leaves ≤ start_idx then some ⟨version, [], true⟩
      else
        newByIndexAux getNode version start_idx 65 (NodeKey.new_empty_path version)
          root 0 []

/-- Run the iterator to exhaustion, collecting the yielded pairs; `none`
when the fuel runs out or any call fails. -/
def collectAll (getNode : NodeKey → Option Node)
    (getValue : Nat → List Nat → Option (List Nat)) :
    Nat → IterState → Option (List (List Nat × List Nat))
  | 0, _ => none
  | fuel + 1, st =>
    match iterNext getNode getValue st with
    | none => none
    | some (none, _) => some []
    | some (some kv, st') => (collectAll getNode getValue fuel st').map (kv :: ·)

/-! ## Reference tree model

`JTree` is a mathematical jellyfish tree: a leaf stores a 32-byte key and
its value, an internal node has 16 child slots, `.empty` marks an absent
slot (and the empty tree at the root).  `storeOf` renders a tree as the
store that the iterator reads at one version. -/

/-- A mathematical jellyfish tree. -/
inductive JTree where
  | empty : JTree
  | leaf (key value : List Nat) : JTree
  | node (cs : Fin 16 → JTree) : JTree

/-- Number of leaves. -/
def JTree.leafCount : JTree → Nat
  | .empty => 0
  | .leaf _ _ => 1
  | .node cs => (List.finRange 16).foldr (fun i acc => (cs i).leafCount + acc) 0

/-- The (key, value) pairs of the leaves, left to right. -/
def JTree.flatten : JTree → List (List Nat × List Nat)
  | .empty => []
  | .leaf k v => [(k, v)]
  | .node cs => (List.finRange 16).foldr (fun i acc => (cs i).flatten ++ acc) []

/-- Is this the empty (absent) tree? -/
def JTree.isEmptyT : JTree → Bool
  | .empty => true
  | _ => false

/-- Is this a leaf? -/
def JTree.isLeafT : JTree → Bool
  | .leaf _ _ => true
  | _ => false

/-- The `Child` entry a subtree contributes to its parent's slot (the hash
is irrelevant to the iterator and left empty). -/
def renderChild (v : Nat) : JTree → Option Child
  | .empty => none
  | .leaf _ _ => some ⟨[], v, .leaf⟩
  | .node cs => some ⟨[], v, .internal (JTree.node cs).leafCount⟩

/-- The 16 rendered child slots of an internal tree node. -/
def renderChildren (v : Nat) (cs : Fin 16 → JTree) : Children :=
  (List.finRange 16).map (fun i => renderChild v (cs i))

/-- The stored `Node` for a subtree (`none` for an absent subtree). -/
def renderNode (v : Nat) : JTree → Option Node
  | .empty => none
  | .leaf k val => some (.leaf ⟨k, [], val⟩)
  | .node cs =>
    some (.internal ⟨renderChildren v cs, sumLeafCount (renderChildren v cs), true⟩)

/-- Walk a nibble path down the tree. -/
def subtreeAt : JTree → List Nat → Option JTree
  | t, [] => some t
  | .node cs, i :: rest => if h : i < 16 then subtreeAt (cs ⟨i, h⟩) rest else none
  | .leaf _ _, _ :: _ => none
  | .empty, _ :: _ => none

/-- The node store of a tree at version `v`: the node named by a key is the
rendering of the subtree at its path (the empty tree stores `Null` at the
root only). -/
def storeOf (t : JTree) (v : Nat) : NodeKey → Option Node := fun nk =>
  if nk.version = v then
    match subtreeAt t nk.nibble_path with
    | none => none
    | some .empty => if nk.nibble_path = [] then some .null else none
    | some u => renderNode v u
  else none

/-- The value store of a tree at version `v`. -/
def valuesOf (t : JTree) (v : Nat) : Nat → List Nat → Option (List Nat) :=
  fun ver k =>
    if ver = v then (t.flatten.find? (fun kv => decide (kv.1 = k))).map Prod.snd
    else none

/-- Structural well-formedness at a path: a leaf's 32 bytes extend the
path's nibbles; an internal node sits above depth 64, has at least one
child, not a single leaf child, and well-formed children. -/
def JTree.wfAux : JTree → List Nat → Bool
  | .empty, _ => true
  | .leaf k _, p =>
    k.length = 32 && k.all (· < 256) && p.isPrefixOf (keyNibbles k)
  | .node cs, p =>
    decide (p.length < 64) &&
    (let cnt := (List.finRange 16).countP (fun i => !(cs i).isEmptyT)
     1 ≤ cnt &&
       (cnt ≠ 1 ||
         !(List.finRange 16).any (fun i => !(cs i).isEmptyT && (cs i).isLeafT))) &&
    (List.finRange 16).all (fun i => (cs i).wfAux (p ++ [i.val]))

/-- A well-formed tree. -/
def JTree.Wf (t : JTree) : Bool :=
  t.wfAux []

/-- The leaves of the slots `j, …, 15`, left to right. -/
def flattenFrom (cs : Fin 16 → JTree) (j : Nat) : List (List Nat × List Nat) :=
  ((List.finRange 16).drop j).foldr (fun i acc => (cs i).flatten ++ acc) []

/-- The nibble a traversal frame currently points at. -/
def framePtr (f : NodeVisitInfo) : Nat := ctz16 f.next_child_to_visit

/-- The leaves a frame still covers when its pointer is at `j`: the leaves
of the pointed subtree's slots from `j` on. -/
def frameRem (t : JTree) (f : NodeVisitInfo) (j : Nat) :
    List (List Nat × List Nat) :=
  match subtreeAt t f.node_key.nibble_path with
  | some (.node cs) => flattenFrom cs j
  | _ => []

/-- The leaves still to come from the frames below the top: each counts
from one past its pointer (its pointed child is being explored above). -/
def stackRemAux (t : JTree) : List NodeVisitInfo → List (List Nat × List Nat)
  | [] => []
  | f :: rest => frameRem t f (framePtr f + 1) ++ stackRemAux t rest

/-- The leaves a traversal stack has yet to emit: the top frame counts
from its pointer (not yet visited), the others from one past theirs. -/
def stackRem (t : JTree) : List NodeVisitInfo → List (List Nat × List Nat)
  | [] => []
  | f :: rest => frameRem t f (framePtr f) ++ stackRemAux t rest

/-- A traversal frame is faithful to the tree: its key addresses an
internal subtree, its node is that subtree's rendering, its bitmap the
rendered existence bitmap, and its pointer a one-hot position at an
occupied slot. -/
def FrameOK (t : JTree) (v : Nat) (f : NodeVisitInfo) : Prop :=
  f.node_key.version = v ∧
  ∃ cs : Fin 16 → JTree, subtreeAt t f.node_key.nibble_path = some (.node cs) ∧
    f.node = ⟨renderChildren v cs, sumLeafCount (renderChildren v cs), true⟩ ∧
    f.children_bitmap = (genBitmaps (renderChildren v cs)).1 ∧
    ∃ p : Fin 16, f.next_child_to_visit = 1 <<< p.val ∧ (cs p).isEmptyT = false

/-- The stack invariant: every frame is faithful and each frame's path
extends the one below it at its pointer. -/
def StackInv (t : JTree) (v : Nat) : List NodeVisitInfo → Prop
  | [] => True
  | f :: rest => FrameOK t v f ∧ StackInv t v rest ∧
      (match rest with
       | [] => True
       | g :: _ => f.node_key.nibble_path =
           g.node_key.nibble_path ++ [framePtr g])

/-! ## Between partial nodes and internal nodes (for §4.6 vs §4.1) -/

/-- The `Child` corresponding to a restore-time slot whose internal hashes
are known (an unknown hash yields no child; the C6 hypotheses exclude it). -/
def ciToChild (Hl : List Nat → List Nat → List Nat) (v : Nat) :
    Option ChildInfo → Option Child
  | none => none
  | some (.internal hash lc) => hash.map (fun h => ⟨h, v, .internal lc⟩)
  | some (.leaf node) => some ⟨Hl node.key_hash node.value_hash, v, .leaf⟩

/-- The `Children` of the internal node holding the same children as a
partial node. -/
def ciChildren (Hl : List Nat → List Nat → List Nat) (v : Nat)
    (cis : List (Option ChildInfo)) : Children :=
  cis.map (ciToChild Hl v)

/-- Is the range empty or collapsed to a single leaf (the meaning of the
boolean of `compute_left_sibling_impl`)? -/
def collapsedB (cs : Children) (start width : Nat) : Bool :=
  match existingIndices cs start width with
  | [] => true
  | [i] => isLeafAt cs i
  | _ => false

/-- The concatenated child records of slots `i, …, 15` (the loop of
`InternalNode::serialize` restricted to a suffix; at `i = 0` this is the
whole record section). -/
def recordsFrom (persist : Bool) (cs : Children) (i : Nat) : List Nat :=
  (List.range' i (16 - i)).foldr (fun j acc =>
    match childAt cs j with
    | none => acc
    | some c => serializeChildRecord persist c ++ acc) []

/-- Validity of a stored child: a 32-byte hash, a `u64` version, and a
`usize` leaf count. -/
def ValidChild (c : Child) : Prop :=
  c.hash.length = 32 ∧ c.version < 2 ^ 64 ∧
    (match c.node_type with
     | .internal lc => lc < 2 ^ 64
     | _ => True)

/-- The conditions under which one child record survives the encode/decode
round trip: with leaf counts persisted, an `Internal` child must carry a
positive count (count 0 is decoded as `InternalLegacy`); without them, an
`Internal` child cannot be represented at all (every non-leaf child decodes
as `InternalLegacy`). -/
def ChildRoundtripOK (persist : Bool) (c : Child) : Prop :=
  match c.node_type with
  | .internal lc => persist = true ∧ 1 ≤ lc
  | _ => True

/-- Validity of a whole node as the `InternalNode` constructor establishes
it: 16 slots, at least one child, not a single leaf child, the cached leaf
count, and valid children. -/
def ValidInternalNode (n : InternalNode) : Prop :=
  n.children.length = 16 ∧ 1 ≤ numChildren n.children ∧
    ¬ (numChildren n.children = 1 ∧ (firstChild n.children).elim false Child.is_leaf) ∧
    n.leaf_count = sumLeafCount n.children ∧
    ∀ c ∈ n.children, ∀ ch, c = some ch → ValidChild ch

/-- The amended round-trip condition for an internal node. -/
def NodeRoundtripOK (n : InternalNode) : Prop :=
  ∀ c ∈ n.children, ∀ ch, c = some ch → ChildRoundtripOK n.leaf_count_migration ch

/-- Validity of a whole `Node`: hash lengths for a leaf, the constructor
invariants for an internal node. -/
def ValidNode : Node → Prop
  | .null => True
  | .leaf l => l.key_hash.length = 32 ∧ l.value_hash.length = 32
  | .internal nd => ValidInternalNode nd

/-- The amended round-trip side condition lifted to `Node`. -/
def NodeOK : Node → Prop
  | .internal nd => NodeRoundtripOK nd
  | _ => True

/-- A 32-byte hash used by the concrete examples. -/
def exHash : List Nat := List.replicate 32 7

/-- A stored child recording an `Internal` subtree with known leaf count 1. -/
def cexChild : Child := ⟨exHash, 0, .internal 1⟩

/-- A migration-disabled internal node whose only child is `Internal`-typed:
the legacy serialization cannot represent the child's node type. -/
def cexNode : InternalNode :=
  ⟨some cexChild :: List.replicate 15 none, some 1, false⟩

/-- A concrete valid node key for the round-trip examples. -/
def wKey : NodeKey := ⟨5, [3, 10, 15]⟩

/-- A concrete leaf node for the round-trip examples. -/
def wLeaf : LeafNode := ⟨List.replicate 32 1, List.replicate 32 2, [9, 9]⟩

/-- A one-pair chunk used by the restore examples. -/
def wChunk : List (List Nat × List Nat) := [(List.replicate 32 0, [1])]

/-- A range proof whose verdict is always negative. -/
def wProof : RangeProof := ⟨[], fun _ _ _ => false⟩

/-- A constant value hasher for the restore examples. -/
def wHv : List Nat → List Nat := fun _ => List.replicate 32 3

/-- A constant two-argument hasher for the restore examples. -/
def wH2 : List Nat → List Nat → List Nat := fun _ _ => []

/-- The restorer state after `wChunk` has been added to a fresh restorer
(version 0, expected root `replicate 32 9`) and its proof has been
rejected: the staged value, the previous leaf and the key counter all
retain the rejected chunk. -/
def wst : RestoreState :=
  ⟨0, [⟨⟨0, []⟩, (List.replicate 16 (none : Option ChildInfo)).set 0
      (some (.leaf ⟨List.replicate 32 0, List.replicate 32 3⟩))⟩],
    ⟨[], [(0, List.replicate 32 0, [1])]⟩,
    some ⟨List.replicate 32 0, List.replicate 32 3⟩, 1, List.replicate 32 9⟩

/-- The slots of a small two-leaf example tree for the iterator claims:
leaves at nibbles 0 and 1. -/
def wcs1 : Fin 16 → JTree := fun i =>
  if i.val = 0 then JTree.leaf (List.replicate 32 0) [7]
  else if i.val = 1 then JTree.leaf (16 :: List.replicate 31 0) [9]
  else JTree.empty

/-- A well-formed two-leaf example tree. -/
def wT : JTree := JTree.node wcs1

/-- The all-zero starting key. -/
def wS : List Nat := List.replicate 32 0

/-- The `children_sorted` suffix of a rendered node from slot `c` on. -/
def slotsFrom (v : Nat) (cs : Fin 16 → JTree) (c : Nat) : List (Nat × Child) :=
  ((List.range 16).drop c).filterMap
    (fun i => (childAt (renderChildren v cs) i).map (fun ch => (i, ch)))

/-! ## Theorems.  First, the bitmap toolkit. -/

theorem genBitmaps_fst_testBit (cs : Children) (i : Nat) :
    (genBitmaps cs).1.testBit i = (childAt cs i).isSome := by
  induction cs generalizing i with
  | nil => simp [genBitmaps, childAt]
  | cons slot rest ih =>
    cases slot with
    | none =>
      cases i with
      | zero => simp [genBitmaps, childAt, Nat.testBit_zero, Nat.mul_mod_right]
      | succ j =>
        simp only [genBitmaps, childAt, List.getD_cons_succ, Nat.testBit_add_one]
        rw [Nat.mul_div_cancel_left _ (by norm_num : (0:Nat) < 2)]
        simpa [childAt] using ih j
    | some c =>
      cases i with
      | zero =>
        simp [genBitmaps, childAt, Nat.testBit_zero, Nat.add_mul_mod_self_left,
          Nat.mul_add_mod]
      | succ j =>
        simp only [genBitmaps, childAt, List.getD_cons_succ, Nat.testBit_add_one]
        rw [Nat.add_comm (2 * (genBitmaps rest).1) 1, Nat.add_mul_div_left _ _
          (by norm_num : (0:Nat) < 2)]
        simpa [childAt] using ih j

theorem genBitmaps_snd_testBit (cs : Children) (i : Nat) :
    (genBitmaps cs).2.testBit i = isLeafAt cs i := by
  induction cs generalizing i with
  | nil => simp [genBitmaps, childAt, isLeafAt]
  | cons slot rest ih =>
    cases slot with
    | none =>
      cases i with
      | zero => simp [genBitmaps, childAt, isLeafAt, Nat.testBit_zero,
          Nat.mul_mod_right]
      | succ j =>
        simp only [genBitmaps, isLeafAt, childAt, List.getD_cons_succ,
          Nat.testBit_add_one]
        rw [Nat.mul_div_cancel_left _ (by norm_num : (0:Nat) < 2)]
        simpa [isLeafAt, childAt] using ih j
    | some c =>
      have hb : (if c.is_leaf then (1:Nat) else 0) = Bool.toNat c.is_leaf := by
        cases c.is_leaf <;> rfl
      cases i with
      | zero =>
        simp only [genBitmaps, isLeafAt, childAt, List.getD_cons_zero,
          Nat.testBit_zero, hb, Option.elim]
        cases hc : c.is_leaf <;>
          simp [hc, Nat.mul_mod_right, Nat.mul_add_mod]
      | succ j =>
        simp only [genBitmaps, isLeafAt, childAt, List.getD_cons_succ,
          Nat.testBit_add_one, hb]
        have hdd : (2 * (genBitmaps rest).2 + Bool.toNat c.is_leaf) / 2 =
            (genBitmaps rest).2 := by
          cases c.is_leaf <;> simp [Bool.toNat] <;> omega
        rw [hdd]
        simpa [isLeafAt, childAt] using ih j

theorem rangeMask_testBit (s w i : Nat) :
    (rangeMask s w).testBit i = (decide (s ≤ i) && decide (i < s + w)) := by
  have h1 : (1 : Nat) <<< w = 2 ^ w := by
    rw [Nat.shiftLeft_eq, Nat.one_mul]
  rw [rangeMask, h1, Nat.testBit_shiftLeft, Nat.testBit_two_pow_sub_one]
  rcases Nat.lt_or_ge i s with hi | hi
  · simp [Nat.not_le.mpr hi]
  · have h3 : (i - s < w) = (i < s + w) := by
      apply propext
      omega
    simp [ge_iff_le, hi, h3]

theorem rangeBitmaps_fst_testBit (s w : Nat) (bm : Nat × Nat) (i : Nat) :
    (rangeBitmaps s w bm).1.testBit i =
      (bm.1.testBit i && decide (s ≤ i) && decide (i < s + w)) := by
  rw [rangeBitmaps, Nat.testBit_and, rangeMask_testBit, ← Bool.and_assoc]

theorem rangeBitmaps_snd_testBit (s w : Nat) (bm : Nat × Nat) (i : Nat) :
    (rangeBitmaps s w bm).2.testBit i =
      (bm.2.testBit i && decide (s ≤ i) && decide (i < s + w)) := by
  rw [rangeBitmaps, Nat.testBit_and, rangeMask_testBit, ← Bool.and_assoc]

theorem rangeBitmaps_compose (s w s2 w2 : Nat) (bm : Nat × Nat)
    (h1 : s ≤ s2) (h2 : s2 + w2 ≤ s + w) :
    rangeBitmaps s2 w2 (rangeBitmaps s w bm) = rangeBitmaps s2 w2 bm := by
  have fst : (rangeBitmaps s2 w2 (rangeBitmaps s w bm)).1 = (rangeBitmaps s2 w2 bm).1 := by
    apply Nat.eq_of_testBit_eq
    intro i
    rw [rangeBitmaps_fst_testBit, rangeBitmaps_fst_testBit, rangeBitmaps_fst_testBit]
    rcases Nat.lt_or_ge i s2 with hi | hi
    · simp [Nat.not_le.mpr hi]
    · rcases Nat.lt_or_ge i (s2 + w2) with hi2 | hi2
      · simp [hi, hi2, Nat.le_trans h1 hi, Nat.lt_of_lt_of_le hi2 h2]
      · simp [Nat.not_lt.mpr hi2]
  have snd : (rangeBitmaps s2 w2 (rangeBitmaps s w bm)).2 = (rangeBitmaps s2 w2 bm).2 := by
    apply Nat.eq_of_testBit_eq
    intro i
    rw [rangeBitmaps_snd_testBit, rangeBitmaps_snd_testBit, rangeBitmaps_snd_testBit]
    rcases Nat.lt_or_ge i s2 with hi | hi
    · simp [Nat.not_le.mpr hi]
    · rcases Nat.lt_or_ge i (s2 + w2) with hi2 | hi2
      · simp [hi, hi2, Nat.le_trans h1 hi, Nat.lt_of_lt_of_le hi2 h2]
      · simp [Nat.not_lt.mpr hi2]
  exact Prod.ext fst snd

theorem rangeBitmaps_fst_lt (s w : Nat) (bm : Nat × Nat) (h : s + w ≤ 16) :
    (rangeBitmaps s w bm).1 < 2 ^ 16 := by
  apply Nat.lt_pow_two_of_testBit
  intro i hi
  rw [rangeBitmaps_fst_testBit]
  have : ¬ i < s + w := by omega
  simp [this]

theorem rangeBitmaps_snd_lt (s w : Nat) (bm : Nat × Nat) (h : s + w ≤ 16) :
    (rangeBitmaps s w bm).2 < 2 ^ 16 := by
  apply Nat.lt_pow_two_of_testBit
  intro i hi
  rw [rangeBitmaps_snd_testBit]
  have : ¬ i < s + w := by omega
  simp [this]

theorem existingIndices_eq_filter (cs : Children) (s w : Nat) :
    existingIndices cs s w =
      (List.range 16).filter
        (fun i => (rangeBitmaps s w (genBitmaps cs)).1.testBit i) := by
  rw [existingIndices]
  apply List.filter_congr
  intro i _
  rw [rangeBitmaps_fst_testBit, genBitmaps_fst_testBit]
  cases h1 : (childAt cs i).isSome <;> cases h2 : decide (s ≤ i) <;>
    cases h3 : decide (i < s + w) <;> simp [h1, h2, h3]

theorem popcount16_length (cs : Children) (s w : Nat) :
    popcount16 (rangeBitmaps s w (genBitmaps cs)).1 =
      (existingIndices cs s w).length := by
  rw [popcount16, existingIndices_eq_filter, List.countP_eq_length_filter]

theorem existing_nil_iff (cs : Children) (s w : Nat) (h : s + w ≤ 16) :
    (rangeBitmaps s w (genBitmaps cs)).1 = 0 ↔ existingIndices cs s w = [] := by
  constructor
  · intro h0
    rw [existingIndices_eq_filter, h0]
    simp
  · intro hnil
    apply Nat.eq_of_testBit_eq
    intro i
    rw [Nat.zero_testBit]
    by_cases hi : i < 16
    · by_contra hbit
      simp only [Bool.not_eq_false] at hbit
      have : i ∈ existingIndices cs s w := by
        rw [existingIndices_eq_filter]
        apply List.mem_filter.mpr
        exact ⟨List.mem_range.mpr hi, hbit⟩
      rw [hnil] at this
      exact absurd this (List.not_mem_nil i)
    · have := rangeBitmaps_fst_lt s w (genBitmaps cs) h
      exact Nat.testBit_lt_two_pow (Nat.lt_of_lt_of_le this
        (Nat.pow_le_pow_right (by norm_num) (by omega)))

theorem ctz16Aux_spec (fuel : Nat) :
    ∀ n, n ≠ 0 → n < 2 ^ fuel →
      n.testBit (ctz16Aux fuel n) = true ∧
        ∀ j, j < ctz16Aux fuel n → n.testBit j = false := by
  induction fuel with
  | zero =>
    intro n hn hlt
    omega
  | succ f ih =>
    intro n hn hlt
    by_cases hodd : n % 2 = 1
    · constructor
      · simp [ctz16Aux, hodd, Nat.testBit_zero]
      · intro j hj
        simp [ctz16Aux, hodd] at hj
    · have hne : n / 2 ≠ 0 := by omega
      have hlt2 : n / 2 < 2 ^ f := by
        rw [Nat.pow_succ] at hlt
        omega
      obtain ⟨h1, h2⟩ := ih (n / 2) hne hlt2
      constructor
      · simp only [ctz16Aux, hodd, if_false]
        rw [Nat.add_comm, Nat.testBit_add_one]
        exact h1
      · intro j hj
        simp only [ctz16Aux, hodd, if_false] at hj
        cases j with
        | zero => simp [Nat.testBit_zero]; omega
        | succ j2 =>
          rw [Nat.testBit_add_one]
          exact h2 j2 (by omega)

theorem ctz16_eq_of_least (n i : Nat) (hn : n < 2 ^ 16)
    (hbit : n.testBit i = true) (hleast : ∀ j, j < i → n.testBit j = false) :
    ctz16 n = i := by
  have hne : n ≠ 0 := by
    intro h0
    rw [h0, Nat.zero_testBit] at hbit
    exact Bool.false_ne_true hbit
  obtain ⟨h1, h2⟩ := ctz16Aux_spec 16 n hne hn
  rcases Nat.lt_trichotomy (ctz16 n) i with h | h | h
  · have hf := hleast _ h
    exact absurd (hf.symm.trans h1) (by decide)
  · exact h
  · have hf := h2 i h
    exact absurd (hbit.symm.trans hf) (by decide)

theorem filter_range_head (p : Nat → Bool) :
    ∀ (n a i : Nat) (rest : List Nat), (List.range' a n).filter p = i :: rest →
      p i = true ∧ (∀ j, a ≤ j → j < i → p j = false) ∧ a ≤ i ∧ i < a + n := by
  intro n
  induction n with
  | zero =>
    intro a i rest h
    simp [List.range'] at h
  | succ m ih =>
    intro a i rest h
    rw [List.range'] at h
    by_cases hpa : p a
    · rw [List.filter_cons_of_pos hpa] at h
      injection h with h5 h6
      subst h5
      refine ⟨hpa, ?_, le_refl _, by omega⟩
      intro j hj1 hj2
      omega
    · rw [List.filter_cons_of_neg hpa] at h
      obtain ⟨h1, h2, h3, h4⟩ := ih (a + 1) i rest h
      refine ⟨h1, ?_, by omega, by omega⟩
      intro j hj1 hj2
      rcases Nat.eq_or_lt_of_le hj1 with rfl | hj3
      · simpa using hpa
      · exact h2 j hj3 hj2

theorem existing_head_ctz (cs : Children) (s w : Nat) (h : s + w ≤ 16)
    (i : Nat) (rest : List Nat) (hx : existingIndices cs s w = i :: rest) :
    ctz16 (rangeBitmaps s w (genBitmaps cs)).1 = i := by
  rw [existingIndices_eq_filter, List.range_eq_range'] at hx
  obtain ⟨h1, h2, h3, h4⟩ := filter_range_head _ 16 0 i rest hx
  exact ctz16_eq_of_least _ i (rangeBitmaps_fst_lt s w _ h) h1
    (fun j hj => h2 j (Nat.zero_le j) hj)

theorem existing_mem_isSome (cs : Children) (s w i : Nat)
    (h : i ∈ existingIndices cs s w) : (childAt cs i).isSome = true := by
  rw [existingIndices] at h
  have := List.mem_filter.mp h
  simp only [Bool.and_eq_true, decide_eq_true_eq] at this
  exact this.2.2

theorem existing_mem_range (cs : Children) (s w i : Nat)
    (h : i ∈ existingIndices cs s w) : i < 16 ∧ s ≤ i ∧ i < s + w := by
  rw [existingIndices] at h
  have h2 := List.mem_filter.mp h
  simp only [Bool.and_eq_true, decide_eq_true_eq, List.mem_range] at h2
  exact ⟨h2.1, h2.2.1.1, h2.2.1.2⟩

theorem isLeafAt_isSome (cs : Children) (i : Nat) (h : isLeafAt cs i = true) :
    (childAt cs i).isSome = true := by
  rw [isLeafAt] at h
  cases hc : childAt cs i with
  | none => rw [hc] at h; simp [Option.elim] at h
  | some c => rfl

theorem rangeBitmaps_zero_width (s : Nat) (bm : Nat × Nat) :
    rangeBitmaps s 0 bm = (0, 0) := by
  simp [rangeBitmaps, rangeMask, Nat.shiftLeft_zero, Nat.zero_shiftLeft,
    Nat.and_zero]

theorem merkleHash_congr (Hi : List Nat → List Nat → List Nat) (ph : List Nat)
    (cs : Children) (s w : Nat) (bm1 bm2 : Nat × Nat)
    (h : rangeBitmaps s w bm1 = rangeBitmaps s w bm2) :
    merkleHash Hi ph cs s w bm1 = merkleHash Hi ph cs s w bm2 := by
  conv_lhs => rw [merkleHash]
  conv_rhs => rw [merkleHash]
  simp only [h]

theorem second_bit_leaf_iff (cs : Children) (s w i : Nat) (hle : s + w ≤ 16)
    (hex : existingIndices cs s w = [i]) :
    ((rangeBitmaps s w (genBitmaps cs)).2 ≠ 0) ↔ isLeafAt cs i = true := by
  have hmem : i ∈ existingIndices cs s w := by rw [hex]; exact List.mem_cons_self i []
  obtain ⟨hi16, his, hiw⟩ := existing_mem_range cs s w i hmem
  constructor
  · intro hL
    have hbit : ∃ j, (rangeBitmaps s w (genBitmaps cs)).2.testBit j = true := by
      by_contra hno
      push_neg at hno
      exact hL (Nat.eq_of_testBit_eq (fun j => by
        rw [Nat.zero_testBit]
        exact Bool.eq_false_iff.mpr (fun ht => absurd ht (by simp [hno j]))))
    obtain ⟨j, hj⟩ := hbit
    rw [rangeBitmaps_snd_testBit, genBitmaps_snd_testBit] at hj
    simp only [Bool.and_eq_true, decide_eq_true_eq] at hj
    obtain ⟨⟨hleaf, hjs⟩, hjw⟩ := hj
    have hjex : j ∈ existingIndices cs s w := by
      rw [existingIndices]
      apply List.mem_filter.mpr
      refine ⟨List.mem_range.mpr (by omega), ?_⟩
      simp only [Bool.and_eq_true, decide_eq_true_eq]
      exact ⟨⟨hjs, hjw⟩, isLeafAt_isSome cs j hleaf⟩
    rw [hex, List.mem_singleton] at hjex
    rw [← hjex]
    exact hleaf
  · intro hleaf
    intro h0
    have : (rangeBitmaps s w (genBitmaps cs)).2.testBit i = true := by
      rw [rangeBitmaps_snd_testBit, genBitmaps_snd_testBit]
      simp [hleaf, his, hiw]
    rw [h0, Nat.zero_testBit] at this
    exact Bool.false_ne_true this

theorem merkleHash_eq_spec (Hi : List Nat → List Nat → List Nat) (ph : List Nat)
    (cs : Children) :
    ∀ w s, s + w ≤ 16 →
      merkleHash Hi ph cs s w (genBitmaps cs) =
        some (specSubtreeHash Hi ph cs s w) := by
  intro w
  induction w using Nat.strong_induction_on with
  | _ w ih =>
    intro s hle
    rw [merkleHash, specSubtreeHash]
    by_cases h0 : (rangeBitmaps s w (genBitmaps cs)).1 = 0
    · have hnil : existingIndices cs s w = [] := (existing_nil_iff cs s w hle).mp h0
      rw [dif_pos h0, dif_pos hnil]
    · have hnonnil : existingIndices cs s w ≠ [] := by
        intro hn
        exact h0 ((existing_nil_iff cs s w hle).mpr hn)
      obtain ⟨i, rest, hex⟩ : ∃ i rest, existingIndices cs s w = i :: rest := by
        cases hx : existingIndices cs s w with
        | nil => exact absurd hx hnonnil
        | cons i rest => exact ⟨i, rest, rfl⟩
      have hctz : ctz16 (rangeBitmaps s w (genBitmaps cs)).1 = i :=
        existing_head_ctz cs s w hle i rest hex
      have hpc : popcount16 (rangeBitmaps s w (genBitmaps cs)).1 = rest.length + 1 := by
        rw [popcount16_length, hex]
        simp
      have hhead : (existingIndices cs s w).headD 0 = i := by rw [hex]; rfl
      have hmem : i ∈ existingIndices cs s w := by
        rw [hex]; exact List.mem_cons_self i rest
      have hcond : (w = 1 ∨ (popcount16 (rangeBitmaps s w (genBitmaps cs)).1 = 1 ∧
          (rangeBitmaps s w (genBitmaps cs)).2 ≠ 0)) ↔
          (w = 1 ∨ ((existingIndices cs s w).length = 1 ∧
            isLeafAt cs ((existingIndices cs s w).headD 0))) := by
        constructor
        · rintro (h1 | ⟨hpc1, hL⟩)
          · exact Or.inl h1
          · have hrest : rest = [] := by
              rw [hpc] at hpc1
              exact List.length_eq_zero.mp (by omega)
            subst hrest
            refine Or.inr ⟨by rw [hex]; rfl, ?_⟩
            rw [hhead]
            exact (second_bit_leaf_iff cs s w i hle hex).mp hL
        · rintro (h1 | ⟨hlen1, hleaf⟩)
          · exact Or.inl h1
          · have hrest : rest = [] := by
              rw [hex] at hlen1
              simpa using hlen1
            subst hrest
            refine Or.inr ⟨by rw [hpc]; rfl, ?_⟩
            rw [hhead] at hleaf
            exact (second_bit_leaf_iff cs s w i hle hex).mpr hleaf
      rw [dif_neg h0, dif_neg hnonnil]
      by_cases hc : w = 1 ∨ (popcount16 (rangeBitmaps s w (genBitmaps cs)).1 = 1 ∧
          (rangeBitmaps s w (genBitmaps cs)).2 ≠ 0)
      · rw [if_pos hc, if_pos (hcond.mp hc), hctz, hhead]
        obtain ⟨c, hch⟩ := Option.isSome_iff_exists.mp
          (existing_mem_isSome cs s w i hmem)
        rw [hch]
        rfl
      · rw [if_neg hc, if_neg (fun hcc => hc (hcond.mpr hcc))]
        have hw0 : w ≠ 0 := by
          intro hz
          subst hz
          rw [rangeBitmaps_zero_width] at h0
          exact h0 rfl
        have hw1 : w ≠ 1 := fun h1 => hc (Or.inl h1)
        have hwge : 2 ≤ w := by omega
        have e1 : merkleHash Hi ph cs s (w / 2) (rangeBitmaps s w (genBitmaps cs)) =
            merkleHash Hi ph cs s (w / 2) (genBitmaps cs) :=
          merkleHash_congr Hi ph cs s (w / 2) _ _
            (rangeBitmaps_compose s w s (w / 2) (genBitmaps cs) (le_refl s) (by omega))
        have e2 : merkleHash Hi ph cs (s + w / 2) (w / 2)
            (rangeBitmaps s w (genBitmaps cs)) =
            merkleHash Hi ph cs (s + w / 2) (w / 2) (genBitmaps cs) :=
          merkleHash_congr Hi ph cs (s + w / 2) (w / 2) _ _
            (rangeBitmaps_compose s w (s + w / 2) (w / 2) (genBitmaps cs)
              (by omega) (by omega))
        rw [e1, e2, ih (w / 2) (by omega) s (by omega),
          ih (w / 2) (by omega) (s + w / 2) (by omega)]
        rfl

/-- C2: for every `InternalNode`, `hash()` equals the spec's recursive
sparse-Merkle evaluation at `start = 0`, `width = 16`: a range with no
children hashes to the placeholder; a range of width 1, or a range
containing exactly one child that is a leaf, hashes to that single child's
stored hash; every other range hashes the combination of its two halves —
and in particular a range whose only child is a non-leaf does not collapse:
the evaluation descends into the halves. -/
theorem claim_C2_internal_node_hash (Hi : List Nat → List Nat → List Nat)
    (ph : List Nat) (n : InternalNode) :
    InternalNode.hash Hi ph n = some (specSubtreeHash Hi ph n.children 0 16) ∧
    (∀ s w i, s + w ≤ 16 → 2 ≤ w → existingIndices n.children s w = [i] →
      isLeafAt n.children i = false →
      specSubtreeHash Hi ph n.children s w =
        Hi (specSubtreeHash Hi ph n.children s (w / 2))
           (specSubtreeHash Hi ph n.children (s + w / 2) (w / 2))) := by
  constructor
  · exact merkleHash_eq_spec Hi ph n.children 16 0 (by norm_num)
  · intro s w i hle hw hex hnl
    rw [specSubtreeHash]
    rw [dif_neg (by rw [hex]; simp)]
    rw [if_neg]
    rintro (h1 | ⟨_, hleaf⟩)
    · omega
    · rw [hex] at hleaf
      simp only [List.headD_cons] at hleaf
      rw [hnl] at hleaf
      exact Bool.false_ne_true hleaf

theorem half_start_bound :
    ∀ n, n < 16 → ∀ h, h < 4 →
      (get_child_and_sibling_half_start n h).2 + (1 <<< h) ≤ 16 ∧
        (get_child_and_sibling_half_start n h).1 + (1 <<< h) ≤ 16 := by
  decide

theorem getChildAux_fst (Hi : List Nat → List Nat → List Nat) (ph : List Nat)
    (node : InternalNode) (nk : NodeKey) (n : Nat) (hn : n < 16) :
    ∀ hs : List Nat, (∀ h ∈ hs, h < 4) →
      getChildWithoutSiblingsAux node nk n (genBitmaps node.children) hs =
        (getChildWithSiblingsAux Hi ph node nk n (genBitmaps node.children) hs).map
          Prod.fst := by
  intro hs
  induction hs with
  | nil => intro _; rfl
  | cons h t iht =>
    intro hbound
    have hh4 : h < 4 := hbound h (List.mem_cons_self h t)
    have hb := half_start_bound n hn h hh4
    simp only [getChildWithoutSiblingsAux, getChildWithSiblingsAux]
    rw [merkleHash_eq_spec Hi ph node.children (1 <<< h)
      (get_child_and_sibling_half_start n h).2 hb.1]
    have hstart : (get_child_and_sibling_half_start n h).1 = get_child_half_start n h :=
      rfl
    by_cases h0 : (rangeBitmaps (get_child_half_start n h) (1 <<< h)
        (genBitmaps node.children)).1 = 0
    · rw [hstart] at *
      simp [h0]
    · rw [hstart] at *
      by_cases hc : 1 <<< h = 1 ∨
          (popcount16 (rangeBitmaps (get_child_half_start n h) (1 <<< h)
            (genBitmaps node.children)).1 = 1 ∧
          (rangeBitmaps (get_child_half_start n h) (1 <<< h)
            (genBitmaps node.children)).2 ≠ 0)
      · simp only [h0, if_neg h0, if_pos hc]
        cases hch : childAt node.children (ctz16 (rangeBitmaps (get_child_half_start n h)
            (1 <<< h) (genBitmaps node.children)).1) with
        | none => simp
        | some c => simp
      · simp only [h0, if_neg h0, if_neg hc]
        rw [iht (fun x hx => hbound x (List.mem_cons_of_mem h hx))]
        cases getChildWithSiblingsAux Hi ph node nk n (genBitmaps node.children) t with
        | none => simp
        | some pr => simp

/-- C5: for every `InternalNode`, node key and nibble `n < 16`,
`get_child_without_siblings` returns exactly the child decision (the first
component) of `get_child_with_siblings`. -/
theorem claim_C5_child_without_siblings (Hi : List Nat → List Nat → List Nat)
    (ph : List Nat) (node : InternalNode) (nk : NodeKey) (n : Nat) (hn : n < 16) :
    node.get_child_without_siblings nk n =
      (node.get_child_with_siblings Hi ph nk n).map Prod.fst :=
  getChildAux_fst Hi ph node nk n hn [3, 2, 1, 0] (by decide)

theorem mem_existing_iff (cs : Children) (s w i : Nat) :
    i ∈ existingIndices cs s w ↔
      (i < 16 ∧ s ≤ i ∧ i < s + w ∧ (childAt cs i).isSome = true) := by
  rw [existingIndices]
  rw [List.mem_filter, List.mem_range]
  simp only [Bool.and_eq_true, decide_eq_true_eq]
  constructor
  · rintro ⟨h1, ⟨h2, h3⟩, h4⟩
    exact ⟨h1, h2, h3, h4⟩
  · rintro ⟨h1, h2, h3, h4⟩
    exact ⟨h1, ⟨h2, h3⟩, h4⟩

theorem existing_nodup (cs : Children) (s w : Nat) :
    (existingIndices cs s w).Nodup := by
  rw [existingIndices]
  exact List.Nodup.filter _ (List.nodup_range 16)

theorem nodup_singletonOrNil {l : List Nat} {i : Nat} (hnd : l.Nodup)
    (hall : ∀ x ∈ l, x = i) : l = [] ∨ l = [i] := by
  cases l with
  | nil => exact Or.inl rfl
  | cons x t =>
    have hx : x = i := hall x (List.mem_cons_self x t)
    subst hx
    cases t with
    | nil => exact Or.inr rfl
    | cons y t2 =>
      have hy : y = x := hall y (List.mem_cons_of_mem x (List.mem_cons_self y t2))
      rw [List.nodup_cons] at hnd
      exact absurd (hy ▸ List.mem_cons_self y t2) hnd.1

theorem twoMem_shape {l : List Nat} {x y : Nat} (hx : x ∈ l) (hy : y ∈ l)
    (hne : x ≠ y) : ∃ a b t, l = a :: b :: t := by
  cases l with
  | nil => exact absurd hx (List.not_mem_nil x)
  | cons a t =>
    cases t with
    | nil =>
      rw [List.mem_singleton] at hx hy
      exact absurd (hx.trans hy.symm) hne
    | cons b t2 => exact ⟨a, b, t2, rfl⟩

theorem childAt_ciChildren (Hl : List Nat → List Nat → List Nat) (v : Nat)
    (cis : List (Option ChildInfo)) (i : Nat) :
    childAt (ciChildren Hl v cis) i = ciToChild Hl v (cis.getD i none) := by
  induction cis generalizing i with
  | nil => cases i <;> rfl
  | cons slot rest ih =>
    cases i with
    | zero => rfl
    | succ j => exact ih j

theorem spec_nil (Hi : List Nat → List Nat → List Nat) (ph : List Nat)
    (cs : Children) (s w : Nat) (h : existingIndices cs s w = []) :
    specSubtreeHash Hi ph cs s w = ph := by
  rw [specSubtreeHash, dif_pos h]

theorem spec_singleton_leaf (Hi : List Nat → List Nat → List Nat) (ph : List Nat)
    (cs : Children) (s w i : Nat) (hex : existingIndices cs s w = [i])
    (hleaf : isLeafAt cs i = true) :
    specSubtreeHash Hi ph cs s w = (childAt cs i).elim ph Child.hash := by
  rw [specSubtreeHash, dif_neg (by rw [hex]; simp)]
  rw [if_pos (Or.inr ⟨by rw [hex]; rfl, by rw [hex]; exact hleaf⟩)]
  rw [hex]
  rfl

theorem spec_descend (Hi : List Nat → List Nat → List Nat) (ph : List Nat)
    (cs : Children) (s w : Nat) (hne : existingIndices cs s w ≠ [])
    (hw1 : w ≠ 1)
    (hnc : ¬ ((existingIndices cs s w).length = 1 ∧
      isLeafAt cs ((existingIndices cs s w).headD 0) = true)) :
    specSubtreeHash Hi ph cs s w =
      Hi (specSubtreeHash Hi ph cs s (w / 2))
         (specSubtreeHash Hi ph cs (s + w / 2) (w / 2)) := by
  rw [specSubtreeHash, dif_neg hne, if_neg]
  rintro (h1 | h2)
  · exact hw1 h1
  · exact hnc h2

theorem spec_ne_ph (Hi : List Nat → List Nat → List Nat) (ph : List Nat)
    (hHi : ∀ a b, Hi a b ≠ ph) (cs : Children)
    (hchild : ∀ i c, childAt cs i = some c → c.hash ≠ ph) (s w : Nat)
    (hne : existingIndices cs s w ≠ []) :
    specSubtreeHash Hi ph cs s w ≠ ph := by
  rw [specSubtreeHash, dif_neg hne]
  by_cases hc : w = 1 ∨ ((existingIndices cs s w).length = 1 ∧
      isLeafAt cs ((existingIndices cs s w).headD 0) = true)
  · rw [if_pos hc]
    obtain ⟨j, rest, hex⟩ : ∃ j rest, existingIndices cs s w = j :: rest := by
      cases hx : existingIndices cs s w with
      | nil => exact absurd hx hne
      | cons j rest => exact ⟨j, rest, rfl⟩
    have hmem : j ∈ existingIndices cs s w := by
      rw [hex]; exact List.mem_cons_self j rest
    obtain ⟨c, hch⟩ := Option.isSome_iff_exists.mp (existing_mem_isSome cs s w j hmem)
    rw [hex]
    simp only [List.headD_cons]
    rw [hch]
    exact hchild j c hch
  · rw [if_neg hc]
    exact hHi _ _

theorem collapsedB_nil (cs : Children) (s w : Nat)
    (h : existingIndices cs s w = []) : collapsedB cs s w = true := by
  rw [collapsedB, h]

theorem collapsedB_singleton (cs : Children) (s w i : Nat)
    (h : existingIndices cs s w = [i]) : collapsedB cs s w = isLeafAt cs i := by
  rw [collapsedB, h]

theorem collapsedB_big (cs : Children) (s w : Nat) (a b : Nat) (t : List Nat)
    (h : existingIndices cs s w = a :: b :: t) : collapsedB cs s w = false := by
  rw [collapsedB, h]

theorem isPow2_two_pow (m : Nat) : isPow2 (2 ^ m) = true := by
  rw [isPow2]
  have h1 : (2 : Nat) ^ m ≠ 0 := Nat.pos_iff_ne_zero.mp (Nat.pos_pow_of_pos m (by norm_num))
  have h2 : 2 ^ m &&& (2 ^ m - 1) = 0 := by
    apply Nat.eq_of_testBit_eq
    intro i
    rw [Nat.testBit_and, Nat.testBit_two_pow, Nat.testBit_two_pow_sub_one,
      Nat.zero_testBit]
    by_cases hm : m = i
    · subst hm; simp
    · simp [hm]
  simp [h1, h2]

theorem filter_range_eq_singleton :
    ∀ s, s < 16 → (List.range 16).filter (fun i => decide (i = s)) = [s] := by
  decide

theorem existing_width_one (cs : Children) (s : Nat) (hs : s < 16) :
    existingIndices cs s 1 = if (childAt cs s).isSome then [s] else [] := by
  rw [existingIndices]
  have hcongr : (List.range 16).filter
      (fun i => decide (s ≤ i) && decide (i < s + 1) && (childAt cs i).isSome) =
      (List.range 16).filter (fun i => decide (i = s) && (childAt cs s).isSome) := by
    apply List.filter_congr
    intro i _
    by_cases hi : i = s
    · subst hi
      simp
    · have h2 : ¬ (s ≤ i ∧ i < s + 1) := by omega
      rcases Nat.lt_or_ge i s with h3 | h3
      · simp [Nat.not_le.mpr h3, hi]
      · have : ¬ i < s + 1 := by omega
        simp [this, hi]
  rw [hcongr]
  cases hsome : (childAt cs s).isSome
  · simp
  · simp only [Bool.and_true]
    exact filter_range_eq_singleton s hs

theorem spec_collapse_w1 (Hi : List Nat → List Nat → List Nat) (ph : List Nat)
    (cs : Children) (s : Nat) (hex : existingIndices cs s 1 = [s]) :
    specSubtreeHash Hi ph cs s 1 = (childAt cs s).elim ph Child.hash := by
  rw [specSubtreeHash, dif_neg (by rw [hex]; simp), if_pos (Or.inl rfl), hex]
  rfl

theorem ciChildren_hash_ne_ph (Hi ph : List Nat → List Nat → List Nat)
    (hHl : ∀ a b, ph a b ≠ Hi [] []) : True := trivial

theorem computeLeftSiblingImpl_spec (Hi : List Nat → List Nat → List Nat)
    (ph : List Nat) (Hl : List Nat → List Nat → List Nat) (v : Nat)
    (hHi : ∀ a b, Hi a b ≠ ph) (hHl : ∀ a b, Hl a b ≠ ph)
    (cis : List (Option ChildInfo)) (hlen : cis.length = 16)
    (hgood : ∀ i h lc, cis.getD i none = some (.internal h lc) →
      ∃ hv, h = some hv ∧ hv ≠ ph) :
    ∀ k s, s + 2 ^ k ≤ 16 →
      computeLeftSiblingImpl Hi ph Hl ((cis.drop s).take (2 ^ k)) =
        .ok (specSubtreeHash Hi ph (ciChildren Hl v cis) s (2 ^ k),
             collapsedB (ciChildren Hl v cis) s (2 ^ k)) := by
  have hchild : ∀ i c, childAt (ciChildren Hl v cis) i = some c → c.hash ≠ ph := by
    intro i c h
    rw [childAt_ciChildren] at h
    cases hslot : cis.getD i none with
    | none => rw [hslot] at h; exact absurd h (by simp [ciToChild])
    | some ci =>
      rw [hslot] at h
      cases ci with
      | internal hh lc =>
        obtain ⟨hv, rfl, hne⟩ := hgood i hh lc hslot
        simp only [ciToChild, Option.map_some] at h
        cases h
        exact hne
      | leaf node =>
        simp only [ciToChild] at h
        cases h
        exact hHl _ _
  intro k
  induction k with
  | zero =>
    intro s hle
    have hs : s < 16 := by omega
    have hslen : s < cis.length := by omega
    have hslice : (cis.drop s).take (2 ^ 0) = [cis.getD s none] := by
      rw [List.drop_eq_getElem_cons hslen]
      rw [List.getD_eq_getElem?_getD, List.getElem?_eq_getElem hslen]
      rfl
    have hw1 : (2 : Nat) ^ 0 = 1 := rfl
    rw [hslice, hw1]
    have hchAt : childAt (ciChildren Hl v cis) s = ciToChild Hl v (cis.getD s none) :=
      childAt_ciChildren Hl v cis s
    cases hslot : cis.getD s none with
    | none =>
      have hnone : childAt (ciChildren Hl v cis) s = none := by
        rw [hchAt, hslot]; rfl
      have hex : existingIndices (ciChildren Hl v cis) s 1 = [] := by
        rw [existing_width_one _ s hs, hnone]
        rfl
      rw [spec_nil Hi ph _ s 1 hex, collapsedB_nil _ s 1 hex]
      simp [computeLeftSiblingImpl]
    | some ci =>
      cases ci with
      | internal hh lc =>
        obtain ⟨hv, rfl, _⟩ := hgood s hh lc hslot
        have hsome : childAt (ciChildren Hl v cis) s = some ⟨hv, v, .internal lc⟩ := by
          rw [hchAt, hslot]; rfl
        have hex : existingIndices (ciChildren Hl v cis) s 1 = [s] := by
          rw [existing_width_one _ s hs, hsome]
          rfl
        rw [spec_collapse_w1 Hi ph _ s hex, collapsedB_singleton _ s 1 s hex, hsome]
        simp [computeLeftSiblingImpl, isLeafAt, hsome, Option.elim, Child.is_leaf]
      | leaf node =>
        have hsome : childAt (ciChildren Hl v cis) s =
            some ⟨Hl node.key_hash node.value_hash, v, .leaf⟩ := by
          rw [hchAt, hslot]; rfl
        have hex : existingIndices (ciChildren Hl v cis) s 1 = [s] := by
          rw [existing_width_one _ s hs, hsome]
          rfl
        rw [spec_collapse_w1 Hi ph _ s hex, collapsedB_singleton _ s 1 s hex, hsome]
        simp [computeLeftSiblingImpl, isLeafAt, hsome, Option.elim, Child.is_leaf]
  | succ k ih =>
    intro s hle
    have hpow : (2 : Nat) ^ (k + 1) = 2 ^ k + 2 ^ k := by
      rw [Nat.pow_succ]
      omega
    have h2kpos : 0 < 2 ^ k := Nat.pos_pow_of_pos k (by norm_num)
    have hlehalf1 : s + 2 ^ k ≤ 16 := by omega
    have hlehalf2 : (s + 2 ^ k) + 2 ^ k ≤ 16 := by omega
    have hslen : ((cis.drop s).take (2 ^ (k + 1))).length = 2 ^ (k + 1) := by
      rw [List.length_take, List.length_drop, hlen]
      omega
    have hpos : 2 ≤ 2 ^ (k + 1) := by
      have := Nat.pos_pow_of_pos k (show 0 < 2 by norm_num)
      omega
    obtain ⟨a, b, t, hsl⟩ : ∃ a b t, (cis.drop s).take (2 ^ (k + 1)) = a :: b :: t := by
      cases hx : (cis.drop s).take (2 ^ (k + 1)) with
      | nil => rw [hx] at hslen; simp at hslen; omega
      | cons a t1 =>
        cases t1 with
        | nil => rw [hx] at hslen; simp at hslen; omega
        | cons b t2 => exact ⟨a, b, t2, rfl⟩
    have htake : ((cis.drop s).take (2 ^ (k + 1))).take (2 ^ k) =
        (cis.drop s).take (2 ^ k) := by
      rw [List.take_take]
      congr 1
      omega
    have hdrop : ((cis.drop s).take (2 ^ (k + 1))).drop (2 ^ k) =
        (cis.drop (s + 2 ^ k)).take (2 ^ k) := by
      rw [List.drop_take, List.drop_drop]
      congr 1
      omega
    rw [hsl]
    rw [computeLeftSiblingImpl]
    rw [← hsl, hslen, isPow2_two_pow, if_pos rfl]
    have hhalf : 2 ^ (k + 1) / 2 = 2 ^ k := by
      rw [Nat.pow_succ]
      omega
    rw [hhalf, htake, hdrop, ih s hlehalf1, ih (s + 2 ^ k) hlehalf2]
    -- abbreviations
    have hmemsplit : ∀ i, i ∈ existingIndices (ciChildren Hl v cis) s (2 ^ (k + 1)) ↔
        (i ∈ existingIndices (ciChildren Hl v cis) s (2 ^ k) ∨
         i ∈ existingIndices (ciChildren Hl v cis) (s + 2 ^ k) (2 ^ k)) := by
      intro i
      rw [mem_existing_iff, mem_existing_iff, mem_existing_iff]
      constructor
      · rintro ⟨h1, h2, h3, h4⟩
        rcases Nat.lt_or_ge i (s + 2 ^ k) with h5 | h5
        · exact Or.inl ⟨h1, h2, h5, h4⟩
        · exact Or.inr ⟨h1, h5, by omega, h4⟩
      · rintro (⟨h1, h2, h3, h4⟩ | ⟨h1, h2, h3, h4⟩)
        · exact ⟨h1, h2, by omega, h4⟩
        · exact ⟨h1, by omega, by omega, h4⟩
    rcases hE : existingIndices (ciChildren Hl v cis) s (2 ^ (k + 1)) with _ | ⟨e1, E2⟩
    · -- no children in the whole range: both halves empty
      have hEL : existingIndices (ciChildren Hl v cis) s (2 ^ k) = [] := by
        rw [List.eq_nil_iff_forall_not_mem]
        intro i hi
        have := (hmemsplit i).mpr (Or.inl hi)
        rw [hE] at this
        exact List.not_mem_nil i this
      have hER : existingIndices (ciChildren Hl v cis) (s + 2 ^ k) (2 ^ k) = [] := by
        rw [List.eq_nil_iff_forall_not_mem]
        intro i hi
        have := (hmemsplit i).mpr (Or.inr hi)
        rw [hE] at this
        exact List.not_mem_nil i this
      rw [spec_nil Hi ph _ s (2 ^ k) hEL, spec_nil Hi ph _ (s + 2 ^ k) (2 ^ k) hER,
        collapsedB_nil _ s (2 ^ k) hEL, collapsedB_nil _ (s + 2 ^ k) (2 ^ k) hER,
        spec_nil Hi ph _ s (2 ^ (k + 1)) hE, collapsedB_nil _ s (2 ^ (k + 1)) hE]
      simp [Bind.bind, Except.bind]
    · rcases hE2 : E2 with _ | ⟨e2, E3⟩
      · -- exactly one child in the whole range
        subst hE2
        have hmem1 : e1 ∈ existingIndices (ciChildren Hl v cis) s (2 ^ (k + 1)) := by
          rw [hE]; exact List.mem_cons_self e1 []
        have honly : ∀ i, i ∈ existingIndices (ciChildren Hl v cis) s (2 ^ (k + 1)) →
            i = e1 := by
          intro i hi
          rw [hE] at hi
          exact List.mem_singleton.mp hi
        have hELshape := nodup_singletonOrNil (i := e1)
          (existing_nodup (ciChildren Hl v cis) s (2 ^ k))
          (fun x hx => honly x ((hmemsplit x).mpr (Or.inl hx)))
        have hERshape := nodup_singletonOrNil (i := e1)
          (existing_nodup (ciChildren Hl v cis) (s + 2 ^ k) (2 ^ k))
          (fun x hx => honly x ((hmemsplit x).mpr (Or.inr hx)))
        have hje := (hmemsplit e1).mp hmem1
        obtain ⟨c1, hc1⟩ := Option.isSome_iff_exists.mp
          (existing_mem_isSome _ s (2 ^ (k + 1)) e1 hmem1)
        have hcne : c1.hash ≠ ph := hchild e1 c1 hc1
        rcases hje with hjl | hjr
        · -- the single child is in the left half
          have hEL : existingIndices (ciChildren Hl v cis) s (2 ^ k) = [e1] := by
            rcases hELshape with h | h
            · rw [h] at hjl; exact absurd hjl (List.not_mem_nil e1)
            · exact h
          have hER : existingIndices (ciChildren Hl v cis) (s + 2 ^ k) (2 ^ k) = [] := by
            rcases hERshape with h | h
            · exact h
            · exfalso
              have hm : e1 ∈ existingIndices (ciChildren Hl v cis) (s + 2 ^ k) (2 ^ k) := by
                rw [h]; exact List.mem_cons_self e1 []
              obtain ⟨_, hr1, _⟩ := existing_mem_range _ (s + 2 ^ k) (2 ^ k) e1 hm
              obtain ⟨_, _, hl2⟩ := existing_mem_range _ s (2 ^ k) e1 hjl
              omega
          rw [spec_nil Hi ph _ (s + 2 ^ k) (2 ^ k) hER,
            collapsedB_nil _ (s + 2 ^ k) (2 ^ k) hER,
            collapsedB_singleton _ s (2 ^ k) e1 hEL]
          have hLne : specSubtreeHash Hi ph (ciChildren Hl v cis) s (2 ^ k) ≠ ph :=
            spec_ne_ph Hi ph hHi _ hchild s (2 ^ k) (by rw [hEL]; simp)
          cases hleaf : isLeafAt (ciChildren Hl v cis) e1 with
          | true =>
            rw [spec_singleton_leaf Hi ph _ s (2 ^ k) e1 hEL hleaf,
              spec_singleton_leaf Hi ph _ s (2 ^ (k + 1)) e1 hE hleaf,
              collapsedB_singleton _ s (2 ^ (k + 1)) e1 hE, hleaf, hc1]
            simp only [Bind.bind, Except.bind, Option.elim]
            rw [if_neg (by
              rw [spec_singleton_leaf Hi ph _ s (2 ^ k) e1 hEL hleaf, hc1] at hLne
              simp only [Option.elim] at hLne
              intro hcon
              exact hLne hcon.1), if_pos (by constructor <;> trivial)]
          | false =>
            rw [collapsedB_singleton _ s (2 ^ (k + 1)) e1 hE, hleaf]
            rw [spec_descend Hi ph _ s (2 ^ (k + 1)) (by rw [hE]; simp)
              (by omega)
              (by
                rw [hE]
                simp only [List.length_singleton, List.headD_cons]
                intro hcon
                rw [hleaf] at hcon
                exact Bool.false_ne_true hcon.2), hhalf,
              spec_nil Hi ph _ (s + 2 ^ k) (2 ^ k) hER]
            simp only [Bind.bind, Except.bind]
            rw [if_neg (fun hcon => hLne hcon.1), if_neg (fun hcon =>
              Bool.false_ne_true hcon.1)]
        · -- the single child is in the right half
          have hER : existingIndices (ciChildren Hl v cis) (s + 2 ^ k) (2 ^ k) = [e1] := by
            rcases hERshape with h | h
            · rw [h] at hjr; exact absurd hjr (List.not_mem_nil e1)
            · exact h
          have hEL : existingIndices (ciChildren Hl v cis) s (2 ^ k) = [] := by
            rcases hELshape with h | h
            · exact h
            · exfalso
              have hm : e1 ∈ existingIndices (ciChildren Hl v cis) s (2 ^ k) := by
                rw [h]; exact List.mem_cons_self e1 []
              obtain ⟨_, _, hl2⟩ := existing_mem_range _ s (2 ^ k) e1 hm
              obtain ⟨_, hr1, _⟩ := existing_mem_range _ (s + 2 ^ k) (2 ^ k) e1 hjr
              omega
          rw [spec_nil Hi ph _ s (2 ^ k) hEL, collapsedB_nil _ s (2 ^ k) hEL,
            collapsedB_singleton _ (s + 2 ^ k) (2 ^ k) e1 hER]
          have hRne : specSubtreeHash Hi ph (ciChildren Hl v cis) (s + 2 ^ k) (2 ^ k) ≠ ph :=
            spec_ne_ph Hi ph hHi _ hchild (s + 2 ^ k) (2 ^ k) (by rw [hER]; simp)
          cases hleaf : isLeafAt (ciChildren Hl v cis) e1 with
          | true =>
            rw [spec_singleton_leaf Hi ph _ (s + 2 ^ k) (2 ^ k) e1 hER hleaf,
              spec_singleton_leaf Hi ph _ s (2 ^ (k + 1)) e1 hE hleaf,
              collapsedB_singleton _ s (2 ^ (k + 1)) e1 hE, hleaf]
            simp only [Bind.bind, Except.bind]
            rw [if_pos (by constructor <;> trivial)]
          | false =>
            rw [collapsedB_singleton _ s (2 ^ (k + 1)) e1 hE, hleaf]
            rw [spec_descend Hi ph _ s (2 ^ (k + 1)) (by rw [hE]; simp)
              (by omega)
              (by
                rw [hE]
                simp only [List.length_singleton, List.headD_cons]
                intro hcon
                rw [hleaf] at hcon
                exact Bool.false_ne_true hcon.2), hhalf,
              spec_nil Hi ph _ s (2 ^ k) hEL]
            simp only [Bind.bind, Except.bind]
            rw [if_neg (fun hcon => Bool.false_ne_true hcon.2),
              if_neg (fun hcon => hRne hcon.2)]
      · -- at least two children in the whole range
        subst hE2
        have hnd := existing_nodup (ciChildren Hl v cis) s (2 ^ (k + 1))
        rw [hE] at hnd
        have hne12 : e1 ≠ e2 := by
          rw [List.nodup_cons] at hnd
          intro hcon
          exact hnd.1 (hcon ▸ List.mem_cons_self e2 E3)
        have hm1 : e1 ∈ existingIndices (ciChildren Hl v cis) s (2 ^ (k + 1)) := by
          rw [hE]; exact List.mem_cons_self e1 (e2 :: E3)
        have hm2 : e2 ∈ existingIndices (ciChildren Hl v cis) s (2 ^ (k + 1)) := by
          rw [hE]; exact List.mem_cons_of_mem e1 (List.mem_cons_self e2 E3)
        have hlen2 : ¬ ((existingIndices (ciChildren Hl v cis) s (2 ^ (k + 1))).length = 1 ∧
            isLeafAt (ciChildren Hl v cis)
              ((existingIndices (ciChildren Hl v cis) s (2 ^ (k + 1))).headD 0) = true) := by
          rw [hE]
          intro hcon
          simp at hcon
        rw [spec_descend Hi ph _ s (2 ^ (k + 1)) (by rw [hE]; simp) (by omega) hlen2,
          hhalf]
        have hcB : collapsedB (ciChildren Hl v cis) s (2 ^ (k + 1)) = false :=
          collapsedB_big _ s (2 ^ (k + 1)) e1 e2 E3 hE
        rw [hcB]
        -- each of e1, e2 is in one of the halves
        have hd1 := (hmemsplit e1).mp hm1
        have hd2 := (hmemsplit e2).mp hm2
        simp only [Bind.bind, Except.bind]
        rcases hd1 with h1l | h1r <;> rcases hd2 with h2l | h2r
        · -- both in the left half: left has two children
          obtain ⟨a2, b2, t2, hELs⟩ := twoMem_shape h1l h2l hne12
          have hLne : specSubtreeHash Hi ph (ciChildren Hl v cis) s (2 ^ k) ≠ ph :=
            spec_ne_ph Hi ph hHi _ hchild s (2 ^ k) (by rw [hELs]; simp)
          have hfL : collapsedB (ciChildren Hl v cis) s (2 ^ k) = false :=
            collapsedB_big _ s (2 ^ k) a2 b2 t2 hELs
          rw [hfL]
          rw [if_neg (fun hcon => hLne hcon.1),
            if_neg (fun hcon => Bool.false_ne_true hcon.1)]
        · -- e1 left, e2 right: both halves nonempty
          have hLne : specSubtreeHash Hi ph (ciChildren Hl v cis) s (2 ^ k) ≠ ph :=
            spec_ne_ph Hi ph hHi _ hchild s (2 ^ k)
              (List.ne_nil_of_mem h1l)
          have hRne : specSubtreeHash Hi ph (ciChildren Hl v cis) (s + 2 ^ k) (2 ^ k) ≠ ph :=
            spec_ne_ph Hi ph hHi _ hchild (s + 2 ^ k) (2 ^ k)
              (List.ne_nil_of_mem h2r)
          rw [if_neg (fun hcon => hLne hcon.1), if_neg (fun hcon => hRne hcon.2)]
        · -- e2 left, e1 right: both halves nonempty
          have hLne : specSubtreeHash Hi ph (ciChildren Hl v cis) s (2 ^ k) ≠ ph :=
            spec_ne_ph Hi ph hHi _ hchild s (2 ^ k)
              (List.ne_nil_of_mem h2l)
          have hRne : specSubtreeHash Hi ph (ciChildren Hl v cis) (s + 2 ^ k) (2 ^ k) ≠ ph :=
            spec_ne_ph Hi ph hHi _ hchild (s + 2 ^ k) (2 ^ k)
              (List.ne_nil_of_mem h1r)
          rw [if_neg (fun hcon => hLne hcon.1), if_neg (fun hcon => hRne hcon.2)]
        · -- both in the right half: right has two children
          obtain ⟨a2, b2, t2, hERs⟩ := twoMem_shape h1r h2r hne12
          have hRne : specSubtreeHash Hi ph (ciChildren Hl v cis) (s + 2 ^ k) (2 ^ k) ≠ ph :=
            spec_ne_ph Hi ph hHi _ hchild (s + 2 ^ k) (2 ^ k) (by rw [hERs]; simp)
          have hfR : collapsedB (ciChildren Hl v cis) (s + 2 ^ k) (2 ^ k) = false :=
            collapsedB_big _ (s + 2 ^ k) (2 ^ k) a2 b2 t2 hERs
          rw [hfR]
          rw [if_neg (fun hcon => Bool.false_ne_true hcon.2),
            if_neg (fun hcon => hRne hcon.2)]

theorem collapsedB_iff (cs : Children) (s w : Nat) :
    collapsedB cs s w = true ↔ (existingIndices cs s w = [] ∨
      ∃ i, existingIndices cs s w = [i] ∧ isLeafAt cs i = true) := by
  rcases hE : existingIndices cs s w with _ | ⟨a, t⟩
  · rw [collapsedB_nil cs s w hE]
    simp
  · rcases t with _ | ⟨b, t2⟩
    · rw [collapsedB_singleton cs s w a hE]
      constructor
      · intro h
        exact Or.inr ⟨a, rfl, h⟩
      · rintro (h | ⟨i, hi, hleaf⟩)
        · exact absurd h (by simp)
        · injection hi with h1 _
          subst h1
          exact hleaf
    · rw [collapsedB_big cs s w a b t2 hE]
      constructor
      · intro h
        exact absurd h (by simp)
      · rintro (h | ⟨i, hi, _⟩)
        · exact absurd h (by simp)
        · injection hi with h1 h2
          exact absurd h2 (by simp)

/-- C6: for a partial node all of whose internal child slots carry a known
hash (and no stored or computable hash collides with the placeholder),
`compute_left_sibling(partial, n, height)` equals `merkle_hash` of §4.1
evaluated over the corresponding sibling range
`[sibling_half_start, sibling_half_start + 2^height)` of an internal node
holding the same children; and the boolean returned by
`compute_left_sibling_impl` is true exactly when that range is empty or
collapsed to a single leaf. -/
theorem claim_C6_compute_left_sibling (Hi : List Nat → List Nat → List Nat)
    (ph : List Nat) (Hl : List Nat → List Nat → List Nat) (v : Nat)
    (info : InternalInfo) (n height : Nat) (hn : n < 16) (hh : height < 4)
    (hlen : info.children.length = 16)
    (hHi : ∀ a b, Hi a b ≠ ph) (hHl : ∀ a b, Hl a b ≠ ph)
    (hgood : ∀ i h lc, info.children.getD i none = some (.internal h lc) →
      ∃ hv, h = some hv ∧ hv ≠ ph) :
    ∃ hash flag,
      computeLeftSibling Hi ph Hl info n height = .ok hash ∧
      merkleHash Hi ph (ciChildren Hl v info.children)
        (get_child_and_sibling_half_start n height).2 (1 <<< height)
        (genBitmaps (ciChildren Hl v info.children)) = some hash ∧
      computeLeftSiblingImpl Hi ph Hl
        ((info.children.drop (get_child_and_sibling_half_start n height).2).take
          (1 <<< height)) = .ok (hash, flag) ∧
      (flag = true ↔ (existingIndices (ciChildren Hl v info.children)
          (get_child_and_sibling_half_start n height).2 (1 <<< height) = [] ∨
        ∃ i, existingIndices (ciChildren Hl v info.children)
          (get_child_and_sibling_half_start n height).2 (1 <<< height) = [i] ∧
          isLeafAt (ciChildren Hl v info.children) i = true)) := by
  have hshift : (1 : Nat) <<< height = 2 ^ height := by
    rw [Nat.shiftLeft_eq, Nat.one_mul]
  have hb : (get_child_and_sibling_half_start n height).2 + 2 ^ height ≤ 16 := by
    have := (half_start_bound n hn height hh).1
    rw [hshift] at this
    exact this
  have hmain := computeLeftSiblingImpl_spec Hi ph Hl v hHi hHl info.children hlen
    hgood height (get_child_and_sibling_half_start n height).2 hb
  refine ⟨specSubtreeHash Hi ph (ciChildren Hl v info.children)
      (get_child_and_sibling_half_start n height).2 (2 ^ height),
    collapsedB (ciChildren Hl v info.children)
      (get_child_and_sibling_half_start n height).2 (2 ^ height), ?_, ?_, ?_, ?_⟩
  · rw [computeLeftSibling, if_pos hh, hshift, hlen, if_pos (by omega), hmain]
    rfl
  · rw [hshift]
    exact merkleHash_eq_spec Hi ph _ (2 ^ height)
      (get_child_and_sibling_half_start n height).2 hb
  · rw [hshift]
    exact hmain
  · rw [hshift]
    exact collapsedB_iff _ _ _

theorem getD_replicate_none :
    ∀ (m i : Nat), (List.replicate m (none : Option ChildInfo)).getD i none = none := by
  intro m
  induction m with
  | zero => intro i; cases i <;> rfl
  | succ m2 ih =>
    intro i
    cases i with
    | zero => rfl
    | succ j => exact ih j

/-- Witness for C6: a partial node with a single leaf child, queried at
nibble 0, height 3. -/
theorem claim_C6_witness :
    (0 : Nat) < 16 ∧ (3 : Nat) < 4 ∧
      ((⟨⟨7, []⟩, [some (ChildInfo.leaf ⟨[9], [8]⟩)] ++ List.replicate 15 none⟩ :
        InternalInfo).children.length = 16) ∧
      (∃ hash flag,
        computeLeftSibling (fun _ _ => [1]) [] (fun _ _ => [2])
          ⟨⟨7, []⟩, [some (ChildInfo.leaf ⟨[9], [8]⟩)] ++ List.replicate 15 none⟩ 0 3 = .ok hash ∧
        merkleHash (fun _ _ => [1]) [] (ciChildren (fun _ _ => [2]) 7
            ([some (ChildInfo.leaf ⟨[9], [8]⟩)] ++ List.replicate 15 none))
          (get_child_and_sibling_half_start 0 3).2 (1 <<< 3)
          (genBitmaps (ciChildren (fun _ _ => [2]) 7
            ([some (ChildInfo.leaf ⟨[9], [8]⟩)] ++ List.replicate 15 none))) = some hash ∧
        computeLeftSiblingImpl (fun _ _ => [1]) [] (fun _ _ => [2])
          ((([some (ChildInfo.leaf ⟨[9], [8]⟩)] ++ List.replicate 15 none).drop
            (get_child_and_sibling_half_start 0 3).2).take (1 <<< 3)) =
          .ok (hash, flag) ∧
        (flag = true ↔ (existingIndices (ciChildren (fun _ _ => [2]) 7
            ([some (ChildInfo.leaf ⟨[9], [8]⟩)] ++ List.replicate 15 none))
            (get_child_and_sibling_half_start 0 3).2 (1 <<< 3) = [] ∨
          ∃ i, existingIndices (ciChildren (fun _ _ => [2]) 7
            ([some (ChildInfo.leaf ⟨[9], [8]⟩)] ++ List.replicate 15 none))
            (get_child_and_sibling_half_start 0 3).2 (1 <<< 3) = [i] ∧
            isLeafAt (ciChildren (fun _ _ => [2]) 7
              ([some (ChildInfo.leaf ⟨[9], [8]⟩)] ++ List.replicate 15 none)) i = true))) := by
  refine ⟨by norm_num, by norm_num, by decide, ?_⟩
  refine claim_C6_compute_left_sibling (fun _ _ => [1]) [] (fun _ _ => [2]) 7
    ⟨⟨7, []⟩, [some (ChildInfo.leaf ⟨[9], [8]⟩)] ++ List.replicate 15 none⟩ 0 3
    (by norm_num) (by norm_num) (by decide) ?_ ?_ ?_
  · intro a b
    show ([1] : List Nat) ≠ []
    decide
  · intro a b
    show ([2] : List Nat) ≠ []
    decide
  · intro i h lc hyp
    cases i with
    | zero =>
      rw [show (InternalInfo.mk ⟨7, []⟩
          ([some (ChildInfo.leaf ⟨[9], [8]⟩)] ++ List.replicate 15 none)).children.getD 0 none =
        some (ChildInfo.leaf ⟨[9], [8]⟩) from rfl] at hyp
      exact absurd hyp (by simp)
    | succ j =>
      rw [show (InternalInfo.mk ⟨7, []⟩
          ([some (ChildInfo.leaf ⟨[9], [8]⟩)] ++ List.replicate 15 none)).children =
        some (ChildInfo.leaf ⟨[9], [8]⟩) :: List.replicate 15 none from rfl,
        List.getD_cons_succ, getD_replicate_none] at hyp
      exact absurd hyp (by simp)

/-- Witness for C5: a two-child internal node, queried at nibble 5. -/
theorem claim_C5_witness :
    (5 : Nat) < 16 ∧
      (InternalNode.mk
        (List.replicate 4 none ++ [some ⟨[7], 3, .leaf⟩] ++ List.replicate 7 none ++
          [some ⟨[9], 3, .internal 2⟩] ++ List.replicate 3 none)
        (some 3) true).get_child_without_siblings ⟨3, []⟩ 5 =
      ((InternalNode.mk
        (List.replicate 4 none ++ [some ⟨[7], 3, .leaf⟩] ++ List.replicate 7 none ++
          [some ⟨[9], 3, .internal 2⟩] ++ List.replicate 3 none)
        (some 3) true).get_child_with_siblings (fun a b => a ++ b) [0] ⟨3, []⟩ 5).map
        Prod.fst :=
  ⟨by norm_num,
    claim_C5_child_without_siblings (fun a b => a ++ b) [0] _ ⟨3, []⟩ 5 (by norm_num)⟩

theorem lor_shift_eq_add {a b n : Nat} (h : a < 2 ^ n) :
    a ||| (b <<< n) = 2 ^ n * b + a := by
  rw [Nat.shiftLeft_eq, Nat.mul_comm b (2 ^ n), Nat.lor_comm,
    ← Nat.mul_add_lt_is_or h]

theorem varint_roundtrip_aux (k : Nat) :
    ∀ (num acc : Nat) (rest : List Nat), k ≤ 8 →
      num < 2 ^ (7 * k + 8) → acc < 2 ^ ((8 - k) * 7) →
      deserializeVarintAux k acc (8 - k) (serializeVarintAux k num ++ rest) =
        some (acc + num * 2 ^ ((8 - k) * 7), rest) := by
  induction k with
  | zero =>
    intro num acc rest _ hnum hacc
    have h256 : num % 256 = num := Nat.mod_eq_of_lt (by
      have : (2 : Nat) ^ (7 * 0 + 8) = 256 := by norm_num
      omega)
    simp only [serializeVarintAux, List.cons_append, deserializeVarintAux, h256]
    have hacc56 : acc < 2 ^ 56 := by
      have : (8 - 0) * 7 = 56 := by norm_num
      omega
    rw [lor_shift_eq_add hacc56]
    have : (8 - 0) * 7 = 56 := by norm_num
    rw [this]
    congr 2
    ring
  | succ k ih =>
    intro num acc rest hk hnum hacc
    simp only [serializeVarintAux]
    by_cases hdiv : num / 128 = 0
    · have hlt : num < 128 := by omega
      rw [if_pos hdiv]
      simp only [List.cons_append, deserializeVarintAux]
      have hmod : num % 128 = num := Nat.mod_eq_of_lt hlt
      have hmod256 : num % 256 = num := Nat.mod_eq_of_lt (by omega)
      rw [hmod, hmod256, if_pos hlt]
      rw [lor_shift_eq_add hacc]
      congr 2
      rw [hmod]
      ring
    · rw [if_neg hdiv]
      simp only [List.cons_append, deserializeVarintAux]
      have hb256 : (num % 128 + 128) % 256 = num % 128 + 128 := Nat.mod_eq_of_lt (by omega)
      rw [hb256, if_neg (by omega)]
      have hbmod : (num % 128 + 128) % 128 = num % 128 := by omega
      rw [hbmod, lor_shift_eq_add hacc]
      -- the next fuel step uses loop index `8 - (k+1) + 1 = 8 - k`
      rw [show 8 - (k + 1) + 1 = 8 - k by omega]
      have hnum2 : num / 128 < 2 ^ (7 * k + 8) := by
        have : num < 2 ^ (7 * k + 8) * 128 := by
          have he : 7 * (k + 1) + 8 = (7 * k + 8) + 7 := by ring
          rw [he, Nat.pow_add] at hnum
          calc num < 2 ^ (7 * k + 8) * 2 ^ 7 := hnum
          _ = 2 ^ (7 * k + 8) * 128 := by norm_num
        omega
      have hacc2 : 2 ^ ((8 - (k + 1)) * 7) * (num % 128) + acc < 2 ^ ((8 - k) * 7) := by
        have he : (8 - k) * 7 = (8 - (k + 1)) * 7 + 7 := by omega
        rw [he, Nat.pow_add]
        have h2 : num % 128 ≤ 127 := by omega
        have := Nat.mul_le_mul_left (2 ^ ((8 - (k + 1)) * 7)) h2
        have hpow : (0 : Nat) < 2 ^ ((8 - (k + 1)) * 7) := Nat.pos_pow_of_pos _ (by norm_num)
        have h27 : (2 : Nat) ^ 7 = 128 := by norm_num
        rw [h27]
        omega
      rw [ih (num / 128) _ rest (by omega) hnum2 hacc2]
      congr 2
      have he : (8 - k) * 7 = (8 - (k + 1)) * 7 + 7 := by omega
      have h27 : (2 : Nat) ^ 7 = 128 := by norm_num
      have hdm : 128 * (num / 128) + num % 128 = num := Nat.div_add_mod num 128
      rw [he, Nat.pow_add, h27]
      generalize hd : num / 128 = d at hdm ⊢
      generalize hm : num % 128 = m at hdm ⊢
      rw [← hdm]
      ring

/-- Varint round-trip over the full input: decoding what the encoder
produced yields the value back with nothing left over. -/
theorem varint_roundtrip (u : Nat) (hu : u < 2 ^ 64) :
    deserialize_u64_varint (serialize_u64_varint u) = some (u, []) := by
  have h := varint_roundtrip_aux 8 u 0 [] (le_refl 8)
    (by have h64 : (2 : Nat) ^ (7 * 8 + 8) = 2 ^ 64 := by norm_num
        rw [h64]; exact hu)
    (by norm_num)
  simpa [deserialize_u64_varint, serialize_u64_varint] using h

/-- Varint round-trip in a longer stream: trailing bytes are preserved. -/
theorem varint_roundtrip_append (u : Nat) (hu : u < 2 ^ 64) (rest : List Nat) :
    deserializeVarintAux 8 0 0 (serializeVarintAux 8 u ++ rest) = some (u, rest) := by
  have h := varint_roundtrip_aux 8 u 0 rest (le_refl 8)
    (by have h64 : (2 : Nat) ^ (7 * 8 + 8) = 2 ^ 64 := by norm_num
        rw [h64]; exact hu)
    (by norm_num)
  simpa using h

theorem serializeVarintAux_shape :
    ∀ k num, ∃ l b, serializeVarintAux k num = l ++ [b] ∧ (∀ x ∈ l, 128 ≤ x) ∧
      l.length ≤ k ∧ (l.length = k → b = num / 128 ^ k % 256) := by
  intro k
  induction k with
  | zero =>
    intro num
    exact ⟨[], num % 256, rfl, by simp, le_refl 0, fun _ => by simp⟩
  | succ k ih =>
    intro num
    by_cases hdiv : num / 128 = 0
    · refine ⟨[], num % 128, ?_, by simp, by simp, fun h => by simp at h⟩
      simp [serializeVarintAux, hdiv]
    · obtain ⟨l2, b2, he, hge, hlen, hlast⟩ := ih (num / 128)
      refine ⟨(num % 128 + 128) :: l2, b2, ?_, ?_, by simpa using hlen, ?_⟩
      · simp [serializeVarintAux, hdiv, he]
      · intro x hx
        rcases List.mem_cons.mp hx with rfl | hx2
        · omega
        · exact hge x hx2
      · intro hl
        have hl2 : l2.length = k := by simpa using hl
        rw [hlast hl2, Nat.div_div_eq_div_mul]
        congr 2
        rw [Nat.pow_succ]
        ring

/-- C8: for every `u < 2^64` the varint round-trips
(`deserialize(serialize(u)) = u` with the whole input consumed), and the
encoding is at most 8 continuation-bit bytes (high bit set) followed by an
optional raw 9th byte that carries the 8 most-significant bits. -/
theorem claim_C8_varint_roundtrip (u : Nat) (hu : u < 2 ^ 64) :
    deserialize_u64_varint (serialize_u64_varint u) = some (u, []) ∧
    (serialize_u64_varint u).length ≤ 9 ∧
    (∃ l b, serialize_u64_varint u = l ++ [b] ∧ (∀ x ∈ l, 128 ≤ x) ∧
      l.length ≤ 8 ∧ (l.length = 8 → b = u / 2 ^ 56)) := by
  obtain ⟨l, b, he, hge, hlen, hlast⟩ := serializeVarintAux_shape 8 u
  refine ⟨varint_roundtrip u hu, ?_, l, b, he, hge, hlen, ?_⟩
  · rw [serialize_u64_varint, he]
    simp only [List.length_append, List.length_singleton]
    omega
  · intro h8
    rw [hlast h8]
    have h1 : (128 : Nat) ^ 8 = 2 ^ 56 := by norm_num
    rw [h1]
    have h2 : u / 2 ^ 56 < 256 := by
      have : (2 : Nat) ^ 64 = 2 ^ 56 * 256 := by norm_num
      rw [Nat.div_lt_iff_lt_mul (by positivity)]
      omega
    exact Nat.mod_eq_of_lt h2

theorem readBe64_be64 (v : Nat) (hv : v < 2 ^ 64) (rest : List Nat) :
    readBe64 (be64 v ++ rest) = some (v, rest) := by
  simp only [be64, readBe64, List.cons_append, List.nil_append]
  congr 2
  omega

theorem readU16LE_u16LE (n : Nat) (hn : n < 2 ^ 16) (rest : List Nat) :
    readU16LE (u16LE n ++ rest) = some (n, rest) := by
  simp only [u16LE, readU16LE, List.cons_append, List.nil_append]
  congr 2
  omega

theorem genBitmaps_lt (cs : Children) :
    (genBitmaps cs).1 < 2 ^ cs.length ∧ (genBitmaps cs).2 < 2 ^ cs.length := by
  induction cs with
  | nil => simp [genBitmaps]
  | cons slot rest ih =>
    cases slot with
    | none =>
      simp only [genBitmaps, List.length_cons, Nat.pow_succ]
      omega
    | some c =>
      simp only [genBitmaps, List.length_cons, Nat.pow_succ]
      have : (if c.is_leaf then (1:Nat) else 0) ≤ 1 := by
        split <;> omega
      omega

theorem packNibbles_length : ∀ l : List Nat, (packNibbles l).length = (l.length + 1) / 2
  | [] => rfl
  | [_] => by simp [packNibbles]
  | n1 :: n2 :: rest => by
    simp only [packNibbles, List.length_cons, packNibbles_length rest]
    omega

theorem unpack_pack : ∀ l : List Nat, (∀ n ∈ l, n < 16) →
    unpackNibbles l.length (packNibbles l) = l
  | [], _ => rfl
  | [n], h => by
    have hn : n < 16 := h n (List.mem_cons_self n [])
    have hdm : n * 16 / 16 % 16 = n := by
      rw [Nat.mul_div_cancel n (by norm_num : (0:Nat) < 16)]
      exact Nat.mod_eq_of_lt hn
    simp [packNibbles, unpackNibbles, hdm, hn]
  | n1 :: n2 :: rest, h => by
    have h1 : n1 < 16 := h n1 (by simp)
    have h2 : n2 < 16 := h n2 (by simp)
    have hrest : ∀ n ∈ rest, n < 16 := fun n hn => h n (by simp [hn])
    have hdiv : (n1 * 16 + n2) / 16 % 16 = n1 := by omega
    have hmod : (n1 * 16 + n2) % 16 = n2 := by omega
    simp only [packNibbles, List.length_cons, unpackNibbles]
    rw [if_neg (by omega)]
    rw [hdiv, hmod]
    have hlen : rest.length + 1 + 1 - 2 = rest.length := by omega
    rw [hlen, unpack_pack rest hrest]

theorem packNibbles_getLast_odd : ∀ l : List Nat, l.length % 2 = 1 →
    ∃ x, (packNibbles l).getLast? = some (x * 16)
  | [], h => by simp at h
  | [n], _ => ⟨n, rfl⟩
  | n1 :: n2 :: rest, h => by
    have hodd : rest.length % 2 = 1 := by
      simp only [List.length_cons] at h
      omega
    obtain ⟨x, hx⟩ := packNibbles_getLast_odd rest hodd
    refine ⟨x, ?_⟩
    have hne : packNibbles rest ≠ [] := by
      intro hnil
      have := packNibbles_length rest
      rw [hnil] at this
      simp at this
      omega
    rw [packNibbles, List.getLast?_cons, hx]
    cases hpn : packNibbles rest with
    | nil => exact absurd hpn hne
    | cons a t =>
      rw [hpn] at hx
      simpa [hpn] using hx

theorem nodeKey_roundtrip (k : NodeKey) (hv : k.version < 2 ^ 64)
    (hlen : k.nibble_path.length ≤ 64) (hnib : ∀ n ∈ k.nibble_path, n < 16) :
    NodeKey.decode (NodeKey.encode k) = some k := by
  rw [NodeKey.encode, NodeKey.decode]
  have hmod : k.nibble_path.length % 256 = k.nibble_path.length :=
    Nat.mod_eq_of_lt (by omega)
  rw [List.append_assoc, readBe64_be64 k.version hv _]
  simp only [List.cons_append, List.nil_append]
  rw [hmod]
  rw [if_pos (by rw [ROOT_NIBBLE_HEIGHT]; exact hlen)]
  rw [if_pos (packNibbles_length k.nibble_path).symm]
  by_cases hpar : k.nibble_path.length % 2 = 0
  · rw [if_pos hpar, unpack_pack k.nibble_path hnib]
  · rw [if_neg hpar]
    have hodd : k.nibble_path.length % 2 = 1 := by omega
    obtain ⟨x, hx⟩ := packNibbles_getLast_odd k.nibble_path hodd
    have hxm : x * 16 % 16 = 0 := Nat.mul_mod_left x 16
    simp [hx, hxm, unpack_pack k.nibble_path hnib]

theorem readUleb128_uleb128 (n : Nat) (rest : List Nat) :
    readUleb128 (uleb128 n ++ rest) = some (n, rest) := by
  induction n using Nat.strong_induction_on with
  | _ n ih =>
    rw [uleb128]
    by_cases h : n < 128
    · rw [if_pos h]
      simp [readUleb128, h]
    · rw [if_neg h]
      have hrec := ih (n / 128) (Nat.div_lt_self (by omega) (by norm_num))
      have hb : ¬ (n % 128 + 128 < 128) := by omega
      simp [readUleb128, hb, hrec]
      omega

theorem readExact_append (l rest : List Nat) :
    readExact l.length (l ++ rest) = some (l, rest) := by
  rw [readExact, if_pos (by simp)]
  congr 2
  · rw [List.take_left]
  · rw [List.drop_left]

theorem leafBody_roundtrip (l : LeafNode) (hk : l.key_hash.length = 32)
    (hv : l.value_hash.length = 32) :
    decodeLeafBody (encodeLeafBody l) = some l := by
  rw [encodeLeafBody, decodeLeafBody]
  simp only [List.append_assoc]
  have h1 : readExact 32
      (l.key_hash ++ (l.value_hash ++ (uleb128 l.value.length ++ l.value))) =
      some (l.key_hash, l.value_hash ++ (uleb128 l.value.length ++ l.value)) := by
    conv_lhs => rw [show (32 : Nat) = l.key_hash.length from hk.symm]
    exact readExact_append _ _
  have h2 : readExact 32 (l.value_hash ++ (uleb128 l.value.length ++ l.value)) =
      some (l.value_hash, uleb128 l.value.length ++ l.value) := by
    conv_lhs => rw [show (32 : Nat) = l.value_hash.length from hv.symm]
    exact readExact_append _ _
  have h3 : readExact l.value.length l.value = some (l.value, []) := by
    have := readExact_append l.value []
    simpa using this
  simp only [h1, h2, readUleb128_uleb128, h3]
  simp
theorem claim_C8_witness :
    (2 ^ 63 + 123 : Nat) < 2 ^ 64 ∧
      (deserialize_u64_varint (serialize_u64_varint (2 ^ 63 + 123)) =
        some (2 ^ 63 + 123, []) ∧
      (serialize_u64_varint (2 ^ 63 + 123)).length ≤ 9 ∧
      (∃ l b, serialize_u64_varint (2 ^ 63 + 123) = l ++ [b] ∧
        (∀ x ∈ l, 128 ≤ x) ∧ l.length ≤ 8 ∧
        (l.length = 8 → b = (2 ^ 63 + 123) / 2 ^ 56))) :=
  ⟨by norm_num, claim_C8_varint_roundtrip (2 ^ 63 + 123) (by norm_num)⟩

theorem varint_roundtrip_cat (u : Nat) (hu : u < 2 ^ 64) (rest : List Nat) :
    deserialize_u64_varint (serialize_u64_varint u ++ rest) = some (u, rest) :=
  varint_roundtrip_append u hu rest

theorem genBitmaps_fst_eq_zero (cs : Children) :
    (genBitmaps cs).1 = 0 ↔ numChildren cs = 0 := by
  induction cs with
  | nil => simp [genBitmaps, numChildren]
  | cons slot rest ih =>
    simp only [numChildren] at ih
    cases slot with
    | none =>
      simp only [genBitmaps, numChildren, List.countP_cons, Option.isSome_none,
        Bool.false_eq_true, if_false]
      omega
    | some c =>
      simp only [genBitmaps, numChildren, List.countP_cons, Option.isSome_some,
        eq_self_iff_true, if_true]
      omega

theorem genBitmaps_and (cs : Children) :
    (genBitmaps cs).1 &&& (genBitmaps cs).2 = (genBitmaps cs).2 := by
  apply Nat.eq_of_testBit_eq
  intro i
  rw [Nat.testBit_and, genBitmaps_fst_testBit, genBitmaps_snd_testBit]
  cases h : isLeafAt cs i
  · simp
  · have hs : (childAt cs i).isSome = true := by
      rw [isLeafAt] at h
      cases hc : childAt cs i
      · rw [hc] at h
        simp at h
      · rfl
    simp [hs]

theorem recordsFrom_step (persist : Bool) (cs : Children) (i : Nat) (h : i < 16) :
    recordsFrom persist cs i =
      (match childAt cs i with
       | none => []
       | some c => serializeChildRecord persist c) ++ recordsFrom persist cs (i + 1) := by
  rw [recordsFrom, recordsFrom]
  have h16 : 16 - i = (16 - (i + 1)) + 1 := by omega
  rw [h16, List.range'_succ, List.foldr_cons]
  cases hc : childAt cs i <;> simp [hc]

theorem desChildrenAux_roundtrip (persist : Bool) (cs : Children)
    (hlen : cs.length = 16)
    (hvalid : ∀ c ∈ cs, ∀ ch, c = some ch → ValidChild ch)
    (hok : ∀ c ∈ cs, ∀ ch, c = some ch → ChildRoundtripOK persist ch) :
    ∀ fuel i rest, fuel + i = 16 →
      deserializeChildrenAux persist (genBitmaps cs).1 (genBitmaps cs).2 fuel i
        (recordsFrom persist cs i ++ rest) = some (cs.drop i, rest) := by
  intro fuel
  induction fuel with
  | zero =>
    intro i rest hfi
    have hieq : i = 16 := by omega
    subst hieq
    have hd : cs.drop 16 = [] := by
      rw [← hlen]
      exact List.drop_length cs
    have hr : recordsFrom persist cs 16 = [] := rfl
    rw [hr, List.nil_append, hd, deserializeChildrenAux]
  | succ fuel ih =>
    intro i rest hfi
    have hi : i < 16 := by omega
    have hislt : i < cs.length := by omega
    have hdrop : cs.drop i = childAt cs i :: cs.drop (i + 1) := by
      rw [List.drop_eq_getElem_cons hislt, childAt, List.getD_eq_getElem?_getD,
        List.getElem?_eq_getElem hislt]
      rfl
    cases hc : childAt cs i with
    | none =>
      have he : (genBitmaps cs).1.testBit i = false := by
        rw [genBitmaps_fst_testBit, hc]
        rfl
      have hb : recordsFrom persist cs i = recordsFrom persist cs (i + 1) := by
        rw [recordsFrom_step persist cs i hi, hc]
        simp
      rw [hb, deserializeChildrenAux, if_neg (by simp [he]),
        ih (i + 1) rest (by omega), hdrop, hc]
    | some c =>
      obtain ⟨chash, cver, cnt⟩ := c
      have hgetElem : cs[i] = some ⟨chash, cver, cnt⟩ := by
        rw [← hc, childAt, List.getD_eq_getElem?_getD, List.getElem?_eq_getElem hislt]
        rfl
      have hmem : some (⟨chash, cver, cnt⟩ : Child) ∈ cs := by
        rw [← hgetElem]
        exact List.getElem_mem hislt
      obtain ⟨hch, hcv, hclc⟩ := hvalid _ hmem _ rfl
      have hokc := hok _ hmem _ rfl
      have he : (genBitmaps cs).1.testBit i = true := by
        rw [genBitmaps_fst_testBit, hc]
        rfl
      cases cnt with
      | leaf =>
        have hl : (genBitmaps cs).2.testBit i = true := by
          rw [genBitmaps_snd_testBit, isLeafAt, hc]
          rfl
        have happ : recordsFrom persist cs i ++ rest =
            serialize_u64_varint cver ++
              (chash ++ (recordsFrom persist cs (i + 1) ++ rest)) := by
          rw [recordsFrom_step persist cs i hi, hc]
          simp [serializeChildRecord, List.append_assoc]
        have h32 : 32 ≤ (chash ++ (recordsFrom persist cs (i + 1) ++ rest)).length := by
          simp [List.length_append, hch]
        have htake : (chash ++ (recordsFrom persist cs (i + 1) ++ rest)).take 32 =
            chash := by
          rw [← hch, List.take_left]
        have hdrop32 : (chash ++ (recordsFrom persist cs (i + 1) ++ rest)).drop 32 =
            recordsFrom persist cs (i + 1) ++ rest := by
          rw [← hch, List.drop_left]
        simp only [deserializeChildrenAux, happ, varint_roundtrip_cat cver hcv,
          he, hl, eq_self_iff_true, if_true, eq_true h32, htake, hdrop32,
          ih (i + 1) rest (by omega), hdrop, hc]
      | internalLegacy =>
        have hl : (genBitmaps cs).2.testBit i = false := by
          rw [genBitmaps_snd_testBit, isLeafAt, hc]
          rfl
        cases persist with
        | false =>
          have happ : recordsFrom false cs i ++ rest =
              serialize_u64_varint cver ++
                (chash ++ (recordsFrom false cs (i + 1) ++ rest)) := by
            rw [recordsFrom_step false cs i hi, hc]
            simp [serializeChildRecord, List.append_assoc]
          have h32 : 32 ≤ (chash ++ (recordsFrom false cs (i + 1) ++ rest)).length := by
            simp [List.length_append, hch]
          have htake : (chash ++ (recordsFrom false cs (i + 1) ++ rest)).take 32 =
              chash := by
            rw [← hch, List.take_left]
          have hdrop32 : (chash ++ (recordsFrom false cs (i + 1) ++ rest)).drop 32 =
              recordsFrom false cs (i + 1) ++ rest := by
            rw [← hch, List.drop_left]
          simp only [deserializeChildrenAux, happ, varint_roundtrip_cat cver hcv,
            he, hl, eq_self_iff_true, if_true, eq_true h32, htake, hdrop32,
            Bool.false_eq_true, if_false, ih (i + 1) rest (by omega), hdrop, hc]
        | true =>
          have happ : recordsFrom true cs i ++ rest =
              serialize_u64_varint cver ++
                (chash ++ (serialize_u64_varint 0 ++
                  (recordsFrom true cs (i + 1) ++ rest))) := by
            rw [recordsFrom_step true cs i hi, hc]
            simp [serializeChildRecord, List.append_assoc]
          have h32 : 32 ≤ (chash ++ (serialize_u64_varint 0 ++
              (recordsFrom true cs (i + 1) ++ rest))).length := by
            simp [List.length_append, hch]
          have htake : (chash ++ (serialize_u64_varint 0 ++
              (recordsFrom true cs (i + 1) ++ rest))).take 32 = chash := by
            rw [← hch, List.take_left]
          have hdrop32 : (chash ++ (serialize_u64_varint 0 ++
              (recordsFrom true cs (i + 1) ++ rest))).drop 32 =
              serialize_u64_varint 0 ++ (recordsFrom true cs (i + 1) ++ rest) := by
            rw [← hch, List.drop_left]
          simp only [deserializeChildrenAux, happ, varint_roundtrip_cat cver hcv,
            varint_roundtrip_cat 0 (by norm_num),
            he, hl, eq_self_iff_true, if_true, eq_true h32, htake, hdrop32,
            Bool.false_eq_true, if_false, ih (i + 1) rest (by omega), hdrop, hc]
      | internal lc =>
        obtain ⟨hpt, hlc1⟩ := hokc
        subst hpt
        have hl : (genBitmaps cs).2.testBit i = false := by
          rw [genBitmaps_snd_testBit, isLeafAt, hc]
          rfl
        have happ : recordsFrom true cs i ++ rest =
            serialize_u64_varint cver ++
              (chash ++ (serialize_u64_varint lc ++
                (recordsFrom true cs (i + 1) ++ rest))) := by
          rw [recordsFrom_step true cs i hi, hc]
          simp [serializeChildRecord, List.append_assoc]
        have h32 : 32 ≤ (chash ++ (serialize_u64_varint lc ++
            (recordsFrom true cs (i + 1) ++ rest))).length := by
          simp [List.length_append, hch]
        have htake : (chash ++ (serialize_u64_varint lc ++
            (recordsFrom true cs (i + 1) ++ rest))).take 32 = chash := by
          rw [← hch, List.take_left]
        have hdrop32 : (chash ++ (serialize_u64_varint lc ++
            (recordsFrom true cs (i + 1) ++ rest))).drop 32 =
            serialize_u64_varint lc ++ (recordsFrom true cs (i + 1) ++ rest) := by
          rw [← hch, List.drop_left]
        have hlc0 : (lc = 0) = False := eq_false (by omega)
        simp only [deserializeChildrenAux, happ, varint_roundtrip_cat cver hcv,
          varint_roundtrip_cat lc hclc,
          he, hl, eq_self_iff_true, if_true, eq_true h32, htake, hdrop32,
          Bool.false_eq_true, if_false, hlc0,
          ih (i + 1) rest (by omega), hdrop, hc]

theorem internalNode_roundtrip (n : InternalNode)
    (hv : ValidInternalNode n) (hok : NodeRoundtripOK n) :
    InternalNode.deserialize (InternalNode.serialize n n.leaf_count_migration)
      n.leaf_count_migration = some n := by
  obtain ⟨hlen, hnum, hnsl, hlc, hvalid⟩ := hv
  have hE16 : (genBitmaps n.children).1 < 2 ^ 16 := by
    have := (genBitmaps_lt n.children).1
    rwa [hlen] at this
  have hL16 : (genBitmaps n.children).2 < 2 ^ 16 := by
    have := (genBitmaps_lt n.children).2
    rwa [hlen] at this
  have hr0 : (List.range 16).foldr (fun i acc =>
      match childAt n.children i with
      | none => acc
      | some c => serializeChildRecord n.leaf_count_migration c ++ acc) [] =
      recordsFrom n.leaf_count_migration n.children 0 := by
    rw [recordsFrom, List.range_eq_range']
  have h1 := readU16LE_u16LE ((genBitmaps n.children).1) hE16
  have h2 := readU16LE_u16LE ((genBitmaps n.children).2) hL16
  have hdes := desChildrenAux_roundtrip n.leaf_count_migration n.children hlen hvalid
    hok 16 0 [] (by norm_num)
  rw [List.append_nil, List.drop_zero] at hdes
  have hne : ((genBitmaps n.children).1 = 0) = False := eq_false (by
    intro h
    rw [genBitmaps_fst_eq_zero] at h
    omega)
  have hn0 : (numChildren n.children = 0) = False := eq_false (by omega)
  have hnsl2 : (numChildren n.children = 1 ∧
      (firstChild n.children).elim false Child.is_leaf) = False := eq_false hnsl
  simp only [InternalNode.serialize, InternalNode.deserialize, List.append_assoc,
    hr0, h1, h2, hne, genBitmaps_and, eq_self_iff_true, not_true, if_false,
    hdes, InternalNode.new_impl, hn0, hnsl2, ← hlc]

/-- C4 (corrected): `NodeKey::decode ∘ NodeKey::encode` is the identity on
every valid key; `Node::decode ∘ Node::encode` is the identity on null
nodes, leaf nodes and internal nodes whose `Internal`-typed children carry
persisted, positive leaf counts (`NodeOK`).  Without that side condition
the round trip fails (`claim_C4_counterexample`): the legacy child record
cannot represent an `Internal` node type. -/
theorem claim_C4_roundtrip :
    (∀ k : NodeKey, k.version < 2 ^ 64 → k.nibble_path.length ≤ 64 →
        (∀ m ∈ k.nibble_path, m < 16) →
      NodeKey.decode (NodeKey.encode k) = some k) ∧
    (∀ nd : Node, ValidNode nd → NodeOK nd →
      Node.decode (Node.encode nd) = some nd) := by
  constructor
  · intro k h1 h2 h3
    exact nodeKey_roundtrip k h1 h2 h3
  · intro nd hv hok
    cases nd with
    | null => rfl
    | leaf l =>
      obtain ⟨hk, hvh⟩ := hv
      simp [Node.encode, Node.decode, leafBody_roundtrip l hk hvh]
    | internal nd =>
      have h := internalNode_roundtrip nd hv hok
      cases hm : nd.leaf_count_migration with
      | true =>
        rw [hm] at h
        simp [Node.encode, Node.decode, hm, h]
      | false =>
        rw [hm] at h
        simp [Node.encode, Node.decode, hm, h]

/-- C4, the failing part of the original claim: a migration-disabled
internal node (a valid node) holding an `Internal`-typed child does not
survive `Node::decode ∘ Node::encode` — the legacy tag decodes the child
as `InternalLegacy`. -/
theorem claim_C4_counterexample :
    ValidInternalNode cexNode ∧
    Node.decode (Node.encode (Node.internal cexNode)) ≠
      some (Node.internal cexNode) := by
  constructor
  · refine ⟨by decide, by decide, by decide, by decide, ?_⟩
    intro c hc ch hceq
    simp only [cexNode, List.mem_cons] at hc
    rcases hc with h | h
    · subst h
      injection hceq with h2
      subst h2
      refine ⟨by decide, by decide, ?_⟩
      show (1 : Nat) < 2 ^ 64
      decide
    · rw [List.eq_of_mem_replicate h] at hceq
      exact Option.noConfusion hceq
  · decide

/-- Witness for C4: the round trip evaluated on a concrete key and a
concrete leaf node. -/
theorem claim_C4_witness :
    NodeKey.decode (NodeKey.encode wKey) = some wKey ∧
    Node.decode (Node.encode (Node.leaf wLeaf)) = some (Node.leaf wLeaf) := by
  constructor
  · exact claim_C4_roundtrip.1 wKey (by decide) (by decide) (by decide)
  · exact claim_C4_roundtrip.2 (Node.leaf wLeaf)
      ⟨by simp [wLeaf], by simp [wLeaf]⟩ trivial

/-- C9: calling `finish` on a restorer that has received zero keys (a
fresh restore over an empty store) returns no ordinary result and stages
no batch: it panics, because `freeze(0)` materialises the sole childless
partial root through the `InternalNode` constructor, whose "children must
not be empty" check fails. -/
theorem claim_C9_finish_empty (Hi : List Nat → List Nat → List Nat)
    (ph : List Nat) (Hl : List Nat → List Nat → List Nat) (writeOk : Bool)
    (version : Nat) (root : List Nat) :
    finishImpl Hi ph Hl writeOk (freshRestore version root) =
      .error (.constructorFailed .emptyChildren) := rfl

theorem bytesLt_trans : ∀ a b c : List Nat, bytesLt a b = true → bytesLt b c = true →
    bytesLt a c = true
  | [], b, c, _, hbc => by
    cases c with
    | nil =>
      cases b with
      | nil => exact hbc
      | cons b0 bs => simp [bytesLt] at hbc
    | cons c0 cs => rfl
  | a0 :: as, [], c, hab, _ => by simp [bytesLt] at hab
  | a0 :: as, b0 :: bs, [], _, hbc => by simp [bytesLt] at hbc
  | a0 :: as, b0 :: bs, c0 :: cs, hab, hbc => by
    rw [bytesLt] at hab hbc ⊢
    by_cases h1 : a0 < b0
    · by_cases h2 : b0 < c0
      · rw [if_pos (by omega : a0 < c0)]
      · rw [if_neg h2] at hbc
        by_cases h3 : c0 < b0
        · rw [if_pos h3] at hbc
          exact absurd hbc (by simp)
        · rw [if_pos (by omega : a0 < c0)]
    · rw [if_neg h1] at hab
      by_cases h3 : b0 < a0
      · rw [if_pos h3] at hab
        exact absurd hab (by simp)
      · rw [if_neg h3] at hab
        by_cases h2 : b0 < c0
        · rw [if_pos (by omega : a0 < c0)]
        · rw [if_neg h2] at hbc
          by_cases h4 : c0 < b0
          · rw [if_pos h4] at hbc
            exact absurd hbc (by simp)
          · rw [if_neg h4] at hbc
            rw [if_neg (by omega : ¬ a0 < c0), if_neg (by omega : ¬ c0 < a0)]
            exact bytesLt_trans as bs cs hab hbc

theorem bytes_trichotomy : ∀ a b : List Nat,
    a = b ∨ bytesLt a b = true ∨ bytesLt b a = true
  | [], [] => .inl rfl
  | [], _ :: _ => .inr (.inl rfl)
  | _ :: _, [] => .inr (.inr rfl)
  | a :: as, b :: bs => by
    rcases Nat.lt_trichotomy a b with h | h | h
    · exact .inr (.inl (by simp [bytesLt, h]))
    · subst h
      rcases bytes_trichotomy as bs with h2 | h2 | h2
      · exact .inl (by rw [h2])
      · exact .inr (.inl (by simp [bytesLt, h2]))
      · exact .inr (.inr (by simp [bytesLt, h2]))
    · exact .inr (.inr (by simp [bytesLt, h]))

theorem bytesLe_refl (a : List Nat) : bytesLe a a = true := by
  simp [bytesLe]

theorem bytesLe_total (a b : List Nat) (h : bytesLe a b = false) :
    bytesLe b a = true := by
  rcases bytes_trichotomy a b with h1 | h1 | h1
  · subst h1
    rw [bytesLe_refl] at h
    exact absurd h (by simp)
  · rw [show bytesLe a b = true by simp [bytesLe, h1]] at h
    exact absurd h (by simp)
  · simp [bytesLe, h1]

theorem bytesLe_trans (a b c : List Nat) (hab : bytesLe a b = true)
    (hbc : bytesLe b c = true) : bytesLe a c = true := by
  simp only [bytesLe, Bool.or_eq_true, decide_eq_true_eq] at hab hbc ⊢
  rcases hab with rfl | hab
  · exact hbc
  · rcases hbc with rfl | hbc
    · exact .inr hab
    · exact .inr (bytesLt_trans a b c hab hbc)

theorem sameMeta_refl (s : RestoreState) : SameMeta s s := ⟨rfl, rfl, rfl, rfl, rfl⟩

theorem sameMeta_trans {s t u : RestoreState} (h1 : SameMeta s t)
    (h2 : SameMeta t u) : SameMeta s u := by
  obtain ⟨a1, b1, c1, d1, e1⟩ := h1
  obtain ⟨a2, b2, c2, d2, e2⟩ := h2
  exact ⟨a2.trans a1, b2.trans b1, c2.trans c1, d2.trans d1, e2.trans e1⟩

theorem freezePreviousLeaf_frame (st st' : RestoreState)
    (h : freezePreviousLeaf st = .ok st') : SameMeta st st' := by
  rw [freezePreviousLeaf] at h
  repeat' split at h
  all_goals
    first
      | (injection h with h2
         subst h2
         exact ⟨rfl, rfl, rfl, rfl, rfl⟩)
      | injection h

theorem freezeOneInternalNode_frame (Hi : List Nat → List Nat → List Nat)
    (ph : List Nat) (Hl : List Nat → List Nat → List Nat) (st : RestoreState)
    (last_node : InternalInfo) (pending : List InternalInfo) (st' : RestoreState)
    (h : freezeOneInternalNode Hi ph Hl st last_node pending = .ok st') :
    SameMeta st st' := by
  rw [freezeOneInternalNode] at h
  simp only [Bind.bind, Except.bind] at h
  repeat' split at h
  all_goals
    first
      | (injection h with h2
         subst h2
         exact ⟨rfl, rfl, rfl, rfl, rfl⟩)
      | injection h

theorem freezeInternalNodesAux_frame (Hi : List Nat → List Nat → List Nat)
    (ph : List Nat) (Hl : List Nat → List Nat → List Nat) :
    ∀ fuel st nrem st', freezeInternalNodesAux Hi ph Hl fuel st nrem = .ok st' →
      SameMeta st st' := by
  intro fuel
  induction fuel with
  | zero =>
    intro st nrem st' h
    injection h with h2
    subst h2
    exact ⟨rfl, rfl, rfl, rfl, rfl⟩
  | succ fuel ih =>
    intro st nrem st' h
    rw [freezeInternalNodesAux] at h
    by_cases hcond : nrem < st.pendingNodes.length
    · rw [if_pos hcond] at h
      cases hl : st.pendingNodes.getLast? with
      | none =>
        rw [hl] at h
        injection h
      | some last_node =>
        simp only [hl, Bind.bind, Except.bind] at h
        cases hfz : freezeOneInternalNode Hi ph Hl st last_node
            st.pendingNodes.dropLast with
        | error e =>
          simp only [hfz] at h
          exact Except.noConfusion h
        | ok st₁ =>
          simp only [hfz] at h
          exact sameMeta_trans
            (freezeOneInternalNode_frame Hi ph Hl st last_node _ st₁ hfz)
            (ih st₁ nrem st' h)
    · rw [if_neg hcond] at h
      injection h with h2
      subst h2
      exact ⟨rfl, rfl, rfl, rfl, rfl⟩

theorem freeze_frame (Hi : List Nat → List Nat → List Nat) (ph : List Nat)
    (Hl : List Nat → List Nat → List Nat) (st : RestoreState) (nrem : Nat)
    (st' : RestoreState) (h : freeze Hi ph Hl st nrem = .ok st') :
    SameMeta st st' := by
  rw [freeze] at h
  simp only [Bind.bind, Except.bind] at h
  cases hfp : freezePreviousLeaf st with
  | error e =>
    simp only [hfp] at h
    exact Except.noConfusion h
  | ok st₁ =>
    simp only [hfp, freezeInternalNodes] at h
    exact sameMeta_trans (freezePreviousLeaf_frame st st₁ hfp)
      (freezeInternalNodesAux_frame Hi ph Hl _ st₁ nrem st' h)

theorem insertAtLeaf_frame (Hi : List Nat → List Nat → List Nat) (ph : List Nat)
    (Hl : List Nat → List Nat → List Nat) (st : RestoreState) (child_index : Nat)
    (existing_leaf : RLeafNode) (new_key value_hash : List Nat) (st' : RestoreState)
    (h : insertAtLeaf Hi ph Hl st child_index existing_leaf new_key value_hash =
      .ok st') : SameMeta st st' := by
  rw [insertAtLeaf] at h
  simp only [Bind.bind, Except.bind] at h
  repeat' split at h
  all_goals
    first
      | injection h
      | (injection h with h2
         subst h2
         first
           | exact ⟨rfl, rfl, rfl, rfl, rfl⟩
           | (have hmid := freeze_frame _ _ _ _ _ _ (by assumption)
              exact sameMeta_trans
                (sameMeta_trans ⟨rfl, rfl, rfl, rfl, rfl⟩ hmid)
                ⟨rfl, rfl, rfl, rfl, rfl⟩))
      | skip
  all_goals subst st'
  all_goals
    have hmid := freeze_frame _ _ _ _ _ _ (by assumption)
    first
      | exact sameMeta_trans hmid ⟨rfl, rfl, rfl, rfl, rfl⟩
      | exact sameMeta_trans
          (sameMeta_trans ⟨rfl, rfl, rfl, rfl, rfl⟩ hmid)
          ⟨rfl, rfl, rfl, rfl, rfl⟩

theorem addOneLoop_frame (Hi : List Nat → List Nat → List Nat) (ph : List Nat)
    (Hl : List Nat → List Nat → List Nat) (new_key value_hash : List Nat) :
    ∀ fuel i st st', addOneLoop Hi ph Hl new_key value_hash fuel i st = .ok st' →
      SameMeta st st' := by
  intro fuel
  induction fuel with
  | zero =>
    intro i st st' h
    injection h with h2
    subst h2
    exact ⟨rfl, rfl, rfl, rfl, rfl⟩
  | succ fuel ih =>
    intro i st st' h
    rw [addOneLoop] at h
    simp only [Bind.bind, Except.bind] at h
    repeat' split at h
    all_goals
      first
        | injection h
        | exact ih _ _ _ h
        | exact insertAtLeaf_frame _ _ _ _ _ _ _ _ _ h
        | (injection h with h2
           subst h2
           first
             | exact ⟨rfl, rfl, rfl, rfl, rfl⟩
             | (have hmid := freeze_frame _ _ _ _ _ _ (by assumption)
                exact sameMeta_trans hmid ⟨rfl, rfl, rfl, rfl, rfl⟩))
        | skip
    all_goals subst st'
    all_goals
      have hmid := freeze_frame _ _ _ _ _ _ (by assumption)
      first
        | exact sameMeta_trans hmid ⟨rfl, rfl, rfl, rfl, rfl⟩
        | exact sameMeta_trans
            (sameMeta_trans ⟨rfl, rfl, rfl, rfl, rfl⟩ hmid)
            ⟨rfl, rfl, rfl, rfl, rfl⟩

theorem addChunkLoop_result (Hi : List Nat → List Nat → List Nat) (ph : List Nat)
    (Hl : List Nat → List Nat → List Nat) (Hv : List Nat → List Nat) :
    ∀ chunk st r st₂, addChunkLoop Hi ph Hl Hv st chunk = .ok (r, st₂) →
      r = none ∨ r = some RestoreErr.outOfOrder := by
  intro chunk
  induction chunk with
  | nil =>
    intro st r st₂ h
    injection h with h2
    injection h2 with ha hb
    exact .inl ha.symm
  | cons kv rest ih =>
    intro st r st₂ h
    obtain ⟨key, value⟩ := kv
    rw [addChunkLoop] at h
    simp only [Bind.bind, Except.bind] at h
    by_cases hoo : (match st.previous_leaf with
        | some prev => bytesLe key prev.key_hash
        | none => false) = true
    · rw [if_pos hoo] at h
      injection h with h2
      injection h2 with ha hb
      exact .inr ha.symm
    · rw [if_neg hoo] at h
      cases hadd : addOne Hi ph Hl
          { st with frozen_nodes := st.frozen_nodes.insert_value st.version key value }
          key (Hv value) with
      | error e =>
        simp only [hadd] at h
        exact Except.noConfusion h
      | ok st₃ =>
        simp only [hadd] at h
        exact ih _ _ _ h

theorem addChunkLoop_ok_spec (Hi : List Nat → List Nat → List Nat) (ph : List Nat)
    (Hl : List Nat → List Nat → List Nat) (Hv : List Nat → List Nat) :
    ∀ chunk st st', addChunkLoop Hi ph Hl Hv st chunk = .ok (none, st') →
      st'.version = st.version ∧
      st'.expected_root_hash = st.expected_root_hash ∧
      st'.num_keys_received = st.num_keys_received + chunk.length ∧
      st'.frozen_nodes.values = st.frozen_nodes.values ++
        chunk.map (fun kv => (st.version, kv.1, kv.2)) ∧
      (chunk = [] → st' = st) ∧
      (∀ q, st'.previous_leaf = some q →
        (∀ kv ∈ chunk, bytesLe kv.1 q.key_hash = true) ∧
        (∀ p, st.previous_leaf = some p →
          bytesLe p.key_hash q.key_hash = true)) ∧
      (chunk ≠ [] → st'.previous_leaf.isSome = true) := by
  intro chunk
  induction chunk with
  | nil =>
    intro st st' h
    injection h with h2
    injection h2 with ha hb
    subst hb
    refine ⟨rfl, rfl, by simp, by simp, fun _ => rfl, ?_, by simp⟩
    intro q hq
    refine ⟨by simp, ?_⟩
    intro p hp
    rw [hp] at hq
    injection hq with h3
    subst h3
    exact bytesLe_refl p.key_hash
  | cons kv rest ih =>
    intro st st' h
    obtain ⟨key, value⟩ := kv
    rw [addChunkLoop] at h
    simp only [Bind.bind, Except.bind] at h
    by_cases hoo : (match st.previous_leaf with
        | some prev => bytesLe key prev.key_hash
        | none => false) = true
    · rw [if_pos hoo] at h
      injection h with h2
      injection h2 with ha hb
      exact absurd ha (by simp)
    · rw [if_neg hoo] at h
      cases hadd : addOne Hi ph Hl
          { st with frozen_nodes := st.frozen_nodes.insert_value st.version key value }
          key (Hv value) with
      | error e =>
        simp only [hadd] at h
        exact Except.noConfusion h
      | ok st₂ =>
        simp only [hadd] at h
        have hframe := addOneLoop_frame Hi ph Hl key (Hv value)
          ROOT_NIBBLE_HEIGHT 0 _ _ hadd
        obtain ⟨hv2, he2, hp2, hn2, hfv2⟩ := hframe
        have hv2b : st₂.version = st.version := hv2
        have he2b : st₂.expected_root_hash = st.expected_root_hash := he2
        have hp2b : st₂.previous_leaf = st.previous_leaf := hp2
        have hn2b : st₂.num_keys_received = st.num_keys_received := hn2
        have hfv2b : st₂.frozen_nodes.values =
            st.frozen_nodes.values ++ [(st.version, key, value)] := hfv2
        have hrest := ih _ _ h
        obtain ⟨hv3, he3, hn3, hval3, hemp3, hq3, hsome3⟩ := hrest
        have hv3b : st'.version = st₂.version := hv3
        have he3b : st'.expected_root_hash = st₂.expected_root_hash := he3
        have hn3b : st'.num_keys_received =
            st₂.num_keys_received + 1 + rest.length := hn3
        have hval3b : st'.frozen_nodes.values = st₂.frozen_nodes.values ++
            rest.map (fun kv => (st₂.version, kv.1, kv.2)) := hval3
        have hq3b : ∀ q, st'.previous_leaf = some q →
            (∀ kv ∈ rest, bytesLe kv.1 q.key_hash = true) ∧
            (∀ p, some (⟨key, Hv value⟩ : RLeafNode) = some p →
              bytesLe p.key_hash q.key_hash = true) := hq3
        have hemp3b : rest = [] → st' = { st₂ with
            previous_leaf := some ⟨key, Hv value⟩,
            num_keys_received := st₂.num_keys_received + 1 } := hemp3
        have hsome3b : rest ≠ [] → st'.previous_leaf.isSome = true := hsome3
        refine ⟨hv3b.trans hv2b, he3b.trans he2b, ?_, ?_, ?_, ?_, ?_⟩
        · simp only [List.length_cons]
          omega
        · rw [hval3b, hfv2b, hv2b]
          simp
        · intro hco
          exact List.noConfusion hco
        · intro q hq
          obtain ⟨hrestle, hheadle⟩ := hq3b q hq
          have hkeyq : bytesLe key q.key_hash = true := hheadle ⟨key, Hv value⟩ rfl
          constructor
          · intro kv hkv
            rcases List.mem_cons.mp hkv with hh | hh
            · subst hh
              exact hkeyq
            · exact hrestle kv hh
          · intro p hp
            have hoo2 := hoo
            rw [hp] at hoo2
            simp only [Bool.not_eq_true] at hoo2
            exact bytesLe_trans p.key_hash key q.key_hash
              (bytesLe_total key p.key_hash hoo2) hkeyq
        · intro _
          rcases eq_or_ne rest ([] : List (List Nat × List Nat)) with hre | hre
          · rw [hemp3b hre]
            rfl
          · exact hsome3b hre

/-- C10: when `add_chunk` returns `VerificationFailed`, nothing was passed
to the store, but the in-memory state keeps the rejected chunk: the key
counter advanced by the chunk length, the staged values retain the chunk's
entries, the previous leaf is a key at least every chunk key — so
re-submitting the same chunk to the same restorer fails with `OutOfOrder`
(and changes nothing). -/
theorem claim_C10_no_rollback (Hi : List Nat → List Nat → List Nat) (ph : List Nat)
    (Hl : List Nat → List Nat → List Nat) (Hv : List Nat → List Nat)
    (writeOk : Bool) (st : RestoreState) (chunk : List (List Nat × List Nat))
    (proof : RangeProof) (st' : RestoreState) (written : List NodeBatch)
    (h : addChunkImpl Hi ph Hl Hv writeOk st chunk proof =
      .ok ⟨some .verificationFailed, st', written⟩) :
    written = [] ∧
    st'.num_keys_received = st.num_keys_received + chunk.length ∧
    st'.frozen_nodes.values = st.frozen_nodes.values ++
      chunk.map (fun kv => (st.version, kv.1, kv.2)) ∧
    (∃ q, st'.previous_leaf = some q ∧
      ∀ kv ∈ chunk, bytesLe kv.1 q.key_hash = true) ∧
    (∀ writeOk2 proof2, addChunkImpl Hi ph Hl Hv writeOk2 st' chunk proof2 =
      .ok ⟨some .outOfOrder, st', []⟩) := by
  rw [addChunkImpl] at h
  by_cases hemp : chunk.isEmpty = true
  · rw [if_pos hemp] at h
    simp at h
  · rw [if_neg hemp] at h
    simp only [Bind.bind, Except.bind] at h
    cases hloop : addChunkLoop Hi ph Hl Hv st chunk with
    | error e =>
      simp only [hloop] at h
      exact Except.noConfusion h
    | ok rs =>
      obtain ⟨r, st₂⟩ := rs
      simp only [hloop] at h
      cases r with
      | some e =>
        rcases addChunkLoop_result Hi ph Hl Hv chunk st (some e) st₂ hloop
          with h1 | h1
        · exact absurd h1 (by simp)
        · injection h1 with h1e
          subst h1e
          simp at h
      | none =>
        cases hver : RestoreState.verify Hi ph Hl st₂ proof with
        | error e =>
          simp only [hver] at h
          exact Except.noConfusion h
        | ok verdict =>
          simp only [hver] at h
          cases verdict with
          | true =>
            cases writeOk with
            | true => simp at h
            | false => simp at h
          | false =>
            injection h with hh
            injection hh with hr hs hw
            subst hs
            have hspec := addChunkLoop_ok_spec Hi ph Hl Hv chunk st st₂ hloop
            obtain ⟨hv3, he3, hn3, hval3, hemp3, hq3, hsome3⟩ := hspec
            have hchunkne : chunk ≠ [] := by
              intro hceq
              subst hceq
              exact hemp rfl
            have hps : st₂.previous_leaf.isSome = true := hsome3 hchunkne
            obtain ⟨q, hq⟩ : ∃ q, st₂.previous_leaf = some q := by
              cases hpl : st₂.previous_leaf with
              | none =>
                rw [hpl] at hps
                simp at hps
              | some q => exact ⟨q, rfl⟩
            obtain ⟨hall, _⟩ := hq3 q hq
            refine ⟨hw.symm, hn3, hval3, ⟨q, hq, hall⟩, ?_⟩
            intro writeOk2 proof2
            rw [addChunkImpl, if_neg hemp]
            cases chunk with
            | nil => exact absurd rfl hchunkne
            | cons kv rest =>
              obtain ⟨key, value⟩ := kv
              have hk : bytesLe key q.key_hash = true :=
                hall (key, value) (List.mem_cons_self _ _)
              simp only [Bind.bind, Except.bind, addChunkLoop]
              simp [hq, hk]

/-- Witness for C10: a fresh restorer (version 0) fed the concrete chunk
`wChunk` under an always-rejecting proof ends in state `wst` with result
`VerificationFailed`; the conclusions of the claim evaluated there. -/
theorem claim_C10_witness :
    ([] : List NodeBatch) = [] ∧
    wst.num_keys_received =
      (freshRestore 0 (List.replicate 32 9)).num_keys_received + wChunk.length ∧
    wst.frozen_nodes.values =
      (freshRestore 0 (List.replicate 32 9)).frozen_nodes.values ++
        wChunk.map (fun kv =>
          ((freshRestore 0 (List.replicate 32 9)).version, kv.1, kv.2)) ∧
    (∃ q, wst.previous_leaf = some q ∧
      ∀ kv ∈ wChunk, bytesLe kv.1 q.key_hash = true) ∧
    (∀ writeOk2 proof2, addChunkImpl wH2 [] wH2 wHv writeOk2 wst wChunk proof2 =
      .ok ⟨some .outOfOrder, wst, []⟩) :=
  claim_C10_no_rollback wH2 [] wH2 wHv true (freshRestore 0 (List.replicate 32 9))
    wChunk wProof wst [] (by set_option maxRecDepth 100000 in rfl)

/-- C3: `add_chunk` returns `EmptyChunk` for an empty chunk (writing
nothing, state unchanged); it returns `OutOfOrder` — writing nothing and
leaving the state unchanged — whenever the incoming key is not strictly
greater than the previously added leaf's key hash (equality included; the
previous leaf carries across chunk boundaries); every `EmptyChunk`,
`OutOfOrder` or `VerificationFailed` outcome writes nothing; and
`write_node_batch` is invoked only after the chunk's proof verification
succeeds. -/
theorem claim_C3_add_chunk_errors (Hi : List Nat → List Nat → List Nat)
    (ph : List Nat) (Hl : List Nat → List Nat → List Nat)
    (Hv : List Nat → List Nat) (writeOk : Bool) (st : RestoreState)
    (proof : RangeProof) :
    addChunkImpl Hi ph Hl Hv writeOk st [] proof =
      .ok ⟨some .emptyChunk, st, []⟩ ∧
    (∀ key value chunk p, st.previous_leaf = some p →
      bytesLe key p.key_hash = true →
      addChunkImpl Hi ph Hl Hv writeOk st ((key, value) :: chunk) proof =
        .ok ⟨some .outOfOrder, st, []⟩) ∧
    (∀ chunk out, addChunkImpl Hi ph Hl Hv writeOk st chunk proof = .ok out →
      (out.result = some .emptyChunk ∨ out.result = some .outOfOrder ∨
        out.result = some .verificationFailed) →
      out.written = []) ∧
    (∀ chunk out, addChunkImpl Hi ph Hl Hv writeOk st chunk proof = .ok out →
      out.written ≠ [] →
      ∃ st₂, addChunkLoop Hi ph Hl Hv st chunk = .ok (none, st₂) ∧
        RestoreState.verify Hi ph Hl st₂ proof = .ok true ∧
        out.written = [st₂.frozen_nodes]) := by
  refine ⟨rfl, ?_, ?_, ?_⟩
  · intro key value chunk p hp hk
    rw [addChunkImpl, if_neg (by simp)]
    simp only [Bind.bind, Except.bind, addChunkLoop]
    simp [hp, hk]
  · intro chunk out h hres
    rw [addChunkImpl] at h
    by_cases hemp : chunk.isEmpty = true
    · rw [if_pos hemp] at h
      injection h with h2
      subst h2
      rfl
    · rw [if_neg hemp] at h
      simp only [Bind.bind, Except.bind] at h
      cases hloop : addChunkLoop Hi ph Hl Hv st chunk with
      | error e =>
        simp only [hloop] at h
        exact Except.noConfusion h
      | ok rs =>
        obtain ⟨r, st₂⟩ := rs
        simp only [hloop] at h
        cases r with
        | some e =>
          injection h with h2
          subst h2
          rfl
        | none =>
          cases hver : RestoreState.verify Hi ph Hl st₂ proof with
          | error e =>
            simp only [hver] at h
            exact Except.noConfusion h
          | ok verdict =>
            simp only [hver] at h
            cases verdict with
            | false =>
              rw [if_neg (by simp)] at h
              injection h with h2
              subst h2
              rfl
            | true =>
              rw [if_pos rfl] at h
              cases writeOk with
              | true =>
                rw [if_pos rfl] at h
                injection h with h2
                subst h2
                rcases hres with h1 | h1 | h1 <;> simp at h1
              | false =>
                rw [if_neg (by simp)] at h
                injection h with h2
                subst h2
                rcases hres with h1 | h1 | h1 <;> simp at h1
  · intro chunk out h hw
    rw [addChunkImpl] at h
    by_cases hemp : chunk.isEmpty = true
    · rw [if_pos hemp] at h
      injection h with h2
      subst h2
      exact absurd rfl hw
    · rw [if_neg hemp] at h
      simp only [Bind.bind, Except.bind] at h
      cases hloop : addChunkLoop Hi ph Hl Hv st chunk with
      | error e =>
        simp only [hloop] at h
        exact Except.noConfusion h
      | ok rs =>
        obtain ⟨r, st₂⟩ := rs
        simp only [hloop] at h
        cases r with
        | some e =>
          injection h with h2
          subst h2
          exact absurd rfl hw
        | none =>
          cases hver : RestoreState.verify Hi ph Hl st₂ proof with
          | error e =>
            simp only [hver] at h
            exact Except.noConfusion h
          | ok verdict =>
            simp only [hver] at h
            cases verdict with
            | false =>
              rw [if_neg (by simp)] at h
              injection h with h2
              subst h2
              exact absurd rfl hw
            | true =>
              rw [if_pos rfl] at h
              cases writeOk with
              | true =>
                rw [if_pos rfl] at h
                injection h with h2
                subst h2
                exact ⟨st₂, rfl, hver, rfl⟩
              | false =>
                rw [if_neg (by simp)] at h
                injection h with h2
                subst h2
                exact ⟨st₂, rfl, hver, rfl⟩

/-- Witness for C3: a concrete restorer that already holds a previous
leaf: the empty chunk is rejected as `EmptyChunk`, and re-sending the same
key is rejected as `OutOfOrder`, both without writing. -/
theorem claim_C3_witness :
    addChunkImpl wH2 [] wH2 wHv true wst [] wProof =
      .ok ⟨some .emptyChunk, wst, []⟩ ∧
    addChunkImpl wH2 [] wH2 wHv true wst wChunk wProof =
      .ok ⟨some .outOfOrder, wst, []⟩ :=
  ⟨(claim_C3_add_chunk_errors wH2 [] wH2 wHv true wst wProof).1,
   (claim_C3_add_chunk_errors wH2 [] wH2 wHv true wst wProof).2.1
     (List.replicate 32 0) [1] []
     ⟨List.replicate 32 0, List.replicate 32 3⟩ rfl
     (bytesLe_refl (List.replicate 32 0))⟩

theorem testBit_one_shift (p j : Nat) :
    (1 <<< p).testBit j = decide (p = j) := by
  rw [Nat.one_shiftLeft, Nat.testBit_two_pow]

theorem ctz16_shift (p : Nat) (hp : p < 16) : ctz16 (1 <<< p) = p := by
  apply ctz16_eq_of_least
  · rw [Nat.one_shiftLeft]
    exact Nat.pow_lt_pow_right (by norm_num) hp
  · rw [testBit_one_shift]
    simp
  · intro j hj
    rw [testBit_one_shift]
    simp
    omega

theorem two_pow_le_of_testBit (n j : Nat) (h : n.testBit j = true) : 2 ^ j ≤ n := by
  by_contra hlt
  rw [Nat.testBit_lt_two_pow (by omega)] at h
  exact Bool.false_ne_true h

theorem one_hot_and_eq_zero (q bm : Nat) :
    (1 <<< q) &&& bm = 0 ↔ bm.testBit q = false := by
  constructor
  · intro h0
    cases hb : bm.testBit q with
    | false => rfl
    | true =>
      have : ((1 <<< q) &&& bm).testBit q = true := by
        rw [Nat.testBit_and, testBit_one_shift, hb]
        simp
      rw [h0, Nat.zero_testBit] at this
      exact (Bool.false_ne_true this).elim
  · intro hb
    apply Nat.eq_of_testBit_eq
    intro j
    rw [Nat.testBit_and, testBit_one_shift, Nat.zero_testBit]
    by_cases hj : q = j
    · subst hj
      rw [hb]
      simp
    · simp [hj]

theorem lz16Aux_spec : ∀ fuel n,
    ((∀ j, j < fuel → n.testBit j = false) ∧ lz16Aux fuel n = 16) ∨
    (∃ i, i < fuel ∧ n.testBit i = true ∧
      (∀ j, i < j → j < fuel → n.testBit j = false) ∧
      lz16Aux fuel n = 16 - (i + 1)) := by
  intro fuel
  induction fuel with
  | zero =>
    intro n
    exact .inl ⟨fun j hj => absurd hj (by omega), rfl⟩
  | succ f ih =>
    intro n
    by_cases hb : n.testBit f = true
    · refine .inr ⟨f, by omega, hb, ?_, ?_⟩
      · intro j h1 h2
        omega
      · rw [lz16Aux, if_pos hb]
    · have hbf : n.testBit f = false := by
        cases h : n.testBit f
        · rfl
        · exact absurd h hb
      rcases ih n with ⟨hall, heq⟩ | ⟨i, hi, hbit, hmax, heq⟩
      · refine .inl ⟨?_, ?_⟩
        · intro j hj
          rcases Nat.lt_or_ge j f with h | h
          · exact hall j h
          · have : j = f := by omega
            subst this
            exact hbf
        · rw [lz16Aux, if_neg (by rw [hbf]; simp)]
          exact heq
      · refine .inr ⟨i, by omega, hbit, ?_, ?_⟩
        · intro j h1 h2
          rcases Nat.lt_or_ge j f with h | h
          · exact hmax j h1 h
          · have : j = f := by omega
            subst this
            exact hbf
        · rw [lz16Aux, if_neg (by rw [hbf]; simp)]
          exact heq

theorem lz16_eq_of_highest (n i : Nat) (hn : n < 2 ^ 16) (hi : n.testBit i = true)
    (hmax : ∀ j, i < j → n.testBit j = false) : lz16 n = 16 - (i + 1) := by
  have hi16 : i < 16 := by
    have h2 := two_pow_le_of_testBit n i hi
    by_contra hge
    have : (2 : Nat) ^ 16 ≤ 2 ^ i := Nat.pow_le_pow_right (by norm_num) (by omega)
    omega
  rcases lz16Aux_spec 16 n with ⟨hall, _⟩ | ⟨i', hi', hbit', hmax', heq'⟩
  · rw [hall i hi16] at hi
    exact absurd hi (by simp)
  · have : i' = i := by
      rcases Nat.lt_trichotomy i' i with h | h | h
      · have := hmax' i h hi16
        rw [this] at hi
        exact absurd hi (by simp)
      · exact h
      · have := hmax i' h
        rw [this] at hbit'
        exact absurd hbit' (by simp)
    subst this
    exact heq'

theorem exists_highest_bit (n : Nat) (hn : n ≠ 0) (h16 : n < 2 ^ 16) :
    ∃ i, i < 16 ∧ n.testBit i = true ∧ ∀ j, i < j → n.testBit j = false := by
  rcases lz16Aux_spec 16 n with ⟨hall, _⟩ | ⟨i, hi, hbit, hmax, _⟩
  · exfalso
    apply hn
    apply Nat.eq_of_testBit_eq
    intro j
    rw [Nat.zero_testBit]
    rcases Nat.lt_or_ge j 16 with h | h
    · exact hall j h
    · exact Nat.testBit_lt_two_pow (lt_of_lt_of_le h16
        (Nat.pow_le_pow_right (by norm_num) h))
  · refine ⟨i, hi, hbit, ?_⟩
    intro j hj
    rcases Nat.lt_or_ge j 16 with h | h
    · exact hmax j hj h
    · exact Nat.testBit_lt_two_pow (lt_of_lt_of_le h16
        (Nat.pow_le_pow_right (by norm_num) h))

theorem lz16_one_hot (p : Nat) (hp : p < 16) : lz16 (1 <<< p) = 16 - (p + 1) := by
  apply lz16_eq_of_highest
  · rw [Nat.one_shiftLeft]
    exact Nat.pow_lt_pow_right (by norm_num) hp
  · rw [testBit_one_shift]
    simp
  · intro j hj
    rw [testBit_one_shift]
    simp
    omega

theorem lz16_le_of_testBit (n i : Nat) (h16 : n < 2 ^ 16)
    (hi : n.testBit i = true) : lz16 n ≤ 16 - (i + 1) := by
  have hne : n ≠ 0 := by
    intro h0
    rw [h0, Nat.zero_testBit] at hi
    exact Bool.false_ne_true hi
  obtain ⟨h, hh16, hhbit, hhmax⟩ := exists_highest_bit n hne h16
  have hle : i ≤ h := by
    by_contra hlt
    have := hhmax i (by omega)
    rw [this] at hi
    exact Bool.false_ne_true hi
  rw [lz16_eq_of_highest n h h16 hhbit hhmax]
  omega

theorem one_shift_shift (q : Nat) : (1 <<< q) <<< 1 = 1 <<< (q + 1) := by
  simp only [Nat.shiftLeft_eq, Nat.pow_succ]
  ring

theorem shiftToBit_finds (bm : Nat) : ∀ fuel q j₀, bm.testBit j₀ = true → q ≤ j₀ →
    (∀ j, q ≤ j → j < j₀ → bm.testBit j = false) → j₀ < q + fuel →
    shiftToBit fuel (1 <<< q) bm = some (1 <<< j₀) := by
  intro fuel
  induction fuel with
  | zero =>
    intro q j₀ _ _ _ hfu
    omega
  | succ f ih =>
    intro q j₀ hbit hq hleast hfu
    rcases Nat.eq_or_lt_of_le hq with heq | hlt
    · subst heq
      rw [shiftToBit, if_neg]
      rw [one_hot_and_eq_zero, hbit]
      simp
    · rw [shiftToBit, if_pos, one_shift_shift]
      · exact ih (q + 1) j₀ hbit (by omega) (fun j h1 h2 => hleast j (by omega) h2)
          (by omega)
      · rw [one_hot_and_eq_zero]
        exact hleast q (le_refl q) hlt

theorem new_next_spec (nk : NodeKey) (node : InternalNode) (ci j₀ : Nat)
    (hbm16 : (genBitmaps node.children).1 < 2 ^ 16)
    (hbit : (genBitmaps node.children).1.testBit j₀ = true) (hci : ci ≤ j₀)
    (hleast : ∀ j, ci ≤ j → j < j₀ →
      (genBitmaps node.children).1.testBit j = false)
    (hj16 : j₀ < 16) :
    NodeVisitInfo.new_next_child_to_visit nk node ci =
      some ⟨nk, node, (genBitmaps node.children).1, 1 <<< j₀⟩ := by
  rw [NodeVisitInfo.new_next_child_to_visit]
  have hge : ¬ (genBitmaps node.children).1 < 1 <<< ci := by
    have h1 := two_pow_le_of_testBit _ _ hbit
    have h2 : (2 : Nat) ^ ci ≤ 2 ^ j₀ := Nat.pow_le_pow_right (by norm_num) hci
    rw [Nat.one_shiftLeft]
    omega
  rw [if_neg hge, shiftToBit_finds _ 17 ci j₀ hbit hci hleast (by omega)]

theorem is_rightmost_true (nk : NodeKey) (node : InternalNode) (bm p : Nat)
    (hp : p < 16) (hbm : bm < 2 ^ 16) (hbit : bm.testBit p = true)
    (hmax : ∀ j, p < j → bm.testBit j = false) :
    NodeVisitInfo.is_rightmost ⟨nk, node, bm, 1 <<< p⟩ = some true := by
  rw [NodeVisitInfo.is_rightmost]
  have h1 : lz16 (1 <<< p) = 16 - (p + 1) := lz16_one_hot p hp
  have h2 : lz16 bm = 16 - (p + 1) := lz16_eq_of_highest bm p hbm hbit hmax
  simp only at h1 h2 ⊢
  rw [h1, h2, if_neg (by omega)]
  simp

theorem is_rightmost_false (nk : NodeKey) (node : InternalNode) (bm p j₁ : Nat)
    (hp : p < 16) (hbm : bm < 2 ^ 16) (hbit : bm.testBit p = true)
    (hj : p < j₁) (hbit1 : bm.testBit j₁ = true) :
    NodeVisitInfo.is_rightmost ⟨nk, node, bm, 1 <<< p⟩ = some false := by
  rw [NodeVisitInfo.is_rightmost]
  have h1 : lz16 (1 <<< p) = 16 - (p + 1) := lz16_one_hot p hp
  have hj16 : j₁ < 16 := by
    have h2 := two_pow_le_of_testBit bm j₁ hbit1
    by_contra hge
    have : (2 : Nat) ^ 16 ≤ 2 ^ j₁ := Nat.pow_le_pow_right (by norm_num) (by omega)
    omega
  have h2 : lz16 bm ≤ 16 - (j₁ + 1) := lz16_le_of_testBit bm j₁ hbm hbit1
  have h3 : lz16 bm ≤ 16 - (p + 1) := lz16_le_of_testBit bm p hbm hbit
  simp only at h1 ⊢
  rw [h1, if_neg (by omega)]
  simp
  omega

theorem advance_spec (nk : NodeKey) (node : InternalNode) (bm p j₁ : Nat)
    (hp : p < 16) (hbm : bm < 2 ^ 16) (hbit : bm.testBit p = true)
    (hj : p < j₁) (hj16 : j₁ < 16) (hbit1 : bm.testBit j₁ = true)
    (hleast : ∀ j, p < j → j < j₁ → bm.testBit j = false) :
    NodeVisitInfo.advance ⟨nk, node, bm, 1 <<< p⟩ =
      some ⟨nk, node, bm, 1 <<< j₁⟩ := by
  rw [NodeVisitInfo.advance]
  simp only [Bind.bind, Option.bind,
    is_rightmost_false nk node bm p j₁ hp hbm hbit hj hbit1]
  rw [if_neg (by simp)]
  rw [one_shift_shift, shiftToBit_finds bm 17 (p + 1) j₁ hbit1 (by omega)
    (fun j h1 h2 => hleast j (by omega) h2) (by omega)]

theorem foldr_append_eq_join {α β : Type} (f : α → List β) :
    ∀ l : List α, l.foldr (fun i acc => f i ++ acc) [] = (l.map f).join := by
  intro l
  induction l with
  | nil => rfl
  | cons a rest ih => simp [ih]

theorem flatten_node (cs : Fin 16 → JTree) :
    (JTree.node cs).flatten =
      ((List.finRange 16).map (fun i => (cs i).flatten)).join := by
  rw [JTree.flatten]
  exact foldr_append_eq_join _ _

theorem flattenFrom_zero (cs : Fin 16 → JTree) :
    flattenFrom cs 0 = (JTree.node cs).flatten := rfl

theorem flattenFrom_ge (cs : Fin 16 → JTree) (j : Nat) (hj : 16 ≤ j) :
    flattenFrom cs j = [] := by
  rw [flattenFrom, List.drop_eq_nil_of_le (by simp [hj]), List.foldr_nil]

theorem finRange_drop_cons (j : Nat) (hj : j < 16) :
    (List.finRange 16).drop j = ⟨j, hj⟩ :: (List.finRange 16).drop (j + 1) := by
  rw [List.drop_eq_getElem_cons (by simp [hj])]
  congr 1
  simp [List.getElem_finRange, Fin.cast]

theorem flattenFrom_step (cs : Fin 16 → JTree) (j : Nat) (hj : j < 16) :
    flattenFrom cs j = (cs ⟨j, hj⟩).flatten ++ flattenFrom cs (j + 1) := by
  rw [flattenFrom, finRange_drop_cons j hj, List.foldr_cons]
  rfl

theorem subtreeAt_child : ∀ (π : List Nat) (t : JTree) (cs : Fin 16 → JTree),
    subtreeAt t π = some (.node cs) → ∀ i : Fin 16,
      subtreeAt t (π ++ [i.val]) = some (cs i) := by
  intro π
  induction π with
  | nil =>
    intro t cs h i
    rw [subtreeAt] at h
    injection h with h2
    subst h2
    simp only [List.nil_append, subtreeAt]
    rw [dif_pos i.isLt]
  | cons a rest ih =>
    intro t cs h i
    cases t with
    | empty => exact absurd h (by rw [subtreeAt]; simp)
    | leaf k v => exact absurd h (by rw [subtreeAt]; simp)
    | node cs2 =>
      rw [subtreeAt] at h
      by_cases ha : a < 16
      · rw [dif_pos ha] at h
        rw [List.cons_append, subtreeAt, dif_pos ha]
        exact ih _ cs h i
      · rw [dif_neg ha] at h
        exact absurd h (by simp)

theorem wfAux_subtreeAt : ∀ (π : List Nat) (t : JTree) (p : List Nat) (u : JTree),
    t.wfAux p = true → subtreeAt t π = some u → u.wfAux (p ++ π) = true := by
  intro π
  induction π with
  | nil =>
    intro t p u hwf h
    rw [subtreeAt] at h
    injection h with h2
    subst h2
    simpa using hwf
  | cons a rest ih =>
    intro t p u hwf h
    cases t with
    | empty => exact absurd h (by rw [subtreeAt]; simp)
    | leaf k v => exact absurd h (by rw [subtreeAt]; simp)
    | node cs =>
      rw [subtreeAt] at h
      by_cases ha : a < 16
      · rw [dif_pos ha] at h
        rw [JTree.wfAux] at hwf
        simp only [Bool.and_eq_true, List.all_eq_true] at hwf
        have hchild := hwf.2 ⟨a, ha⟩ (List.mem_finRange _)
        have := ih (cs ⟨a, ha⟩) (p ++ [a]) u hchild h
        simpa [List.append_assoc] using this
      · rw [dif_neg ha] at h
        exact absurd h (by simp)

theorem wf_node_parts (cs : Fin 16 → JTree) (p : List Nat)
    (h : (JTree.node cs).wfAux p = true) :
    p.length < 64 ∧
      1 ≤ (List.finRange 16).countP (fun i => !(cs i).isEmptyT) ∧
      ∀ i : Fin 16, (cs i).wfAux (p ++ [i.val]) = true := by
  rw [JTree.wfAux] at h
  simp only [Bool.and_eq_true, decide_eq_true_eq, List.all_eq_true] at h
  exact ⟨h.1.1, h.1.2.1, fun i => h.2 i (List.mem_finRange i)⟩

theorem renderChild_isSome (v : Nat) (u : JTree) :
    (renderChild v u).isSome = !u.isEmptyT := by
  cases u <;> rfl

theorem renderChildren_length (v : Nat) (cs : Fin 16 → JTree) :
    (renderChildren v cs).length = 16 := by
  simp [renderChildren]

theorem childAt_render (v : Nat) (cs : Fin 16 → JTree) (i : Fin 16) :
    childAt (renderChildren v cs) i.val = renderChild v (cs i) := by
  rw [childAt, List.getD_eq_getElem?_getD,
    List.getElem?_eq_getElem (by simp [renderChildren, i.isLt])]
  simp [renderChildren, List.getElem_finRange, Fin.cast]

theorem childAt_render_hi (v : Nat) (cs : Fin 16 → JTree) (j : Nat)
    (hj : 16 ≤ j) : childAt (renderChildren v cs) j = none := by
  rw [childAt, List.getD_eq_getElem?_getD, List.getElem?_eq_none]
  · rfl
  · simp [renderChildren, hj]

theorem render_bitmap_testBit (v : Nat) (cs : Fin 16 → JTree) (i : Fin 16) :
    (genBitmaps (renderChildren v cs)).1.testBit i.val = !(cs i).isEmptyT := by
  rw [genBitmaps_fst_testBit, childAt_render, renderChild_isSome]

theorem render_bitmap_hi (v : Nat) (cs : Fin 16 → JTree) (j : Nat) (hj : 16 ≤ j) :
    (genBitmaps (renderChildren v cs)).1.testBit j = false := by
  rw [genBitmaps_fst_testBit, childAt_render_hi v cs j hj]
  rfl

theorem render_bm_lt (v : Nat) (cs : Fin 16 → JTree) :
    (genBitmaps (renderChildren v cs)).1 < 2 ^ 16 := by
  have := (genBitmaps_lt (renderChildren v cs)).1
  rwa [renderChildren_length] at this

theorem render_bm_ne_zero (v : Nat) (cs : Fin 16 → JTree)
    (h : 1 ≤ (List.finRange 16).countP (fun i => !(cs i).isEmptyT)) :
    (genBitmaps (renderChildren v cs)).1 ≠ 0 := by
  have hpos : 0 < (List.finRange 16).countP (fun i => !(cs i).isEmptyT) := h
  rw [List.countP_pos] at hpos
  obtain ⟨i, _, hi⟩ := hpos
  intro h0
  have := render_bitmap_testBit v cs i
  rw [h0, Nat.zero_testBit] at this
  rw [← this] at hi
  exact Bool.false_ne_true hi

theorem storeOf_internal (t : JTree) (v : Nat) (π : List Nat)
    (cs : Fin 16 → JTree) (h : subtreeAt t π = some (.node cs)) :
    storeOf t v ⟨v, π⟩ =
      some (.internal ⟨renderChildren v cs, sumLeafCount (renderChildren v cs),
        true⟩) := by
  simp [storeOf, h, renderNode]

theorem storeOf_leaf (t : JTree) (v : Nat) (π : List Nat) (k val : List Nat)
    (h : subtreeAt t π = some (.leaf k val)) :
    storeOf t v ⟨v, π⟩ = some (.leaf ⟨k, [], val⟩) := by
  simp [storeOf, h, renderNode]

theorem flatten_mem_slot (cs : Fin 16 → JTree) (kv : List Nat × List Nat) :
    kv ∈ (JTree.node cs).flatten ↔ ∃ i : Fin 16, kv ∈ (cs i).flatten := by
  rw [flatten_node, List.mem_join]
  constructor
  · rintro ⟨l, hl, hkv⟩
    rw [List.mem_map] at hl
    obtain ⟨i, _, rfl⟩ := hl
    exact ⟨i, hkv⟩
  · rintro ⟨i, hkv⟩
    exact ⟨(cs i).flatten, List.mem_map.mpr ⟨i, List.mem_finRange _, rfl⟩, hkv⟩

theorem flatten_ne_nil : ∀ (u : JTree) (p : List Nat), u.wfAux p = true →
    u.isEmptyT = false → u.flatten ≠ [] := by
  intro u
  induction u with
  | empty => intro p _ he; exact absurd he (by simp [JTree.isEmptyT])
  | leaf k val => intro p _ _; simp [JTree.flatten]
  | node cs ih =>
    intro p hwf _
    obtain ⟨_, hcnt, hch⟩ := wf_node_parts cs p hwf
    have hpos : 0 < (List.finRange 16).countP (fun i => !(cs i).isEmptyT) := hcnt
    rw [List.countP_pos] at hpos
    obtain ⟨i, _, hi⟩ := hpos
    simp only [Bool.not_eq_true'] at hi
    have hne := ih i (p ++ [i.val]) (hch i) hi
    obtain ⟨kv, hkv⟩ := List.exists_mem_of_ne_nil _ hne
    exact List.ne_nil_of_mem ((flatten_mem_slot cs kv).mpr ⟨i, hkv⟩)

theorem bytesLt_irrefl : ∀ a : List Nat, bytesLt a a = false
  | [] => rfl
  | x :: r => by
    rw [bytesLt, if_neg (lt_irrefl x), if_neg (lt_irrefl x)]
    exact bytesLt_irrefl r

theorem bytesLt_asymm : ∀ a b : List Nat, bytesLt a b = true → bytesLt b a = false
  | [], [], h => absurd h (by simp [bytesLt])
  | [], _ :: _, _ => rfl
  | _ :: _, [], h => absurd h (by simp [bytesLt])
  | a :: r, c :: s, h => by
    rw [bytesLt] at h ⊢
    by_cases h1 : a < c
    · rw [if_neg (by omega : ¬ c < a), if_pos h1]
    · rw [if_neg h1] at h
      by_cases h2 : c < a
      · rw [if_pos h2] at h
        exact absurd h (by simp)
      · rw [if_neg h2] at h
        rw [if_neg h2, if_neg h1]
        exact bytesLt_asymm r s h

theorem bytesLe_false_of_lt (a b : List Nat) (h : bytesLt a b = true) :
    bytesLe b a = false := by
  have hne : b ≠ a := by
    intro heq
    subst heq
    rw [bytesLt_irrefl] at h
    exact Bool.false_ne_true h
  simp [bytesLe, hne, bytesLt_asymm a b h]

theorem bytesLe_of_lt (a b : List Nat) (h : bytesLt a b = true) :
    bytesLe a b = true := by
  simp [bytesLe, h]

theorem bytesLe_of_not_lt (k s : List Nat) (h : bytesLt k s = false) :
    bytesLe s k = true := by
  rcases bytes_trichotomy s k with h1 | h1 | h1
  · subst h1
    exact bytesLe_refl s
  · simp [bytesLe, h1]
  · rw [h1] at h
    exact absurd h (by simp)

theorem keyNibbles_length : ∀ k : List Nat, (keyNibbles k).length = 2 * k.length
  | [] => rfl
  | b :: r => by
    rw [keyNibbles]
    simp [keyNibbles_length r]
    omega

theorem bytesLt_nibbles : ∀ k1 k2 : List Nat, k1.length = k2.length →
    (∀ b ∈ k1, b < 256) → (∀ b ∈ k2, b < 256) →
    bytesLt k1 k2 = bytesLt (keyNibbles k1) (keyNibbles k2)
  | [], [], _, _, _ => rfl
  | [], _ :: _, h, _, _ => by simp at h
  | _ :: _, [], h, _, _ => by simp at h
  | b :: r1, c :: r2, h, hb, hc => by
    have hb0 : b < 256 := hb b (by simp)
    have hc0 : c < 256 := hc c (by simp)
    have ih := bytesLt_nibbles r1 r2 (by simpa using h)
      (fun x hx => hb x (by simp [hx])) (fun x hx => hc x (by simp [hx]))
    simp only [keyNibbles, bytesLt]
    split_ifs <;> first | rfl | exact ih | (exfalso; omega)

theorem bytesLt_common_prefix : ∀ (p : List Nat) (x y : Nat) (u w : List Nat),
    x < y → bytesLt (p ++ x :: u) (p ++ y :: w) = true
  | [], x, y, u, w, h => by
    rw [List.nil_append, List.nil_append, bytesLt, if_pos h]
  | a :: rest, x, y, u, w, h => by
    rw [List.cons_append, List.cons_append, bytesLt, if_neg (lt_irrefl a),
      if_neg (lt_irrefl a)]
    exact bytesLt_common_prefix rest x y u w h

theorem flattenKeyFacts : ∀ (u : JTree) (p : List Nat), u.wfAux p = true →
    ∀ kv ∈ u.flatten, kv.1.length = 32 ∧ (∀ b ∈ kv.1, b < 256) ∧
      p <+: keyNibbles kv.1 := by
  intro u
  induction u with
  | empty => intro p _ kv hkv; simp [JTree.flatten] at hkv
  | leaf k val =>
    intro p hwf kv hkv
    simp only [JTree.flatten, List.mem_singleton] at hkv
    subst hkv
    rw [JTree.wfAux] at hwf
    simp only [Bool.and_eq_true, decide_eq_true_eq, List.all_eq_true,
      List.isPrefixOf_iff_prefix] at hwf
    exact ⟨hwf.1.1, fun b hb => by simpa using hwf.1.2 b hb, hwf.2⟩
  | node cs ih =>
    intro p hwf kv hkv
    obtain ⟨_, _, hch⟩ := wf_node_parts cs p hwf
    obtain ⟨i, hi⟩ := (flatten_mem_slot cs kv).mp hkv
    obtain ⟨hl, hb, hp⟩ := ih i (p ++ [i.val]) (hch i) kv hi
    exact ⟨hl, hb, (List.prefix_append p [i.val]).trans hp⟩

theorem flatten_pairwise : ∀ (u : JTree) (p : List Nat), u.wfAux p = true →
    List.Pairwise (fun a b : List Nat × List Nat => bytesLt a.1 b.1 = true)
      u.flatten := by
  intro u
  induction u with
  | empty => intro p _; simp [JTree.flatten]
  | leaf k val => intro p _; simp [JTree.flatten]
  | node cs ih =>
    intro p hwf
    obtain ⟨_, _, hch⟩ := wf_node_parts cs p hwf
    rw [flatten_node, List.pairwise_join]
    constructor
    · intro l hl
      rw [List.mem_map] at hl
      obtain ⟨i, _, rfl⟩ := hl
      exact ih i _ (hch i)
    · rw [List.pairwise_map]
      have hfr : (List.finRange 16).Pairwise (fun i j : Fin 16 => i < j) := by
        decide
      refine List.Pairwise.imp_of_mem ?_ hfr
      intro i j _ _ hij a ha b hb
      obtain ⟨hal, hab, hap⟩ := flattenKeyFacts (cs i) (p ++ [i.val]) (hch i) a ha
      obtain ⟨hbl, hbb, hbp⟩ := flattenKeyFacts (cs j) (p ++ [j.val]) (hch j) b hb
      obtain ⟨ta, hta⟩ := hap
      obtain ⟨tb, htb⟩ := hbp
      have hna : keyNibbles a.1 = p ++ i.val :: ta := by
        rw [← hta]
        simp
      have hnb : keyNibbles b.1 = p ++ j.val :: tb := by
        rw [← htb]
        simp
      rw [bytesLt_nibbles a.1 b.1 (by rw [hal, hbl]) hab hbb, hna, hnb]
      exact bytesLt_common_prefix p i.val j.val ta tb (by exact_mod_cast hij)

theorem find?_pairwise (k val : List Nat) :
    ∀ l : List (List Nat × List Nat),
    List.Pairwise (fun a b : List Nat × List Nat => bytesLt a.1 b.1 = true) l →
    (k, val) ∈ l →
    l.find? (fun kv => decide (kv.1 = k)) = some (k, val) := by
  intro l
  induction l with
  | nil => intro _ hmem; simp at hmem
  | cons a rest ih =>
    intro hp hmem
    rw [List.pairwise_cons] at hp
    by_cases ha : a.1 = k
    · have haeq : a = (k, val) := by
        rcases List.mem_cons.mp hmem with h | h
        · exact h.symm
        · exfalso
          have := hp.1 (k, val) h
          simp only [ha] at this
          rw [bytesLt_irrefl] at this
          exact Bool.false_ne_true this
      rw [List.find?_cons_of_pos _ (by simp [ha]), haeq]
    · rw [List.find?_cons_of_neg _ (by simp [ha])]
      apply ih hp.2
      rcases List.mem_cons.mp hmem with h | h
      · exact absurd (congrArg Prod.fst h.symm) ha
      · exact h

theorem valuesOf_lookup (t : JTree) (v : Nat) (hwf : t.Wf = true)
    (k val : List Nat) (hmem : (k, val) ∈ t.flatten) :
    valuesOf t v v k = some val := by
  rw [valuesOf]
  simp only [if_pos rfl]
  rw [find?_pairwise k val t.flatten (flatten_pairwise t [] hwf) hmem]
  rfl

theorem flatten_of_isEmptyT (u : JTree) (h : u.isEmptyT = true) :
    u.flatten = [] := by
  cases u with
  | empty => rfl
  | leaf k v => simp [JTree.isEmptyT] at h
  | node cs => simp [JTree.isEmptyT] at h

theorem flattenFrom_congr_empty (cs : Fin 16 → JTree) :
    ∀ (n j : Nat),
      (∀ m : Fin 16, j ≤ m.val → m.val < j + n → (cs m).isEmptyT = true) →
      flattenFrom cs j = flattenFrom cs (j + n) := by
  intro n
  induction n with
  | zero => intro j _; rfl
  | succ n ih =>
    intro j hemp
    by_cases hj : j < 16
    · rw [flattenFrom_step cs j hj,
        flatten_of_isEmptyT _ (hemp ⟨j, hj⟩ (le_refl j)
          (by show j < j + (n + 1); omega)),
        List.nil_append]
      have h2 := ih (j + 1) (fun m h1 h2 => hemp m (by omega) (by omega))
      rw [h2]
      congr 1
      omega
    · rw [flattenFrom_ge cs j (by omega), flattenFrom_ge cs (j + (n + 1)) (by omega)]

theorem flattenFrom_empty_tail (cs : Fin 16 → JTree) (q : Nat)
    (h : ∀ m : Fin 16, q ≤ m.val → (cs m).isEmptyT = true) :
    flattenFrom cs q = [] := by
  by_cases hq : q ≤ 16
  · rw [flattenFrom_congr_empty cs (16 - q) q (fun m h1 _ => h m h1),
      show q + (16 - q) = 16 by omega]
    exact flattenFrom_ge cs 16 (le_refl 16)
  · exact flattenFrom_ge cs q (by omega)

theorem subtree_flatten_mem : ∀ (π : List Nat) (t u : JTree),
    subtreeAt t π = some u → ∀ kv ∈ u.flatten, kv ∈ t.flatten := by
  intro π
  induction π with
  | nil =>
    intro t u h kv hkv
    rw [subtreeAt] at h
    injection h with h2
    subst h2
    exact hkv
  | cons a rest ih =>
    intro t u h kv hkv
    cases t with
    | empty => exact absurd h (by rw [subtreeAt]; simp)
    | leaf k v2 => exact absurd h (by rw [subtreeAt]; simp)
    | node cs =>
      rw [subtreeAt] at h
      by_cases ha : a < 16
      · rw [dif_pos ha] at h
        exact (flatten_mem_slot cs kv).mpr ⟨⟨a, ha⟩, ih _ _ h kv hkv⟩
      · rw [dif_neg ha] at h
        exact absurd h (by simp)

theorem testBit_lt_16 (n j : Nat) (h16 : n < 2 ^ 16) (hb : n.testBit j = true) :
    j < 16 := by
  have h2 := two_pow_le_of_testBit n j hb
  by_contra hge
  have : (2 : Nat) ^ 16 ≤ 2 ^ j := Nat.pow_le_pow_right (by norm_num) (by omega)
  omega

theorem cleanupStack_spec (t : JTree) (v : Nat) :
    ∀ stack, StackInv t v stack →
      ∃ stack', cleanupStack stack = some stack' ∧ StackInv t v stack' ∧
        stackRem t stack' = stackRemAux t stack := by
  intro stack
  induction stack with
  | nil => exact fun _ => ⟨[], rfl, trivial, rfl⟩
  | cons f rest ih =>
    intro hinv
    obtain ⟨hf, hrest, hlink⟩ := hinv
    obtain ⟨fnk, fnode, fbm, fnext⟩ := f
    obtain ⟨hver, cs, hsub, hnode, hbm, p, hnext, hocc⟩ := hf
    simp only at hver hsub hnode hbm hnext
    subst hnode
    subst hbm
    subst hnext
    have hbm16 := render_bm_lt v cs
    have hbitp : (genBitmaps (renderChildren v cs)).1.testBit p.val = true := by
      rw [render_bitmap_testBit, hocc]
      rfl
    have hptr : framePtr ⟨fnk,
        ⟨renderChildren v cs, sumLeafCount (renderChildren v cs), true⟩,
        (genBitmaps (renderChildren v cs)).1, 1 <<< p.val⟩ = p.val := by
      rw [framePtr]
      exact ctz16_shift p.val p.isLt
    by_cases hrm : ∀ j : Fin 16, p.val < j.val → (cs j).isEmptyT = true
    · have hmax : ∀ j, p.val < j →
          (genBitmaps (renderChildren v cs)).1.testBit j = false := by
        intro j hj
        by_cases hj16 : j < 16
        · have h2 := render_bitmap_testBit v cs ⟨j, hj16⟩
          rw [hrm ⟨j, hj16⟩ hj] at h2
          simpa using h2
        · exact render_bitmap_hi v cs j (by omega)
      have hrt := is_rightmost_true fnk
        ⟨renderChildren v cs, sumLeafCount (renderChildren v cs), true⟩
        (genBitmaps (renderChildren v cs)).1 p.val p.isLt hbm16 hbitp hmax
      obtain ⟨stack', hcl, hinv', hrem⟩ := ih hrest
      refine ⟨stack', ?_, hinv', ?_⟩
      · rw [cleanupStack]
        simp only [Bind.bind, Option.bind, hrt]
        simpa using hcl
      · rw [hrem, stackRemAux, hptr]
        have hfr : frameRem t ⟨fnk,
            ⟨renderChildren v cs, sumLeafCount (renderChildren v cs), true⟩,
            (genBitmaps (renderChildren v cs)).1, 1 <<< p.val⟩ (p.val + 1) = [] := by
          rw [frameRem]
          simp only [hsub]
          exact flattenFrom_empty_tail cs (p.val + 1)
            (fun m hm => hrm m (by omega))
        rw [hfr, List.nil_append]
    · push_neg at hrm
      obtain ⟨j₀, hj₀gt, hj₀ne⟩ := hrm
      have hj₀occ : (cs j₀).isEmptyT = false := by
        cases h : (cs j₀).isEmptyT
        · rfl
        · exact absurd h hj₀ne
      have hex : ∃ j, p.val < j ∧
          (genBitmaps (renderChildren v cs)).1.testBit j = true := by
        refine ⟨j₀.val, hj₀gt, ?_⟩
        rw [render_bitmap_testBit, hj₀occ]
        rfl
      have hP := Nat.find_spec hex
      have hj₁16 : Nat.find hex < 16 := testBit_lt_16 _ _ hbm16 hP.2
      have hleast : ∀ j, p.val < j → j < Nat.find hex →
          (genBitmaps (renderChildren v cs)).1.testBit j = false := by
        intro j h1 h2
        have := Nat.find_min hex h2
        cases hb : (genBitmaps (renderChildren v cs)).1.testBit j
        · rfl
        · exact absurd ⟨h1, hb⟩ this
      have hadv := advance_spec fnk
        ⟨renderChildren v cs, sumLeafCount (renderChildren v cs), true⟩
        (genBitmaps (renderChildren v cs)).1 p.val (Nat.find hex) p.isLt hbm16
        hbitp hP.1 hj₁16 hP.2 hleast
      have hrf := is_rightmost_false fnk
        ⟨renderChildren v cs, sumLeafCount (renderChildren v cs), true⟩
        (genBitmaps (renderChildren v cs)).1 p.val (Nat.find hex) p.isLt hbm16
        hbitp hP.1 hP.2
      have hocc₁ : (cs ⟨Nat.find hex, hj₁16⟩).isEmptyT = false := by
        have h2 := render_bitmap_testBit v cs ⟨Nat.find hex, hj₁16⟩
        cases hb : (cs ⟨Nat.find hex, hj₁16⟩).isEmptyT
        · rfl
        · rw [hb] at h2
          simp only at h2
          rw [h2] at hP
          exact absurd hP.2 (by simp)
      refine ⟨⟨fnk,
        ⟨renderChildren v cs, sumLeafCount (renderChildren v cs), true⟩,
        (genBitmaps (renderChildren v cs)).1, 1 <<< Nat.find hex⟩ :: rest, ?_, ?_, ?_⟩
      · rw [cleanupStack]
        simp only [Bind.bind, Option.bind, hrf, hadv]
        first
          | rfl
          | simp
      · refine ⟨⟨hver, cs, hsub, rfl, rfl, ⟨Nat.find hex, hj₁16⟩, rfl, hocc₁⟩,
          hrest, ?_⟩
        cases rest with
        | nil => trivial
        | cons g rest2 => exact hlink
      · rw [stackRem, stackRemAux, hptr]
        have hptr2 : framePtr ⟨fnk,
            ⟨renderChildren v cs, sumLeafCount (renderChildren v cs), true⟩,
            (genBitmaps (renderChildren v cs)).1, 1 <<< Nat.find hex⟩ =
            Nat.find hex := by
          rw [framePtr]
          exact ctz16_shift _ hj₁16
        rw [hptr2]
        congr 1
        rw [frameRem, frameRem]
        simp only [hsub]
        have hcong := flattenFrom_congr_empty cs (Nat.find hex - (p.val + 1))
          (p.val + 1) (fun m h1 h2 => by
            have hb := hleast m.val (by omega) (by omega)
            have h3 := render_bitmap_testBit v cs m
            rw [hb] at h3
            cases he : (cs m).isEmptyT
            · rw [he] at h3
              simp at h3
            · rfl)
        rw [hcong]
        congr 1
        omega

theorem frame_destruct (t : JTree) (v : Nat) (f : NodeVisitInfo)
    (hf : FrameOK t v f) :
    ∃ (cs : Fin 16 → JTree) (p : Fin 16),
      f.node_key.version = v ∧
      subtreeAt t f.node_key.nibble_path = some (.node cs) ∧
      f.node = ⟨renderChildren v cs, sumLeafCount (renderChildren v cs), true⟩ ∧
      f.children_bitmap = (genBitmaps (renderChildren v cs)).1 ∧
      f.next_child_to_visit = 1 <<< p.val ∧ (cs p).isEmptyT = false ∧
      framePtr f = p.val ∧
      subtreeAt t (f.node_key.nibble_path ++ [p.val]) = some (cs p) := by
  obtain ⟨hver, cs, hsub, hnode, hbm, p, hnext, hocc⟩ := hf
  refine ⟨cs, p, hver, hsub, hnode, hbm, hnext, hocc, ?_, ?_⟩
  · rw [framePtr, hnext]
    exact ctz16_shift p.val p.isLt
  · exact subtreeAt_child _ t cs hsub p

theorem iterNextLoop_step (t : JTree) (v : Nat) (hwf : t.Wf = true) :
    ∀ (u : JTree) (fuel : Nat) (f : NodeVisitInfo) (rest : List NodeVisitInfo),
      StackInv t v (f :: rest) →
      subtreeAt t (f.node_key.nibble_path ++ [framePtr f]) = some u →
      65 ≤ fuel + (f.node_key.nibble_path.length + 1) →
      ∃ kv stack',
        iterNextLoop (storeOf t v) (valuesOf t v) v fuel (f :: rest) =
          some (some kv, ⟨v, stack', false⟩) ∧
        StackInv t v stack' ∧
        stackRem t (f :: rest) = kv :: stackRem t stack' := by
  intro u
  induction u with
  | empty =>
    intro fuel f rest hinv hsubu _
    obtain ⟨cs, p, hver, hsub, hnode, hbm, hnext, hocc, hptr, hsubp⟩ :=
      frame_destruct t v f hinv.1
    rw [hptr] at hsubu
    rw [hsubp] at hsubu
    injection hsubu with h2
    rw [h2] at hocc
    simp [JTree.isEmptyT] at hocc
  | leaf k val =>
    intro fuel f rest hinv hsubu hfuel
    obtain ⟨cs, p, hver, hsub, hnode, hbm, hnext, hocc, hptr, hsubp⟩ :=
      frame_destruct t v f hinv.1
    rw [hptr] at hsubu
    have heq : cs p = .leaf k val := by
      rw [hsubp] at hsubu
      injection hsubu with h2
    have hwfu := wfAux_subtreeAt (f.node_key.nibble_path ++ [p.val]) t [] _ hwf hsubu
    simp only [List.nil_append] at hwfu
    rw [JTree.wfAux] at hwfu
    simp only [Bool.and_eq_true, List.isPrefixOf_iff_prefix] at hwfu
    have hklen : k.length = 32 := by simpa using hwfu.1.1
    have hplen : f.node_key.nibble_path.length ≤ 63 := by
      have hle := hwfu.2.length_le
      rw [keyNibbles_length, hklen] at hle
      simp at hle
      omega
    cases fuel with
    | zero => omega
    | succ fuel2 =>
      have hci : ctz16 f.next_child_to_visit = p.val := hptr
      have hchild : childAt f.node.children p.val = renderChild v (cs p) := by
        rw [hnode]
        exact childAt_render v cs p
      have hget : storeOf t v (f.node_key.gen_child_node_key v p.val) =
          some (.leaf ⟨k, [], val⟩) := by
        rw [NodeKey.gen_child_node_key]
        exact storeOf_leaf t v _ k val hsubu
      have hmem : (k, val) ∈ t.flatten :=
        subtree_flatten_mem _ t _ hsubu (k, val) (by simp [JTree.flatten])
      have hval := valuesOf_lookup t v hwf k val hmem
      obtain ⟨stack', hcl, hinv', hrem⟩ := cleanupStack_spec t v (f :: rest) hinv
      refine ⟨(k, val), stack', ?_, hinv', ?_⟩
      · rw [iterNextLoop]
        simp only [hci, hchild, heq, renderChild, hget, hval, hcl]
      · rw [hrem, stackRem, stackRemAux, hptr]
        have hfr : frameRem t f p.val =
            (cs p).flatten ++ frameRem t f (p.val + 1) := by
          rw [frameRem, frameRem]
          simp only [hsub]
          rw [flattenFrom_step cs p.val p.isLt]
        rw [hfr, heq]
        simp [JTree.flatten]
  | node cs2 ih =>
    intro fuel f rest hinv hsubu hfuel
    obtain ⟨cs, p, hver, hsub, hnode, hbm, hnext, hocc, hptr, hsubp⟩ :=
      frame_destruct t v f hinv.1
    rw [hptr] at hsubu
    have heq : cs p = .node cs2 := by
      rw [hsubp] at hsubu
      injection hsubu with h2
    have hwfu := wfAux_subtreeAt (f.node_key.nibble_path ++ [p.val]) t [] _ hwf hsubu
    simp only [List.nil_append] at hwfu
    obtain ⟨hdep, hcnt, hch⟩ := wf_node_parts cs2 _ hwfu
    have hplen : f.node_key.nibble_path.length ≤ 62 := by
      simp only [List.length_append, List.length_singleton] at hdep
      omega
    cases fuel with
    | zero => omega
    | succ fuel2 =>
      have hci : ctz16 f.next_child_to_visit = p.val := hptr
      have hchild : childAt f.node.children p.val = renderChild v (cs p) := by
        rw [hnode]
        exact childAt_render v cs p
      have hget : storeOf t v (f.node_key.gen_child_node_key v p.val) =
          some (.internal ⟨renderChildren v cs2,
            sumLeafCount (renderChildren v cs2), true⟩) := by
        rw [NodeKey.gen_child_node_key]
        exact storeOf_internal t v _ cs2 hsubu
      have hbm2ne := render_bm_ne_zero v cs2 hcnt
      have hbm2lt := render_bm_lt v cs2
      obtain ⟨hbit0, hleast0⟩ := ctz16Aux_spec 16 _ hbm2ne hbm2lt
      have hj16 : ctz16 (genBitmaps (renderChildren v cs2)).1 < 16 :=
        testBit_lt_16 _ _ hbm2lt hbit0
      have hbit0b : (genBitmaps (renderChildren v cs2)).1.testBit
          (ctz16 (genBitmaps (renderChildren v cs2)).1) = true := hbit0
      have hleast0b : ∀ j, j < ctz16 (genBitmaps (renderChildren v cs2)).1 →
          (genBitmaps (renderChildren v cs2)).1.testBit j = false := hleast0
      have hocc2 : (cs2 ⟨ctz16 (genBitmaps (renderChildren v cs2)).1, hj16⟩).isEmptyT
          = false := by
        cases hb : (cs2 ⟨ctz16 (genBitmaps (renderChildren v cs2)).1, hj16⟩).isEmptyT
        · rfl
        · exfalso
          have h2 := render_bitmap_testBit v cs2
            ⟨ctz16 (genBitmaps (renderChildren v cs2)).1, hj16⟩
          rw [hb] at h2
          have h3 : (genBitmaps (renderChildren v cs2)).1.testBit
              (ctz16 (genBitmaps (renderChildren v cs2)).1) = false := h2
          rw [hbit0b] at h3
          exact absurd h3 (by simp)
      have hinv2 : StackInv t v
          (⟨f.node_key.gen_child_node_key v p.val,
            ⟨renderChildren v cs2, sumLeafCount (renderChildren v cs2), true⟩,
            (genBitmaps (renderChildren v cs2)).1,
            1 <<< ctz16 (genBitmaps (renderChildren v cs2)).1⟩ :: f :: rest) := by
        refine ⟨⟨rfl, cs2, ?_, rfl, rfl,
          ⟨ctz16 (genBitmaps (renderChildren v cs2)).1, hj16⟩, rfl, hocc2⟩,
          hinv, ?_⟩
        · rw [NodeKey.gen_child_node_key]
          exact hsubu
        · show (f.node_key.gen_child_node_key v p.val).nibble_path =
            f.node_key.nibble_path ++ [framePtr f]
          rw [NodeKey.gen_child_node_key, hptr]
      have hptr2 : framePtr ⟨f.node_key.gen_child_node_key v p.val,
          ⟨renderChildren v cs2, sumLeafCount (renderChildren v cs2), true⟩,
          (genBitmaps (renderChildren v cs2)).1,
          1 <<< ctz16 (genBitmaps (renderChildren v cs2)).1⟩ =
          ctz16 (genBitmaps (renderChildren v cs2)).1 := by
        rw [framePtr]
        exact ctz16_shift _ hj16
      have hsubchild : subtreeAt t
          ((f.node_key.gen_child_node_key v p.val).nibble_path ++
            [framePtr ⟨f.node_key.gen_child_node_key v p.val,
              ⟨renderChildren v cs2, sumLeafCount (renderChildren v cs2), true⟩,
              (genBitmaps (renderChildren v cs2)).1,
              1 <<< ctz16 (genBitmaps (renderChildren v cs2)).1⟩]) =
          some (cs2 ⟨ctz16 (genBitmaps (renderChildren v cs2)).1, hj16⟩) := by
        rw [hptr2]
        show subtreeAt t ((f.node_key.nibble_path ++ [p.val]) ++
          [ctz16 (genBitmaps (renderChildren v cs2)).1]) =
          some (cs2 ⟨ctz16 (genBitmaps (renderChildren v cs2)).1, hj16⟩)
        exact subtreeAt_child _ t cs2 hsubu ⟨_, hj16⟩
      have hfuel2 : 65 ≤ fuel2 +
          ((f.node_key.gen_child_node_key v p.val).nibble_path.length + 1) := by
        rw [NodeKey.gen_child_node_key]
        simp only [List.length_append, List.length_singleton]
        omega
      obtain ⟨kv, stack', hloop, hinv', hremc⟩ :=
        ih ⟨ctz16 (genBitmaps (renderChildren v cs2)).1, hj16⟩ fuel2 _ _
          hinv2 hsubchild hfuel2
      refine ⟨kv, stack', ?_, hinv', ?_⟩
      · rw [iterNextLoop]
        simp only [hci, hchild, heq, renderChild, hget, NodeVisitInfo.new]
        rw [if_neg hbm2ne]
        exact hloop
      · rw [← hremc]
        rw [stackRem, stackRem, hptr]
        rw [stackRemAux, hptr2, hptr]
        have hfr : frameRem t f p.val =
            (cs p).flatten ++ frameRem t f (p.val + 1) := by
          rw [frameRem, frameRem]
          simp only [hsub]
          rw [flattenFrom_step cs p.val p.isLt]
        have hfg : frameRem t ⟨f.node_key.gen_child_node_key v p.val,
            ⟨renderChildren v cs2, sumLeafCount (renderChildren v cs2), true⟩,
            (genBitmaps (renderChildren v cs2)).1,
            1 <<< ctz16 (genBitmaps (renderChildren v cs2)).1⟩
            (ctz16 (genBitmaps (renderChildren v cs2)).1) = (cs p).flatten := by
          rw [frameRem]
          simp only [NodeKey.gen_child_node_key, hsubu]
          rw [heq, ← flattenFrom_zero]
          have := flattenFrom_congr_empty cs2
            (ctz16 (genBitmaps (renderChildren v cs2)).1) 0
            (fun m _ h2 => by
              have hb := hleast0b m.val (by omega)
              have h3 := render_bitmap_testBit v cs2 m
              rw [hb] at h3
              cases he : (cs2 m).isEmptyT
              · rw [he] at h3
                simp at h3
              · rfl)
          rw [this, Nat.zero_add]
        rw [hfg, hfr]
        simp [List.append_assoc]

theorem collectAll_spec (t : JTree) (v : Nat) (hwf : t.Wf = true)
    (cs0 : Fin 16 → JTree) (hroot : subtreeAt t [] = some (.node cs0)) :
    ∀ (fuel : Nat) (stack : List NodeVisitInfo), StackInv t v stack →
      (stackRem t stack).length < fuel →
      collectAll (storeOf t v) (valuesOf t v) fuel ⟨v, stack, false⟩ =
        some (stackRem t stack) := by
  intro fuel
  induction fuel with
  | zero => intro stack _ h; exact absurd h (by omega)
  | succ fuel ih =>
    intro stack hinv hlen
    cases stack with
    | nil =>
      have h1 : storeOf t v (NodeKey.new_empty_path v) =
          some (.internal ⟨renderChildren v cs0,
            sumLeafCount (renderChildren v cs0), true⟩) :=
        storeOf_internal t v [] cs0 hroot
      simp [collectAll, iterNext, h1, stackRem]
    | cons f rest =>
      obtain ⟨cs, p, hver, hsub, hnode, hbm, hnext, hocc, hptr, hsubp⟩ :=
        frame_destruct t v f hinv.1
      rw [← hptr] at hsubp
      obtain ⟨kv, stack', hloop, hinv', hremc⟩ :=
        iterNextLoop_step t v hwf (cs p) 66 f rest hinv hsubp (by omega)
      rw [collectAll]
      have h2 : iterNext (storeOf t v) (valuesOf t v) ⟨v, f :: rest, false⟩ =
          some (some kv, ⟨v, stack', false⟩) := by
        rw [iterNext]
        rw [if_neg (by simp)]
        rw [if_neg (by simp)]
        exact hloop
      rw [h2]
      show (collectAll (storeOf t v) (valuesOf t v) fuel
          ⟨v, stack', false⟩).map (fun l => kv :: l) =
        some (stackRem t (f :: rest))
      have hlen' : (stackRem t stack').length < fuel := by
        rw [hremc] at hlen
        simp only [List.length_cons] at hlen
        omega
      rw [ih stack' hinv' hlen', hremc]
      rfl

theorem keyNibbles_lt16 : ∀ (k : List Nat), ∀ x ∈ keyNibbles k, x < 16 := by
  intro k
  induction k with
  | nil => intro x hx; simp [keyNibbles] at hx
  | cons b rest ih =>
    intro x hx
    simp only [keyNibbles, List.mem_cons] at hx
    rcases hx with rfl | rfl | hx
    · exact Nat.mod_lt _ (by norm_num)
    · exact Nat.mod_lt _ (by norm_num)
    · exact ih x hx

theorem path_le_64 (s π nibs : List Nat) (hs32 : s.length = 32)
    (h : π ++ nibs = keyNibbles s) : π.length + nibs.length = 64 := by
  have h2 := congrArg List.length h
  rw [List.length_append, keyNibbles_length, hs32] at h2
  omega

theorem mem_flattenFrom_aux (cs : Fin 16 → JTree) (kv : List Nat × List Nat) :
    ∀ (k j : Nat), 16 ≤ j + k →
      (kv ∈ flattenFrom cs j ↔ ∃ i : Fin 16, j ≤ i.val ∧ kv ∈ (cs i).flatten) := by
  intro k
  induction k with
  | zero =>
    intro j h16
    rw [flattenFrom_ge cs j (by omega)]
    simp only [List.not_mem_nil, false_iff]
    rintro ⟨i, hij, _⟩
    exact absurd i.isLt (by omega)
  | succ k ih =>
    intro j h16
    by_cases hj : 16 ≤ j
    · rw [flattenFrom_ge cs j hj]
      simp only [List.not_mem_nil, false_iff]
      rintro ⟨i, hij, _⟩
      exact absurd i.isLt (by omega)
    · push_neg at hj
      rw [flattenFrom_step cs j hj, List.mem_append, ih (j + 1) (by omega)]
      constructor
      · rintro (h | ⟨i, hij, hkv⟩)
        · exact ⟨⟨j, hj⟩, le_refl j, h⟩
        · exact ⟨i, by omega, hkv⟩
      · rintro ⟨i, hij, hkv⟩
        rcases Nat.eq_or_lt_of_le hij with heq | hlt
        · left
          have h2 : i = ⟨j, hj⟩ := Fin.ext heq.symm
          rw [h2] at hkv
          exact hkv
        · right
          exact ⟨i, by omega, hkv⟩

theorem mem_flattenFrom (cs : Fin 16 → JTree) (kv : List Nat × List Nat)
    (j : Nat) :
    kv ∈ flattenFrom cs j ↔ ∃ i : Fin 16, j ≤ i.val ∧ kv ∈ (cs i).flatten :=
  mem_flattenFrom_aux cs kv 16 j (by omega)

theorem slot_key_gt (s : List Nat) (hs32 : s.length = 32)
    (hsb : ∀ b ∈ s, b < 256) (π srest : List Nat) (c : Nat)
    (hkey : keyNibbles s = π ++ c :: srest) (kv : List Nat × List Nat)
    (hlen : kv.1.length = 32) (hbk : ∀ b ∈ kv.1, b < 256) (i : Nat)
    (hpre : (π ++ [i]) <+: keyNibbles kv.1) (hci : c < i) :
    bytesLt s kv.1 = true := by
  obtain ⟨tail, htail⟩ := hpre
  rw [bytesLt_nibbles s kv.1 (by omega) hsb hbk, hkey, ← htail,
    List.append_assoc, List.singleton_append]
  exact bytesLt_common_prefix π c i srest tail hci

theorem slot_key_lt (s : List Nat) (hs32 : s.length = 32)
    (hsb : ∀ b ∈ s, b < 256) (π srest : List Nat) (c : Nat)
    (hkey : keyNibbles s = π ++ c :: srest) (kv : List Nat × List Nat)
    (hlen : kv.1.length = 32) (hbk : ∀ b ∈ kv.1, b < 256) (i : Nat)
    (hpre : (π ++ [i]) <+: keyNibbles kv.1) (hci : i < c) :
    bytesLt kv.1 s = true := by
  obtain ⟨tail, htail⟩ := hpre
  rw [bytesLt_nibbles kv.1 s (by omega) hbk hsb, hkey, ← htail,
    List.append_assoc, List.singleton_append]
  exact bytesLt_common_prefix π i c tail srest hci

theorem slot_occupied_iff_bit (v : Nat) (cs : Fin 16 → JTree) (m : Fin 16) :
    (genBitmaps (renderChildren v cs)).1.testBit m.val = true ↔
      (cs m).isEmptyT = false := by
  rw [render_bitmap_testBit]
  cases h : (cs m).isEmptyT <;> simp

theorem slot_empty_iff_bit (v : Nat) (cs : Fin 16 → JTree) (m : Fin 16) :
    (genBitmaps (renderChildren v cs)).1.testBit m.val = false ↔
      (cs m).isEmptyT = true := by
  rw [render_bitmap_testBit]
  cases h : (cs m).isEmptyT <;> simp

theorem filter_flatten_split (s : List Nat) (hs32 : s.length = 32)
    (hsb : ∀ b ∈ s, b < 256) (cs : Fin 16 → JTree) (π srest : List Nat)
    (hwfn : (JTree.node cs).wfAux π = true) (c : Nat) (hc16 : c < 16)
    (hkey : keyNibbles s = π ++ c :: srest) :
    (JTree.node cs).flatten.filter (fun kv => bytesLe s kv.1) =
      (cs ⟨c, hc16⟩).flatten.filter (fun kv => bytesLe s kv.1) ++
        flattenFrom cs (c + 1) := by
  have hch := (wf_node_parts cs π hwfn).2.2
  have hkeep : (flattenFrom cs (c + 1)).filter (fun kv => bytesLe s kv.1) =
      flattenFrom cs (c + 1) := by
    rw [List.filter_eq_self]
    intro kv hkv
    rw [mem_flattenFrom] at hkv
    obtain ⟨i, hij, hkvm⟩ := hkv
    obtain ⟨hlen, hbk, hpre⟩ := flattenKeyFacts (cs i) (π ++ [i.val]) (hch i) kv hkvm
    exact bytesLe_of_lt s kv.1
      (slot_key_gt s hs32 hsb π srest c hkey kv hlen hbk i.val hpre (by omega))
  have hdrop : ∀ j : Fin 16, j.val < c →
      ((cs j).flatten).filter (fun kv => bytesLe s kv.1) = [] := by
    intro j hj
    rw [List.filter_eq_nil]
    intro kv hkvm
    obtain ⟨hlen, hbk, hpre⟩ := flattenKeyFacts (cs j) (π ++ [j.val]) (hch j) kv hkvm
    have h2 := bytesLe_false_of_lt kv.1 s
      (slot_key_lt s hs32 hsb π srest c hkey kv hlen hbk j.val hpre hj)
    simp [h2]
  have haux : ∀ (k j : Nat), j + k = c →
      (flattenFrom cs j).filter (fun kv => bytesLe s kv.1) =
        ((cs ⟨c, hc16⟩).flatten).filter (fun kv => bytesLe s kv.1) ++
          flattenFrom cs (c + 1) := by
    intro k
    induction k with
    | zero =>
      intro j hj
      have h2 : j = c := by omega
      subst h2
      rw [flattenFrom_step cs j hc16, List.filter_append, hkeep]
    | succ k ih =>
      intro j hj
      rw [flattenFrom_step cs j (by omega), List.filter_append,
        hdrop ⟨j, by omega⟩ (by show j < c; omega), List.nil_append]
      exact ih (j + 1) (by omega)
  rw [← flattenFrom_zero]
  exact haux c 0 (by omega)

theorem iterNewAux_descent (t : JTree) (v : Nat) (hwf : t.Wf = true)
    (s : List Nat) (hs32 : s.length = 32) (hsb : ∀ b ∈ s, b < 256) :
    ∀ (u : JTree) (fuel : Nat) (π nibs : List Nat) (stack : List NodeVisitInfo),
      StackInv t v stack →
      (match stack with
       | [] => π = ([] : List Nat)
       | g :: _ => π = g.node_key.nibble_path ++ [framePtr g]) →
      (stack = [] → ∃ csr, u = JTree.node csr) →
      subtreeAt t π = some u →
      u.isEmptyT = false →
      π ++ nibs = keyNibbles s →
      65 ≤ fuel + π.length →
      ∃ (stack' : List NodeVisitInfo) (d : Bool),
        iterNewAux (storeOf t v) v s fuel ⟨v, π⟩ nibs stack =
          some ⟨v, stack', d⟩ ∧
        StackInv t v stack' ∧
        stackRem t stack' =
          u.flatten.filter (fun kv => bytesLe s kv.1) ++ stackRemAux t stack ∧
        (d = true → stack' = []) := by
  intro u
  induction u with
  | empty =>
    intro fuel π nibs stack _ _ _ _ hne _ _
    simp [JTree.isEmptyT] at hne
  | leaf k val =>
    intro fuel π nibs stack hinv hlink hroot hsub hne hnibs hfuel
    have hlen64 := path_le_64 s π nibs hs32 hnibs
    cases fuel with
    | zero => exact absurd hfuel (by omega)
    | succ fuel =>
      have hget := storeOf_leaf t v π k val hsub
      rw [iterNewAux]
      simp only [hget]
      cases hlt : bytesLt k s with
      | true =>
        rw [if_pos rfl]
        obtain ⟨stack', hcl, hinv', hrems⟩ := cleanupStack_spec t v stack hinv
        simp only [hcl]
        refine ⟨stack', decide (stack' = []), rfl, hinv', ?_,
          fun h => of_decide_eq_true h⟩
        have hf : bytesLe s k = false := bytesLe_false_of_lt k s hlt
        rw [hrems]
        simp [JTree.flatten, hf]
      | false =>
        rw [if_neg (by simp)]
        have ht : bytesLe s k = true := bytesLe_of_not_lt k s hlt
        cases stack with
        | nil =>
          obtain ⟨csr, hcsr⟩ := hroot rfl
          exact JTree.noConfusion hcsr
        | cons f rest =>
          refine ⟨f :: rest, false, rfl, hinv, ?_, by simp⟩
          obtain ⟨csf, p, hverf, hsubf, hnodef, hbmf, hnextf, hoccf, hptrf,
            hsubfp⟩ := frame_destruct t v f hinv.1
          have hlink2 : π = f.node_key.nibble_path ++ [framePtr f] := hlink
          rw [hptrf] at hlink2
          have hcsfp : csf ⟨p.val, p.isLt⟩ = JTree.leaf k val := by
            rw [hlink2] at hsub
            have h2 := hsubfp.symm.trans hsub
            injection h2
          rw [stackRem, stackRemAux, frameRem, frameRem]
          simp only [hsubf]
          rw [hptrf, flattenFrom_step csf p.val p.isLt, hcsfp]
          simp [JTree.flatten, ht]
  | node cs ih =>
    intro fuel π nibs stack hinv hlink hroot hsub hne hnibs hfuel
    have hlen64 := path_le_64 s π nibs hs32 hnibs
    cases fuel with
    | zero => exact absurd hfuel (by omega)
    | succ fuel =>
      have hwfn : (JTree.node cs).wfAux π = true := by
        have h2 := wfAux_subtreeAt π t [] _ hwf hsub
        rwa [List.nil_append] at h2
      obtain ⟨hdep, hcnt, hch⟩ := wf_node_parts cs π hwfn
      cases nibs with
      | nil =>
        exfalso
        simp only [List.length_nil] at hlen64
        omega
      | cons c rest =>
        have hc16 : c < 16 := keyNibbles_lt16 s c
          (by rw [← hnibs]; exact List.mem_append_right π (List.mem_cons_self c rest))
        have hget := storeOf_internal t v π cs hsub
        have hchildAt : childAt (renderChildren v cs) c =
            renderChild v (cs ⟨c, hc16⟩) := childAt_render v cs ⟨c, hc16⟩
        rw [iterNewAux]
        simp only [hget]
        cases hcemp : (cs ⟨c, hc16⟩).isEmptyT with
        | false =>
          obtain ⟨child, hchild, hcv⟩ :
              ∃ child, renderChild v (cs ⟨c, hc16⟩) = some child ∧
                child.version = v := by
            cases hx : cs ⟨c, hc16⟩ with
            | empty => rw [hx] at hcemp; simp [JTree.isEmptyT] at hcemp
            | leaf k2 v2 => exact ⟨_, rfl, rfl⟩
            | node cs2 => exact ⟨_, rfl, rfl⟩
          have hbitc : (genBitmaps (renderChildren v cs)).1.testBit c = true :=
            (slot_occupied_iff_bit v cs ⟨c, hc16⟩).mpr hcemp
          have hnn := new_next_spec ⟨v, π⟩
            ⟨renderChildren v cs, sumLeafCount (renderChildren v cs), true⟩ c c
            (render_bm_lt v cs) hbitc (le_refl c)
            (fun j h1 h2 => absurd h2 (by omega)) hc16
          simp only [hchildAt, hchild, hnn]
          have hkeyc : NodeKey.gen_child_node_key ⟨v, π⟩ child.version c =
              (⟨v, π ++ [c]⟩ : NodeKey) := by
            rw [NodeKey.gen_child_node_key, hcv]
          rw [hkeyc]
          have hptrc : framePtr ⟨⟨v, π⟩, ⟨renderChildren v cs,
              sumLeafCount (renderChildren v cs), true⟩,
              (genBitmaps (renderChildren v cs)).1, 1 <<< c⟩ = c := by
            rw [framePtr]
            exact ctz16_shift c hc16
          have hframeinv : StackInv t v (⟨⟨v, π⟩, ⟨renderChildren v cs,
              sumLeafCount (renderChildren v cs), true⟩,
              (genBitmaps (renderChildren v cs)).1, 1 <<< c⟩ :: stack) :=
            ⟨⟨rfl, cs, hsub, rfl, rfl, ⟨c, hc16⟩, rfl, hcemp⟩, hinv,
              by cases stack with
               | nil => trivial
               | cons g r => exact hlink⟩
          obtain ⟨stack', d, heval, hinv', hrem', hdone'⟩ :=
            ih ⟨c, hc16⟩ fuel (π ++ [c]) rest
              (⟨⟨v, π⟩, ⟨renderChildren v cs,
                sumLeafCount (renderChildren v cs), true⟩,
                (genBitmaps (renderChildren v cs)).1, 1 <<< c⟩ :: stack)
              hframeinv (by simp only [hptrc])
              (fun h => List.noConfusion h)
              (subtreeAt_child π t cs hsub ⟨c, hc16⟩) hcemp
              (by rw [List.append_assoc, List.singleton_append]; exact hnibs)
              (by simp only [List.length_append, List.length_cons,
                List.length_nil]; omega)
          refine ⟨stack', d, heval, hinv', ?_, hdone'⟩
          rw [hrem', filter_flatten_split s hs32 hsb cs π rest hwfn c hc16
            hnibs.symm, stackRemAux, hptrc, frameRem]
          simp only [hsub]
          simp [List.append_assoc]
        | true =>
          have hchild : renderChild v (cs ⟨c, hc16⟩) = none := by
            cases hx : cs ⟨c, hc16⟩ with
            | empty => rfl
            | leaf k2 v2 => rw [hx] at hcemp; simp [JTree.isEmptyT] at hcemp
            | node cs2 => rw [hx] at hcemp; simp [JTree.isEmptyT] at hcemp
          have hbm0 : (genBitmaps (renderChildren v cs)).1 ≠ 0 :=
            render_bm_ne_zero v cs hcnt
          simp only [hchildAt, hchild]
          rw [if_neg hbm0]
          obtain ⟨hb, hb16, hbbit, hbmax⟩ :=
            exists_highest_bit _ hbm0 (render_bm_lt v cs)
          have hlz : lz16 (genBitmaps (renderChildren v cs)).1 = 16 - (hb + 1) :=
            lz16_eq_of_highest _ hb (render_bm_lt v cs) hbbit hbmax
          have h15 : 15 - lz16 (genBitmaps (renderChildren v cs)).1 = hb := by
            rw [hlz]
            omega
          have hbitc : (genBitmaps (renderChildren v cs)).1.testBit c = false :=
            (slot_empty_iff_bit v cs ⟨c, hc16⟩).mpr hcemp
          by_cases hcb : c < 15 - lz16 (genBitmaps (renderChildren v cs)).1
          · rw [if_pos hcb]
            rw [h15] at hcb
            have hex : ∃ j, c < j ∧
                (genBitmaps (renderChildren v cs)).1.testBit j = true :=
              ⟨hb, hcb, hbbit⟩
            have hspec := Nat.find_spec hex
            have hj16 : Nat.find hex < 16 := by
              by_contra hge
              have h2 := hbmax (Nat.find hex) (by omega)
              rw [hspec.2] at h2
              exact absurd h2 (by simp)
            have hnn := new_next_spec ⟨v, π⟩
              ⟨renderChildren v cs, sumLeafCount (renderChildren v cs), true⟩ c
              (Nat.find hex) (render_bm_lt v cs) hspec.2 (le_of_lt hspec.1)
              (fun j h1 h2 => by
                rcases Nat.eq_or_lt_of_le h1 with heq | hlt2
                · rw [← heq]
                  exact hbitc
                · cases hbj : (genBitmaps (renderChildren v cs)).1.testBit j with
                  | false => rfl
                  | true => exact absurd ⟨hlt2, hbj⟩ (Nat.find_min hex h2))
              hj16
            simp only [hnn]
            have hocc2 : (cs ⟨Nat.find hex, hj16⟩).isEmptyT = false :=
              (slot_occupied_iff_bit v cs ⟨Nat.find hex, hj16⟩).mp hspec.2
            have hptrj : framePtr ⟨⟨v, π⟩, ⟨renderChildren v cs,
                sumLeafCount (renderChildren v cs), true⟩,
                (genBitmaps (renderChildren v cs)).1, 1 <<< Nat.find hex⟩ =
                Nat.find hex := by
              rw [framePtr]
              exact ctz16_shift _ hj16
            refine ⟨⟨⟨v, π⟩, ⟨renderChildren v cs,
              sumLeafCount (renderChildren v cs), true⟩,
              (genBitmaps (renderChildren v cs)).1, 1 <<< Nat.find hex⟩ :: stack,
              false, rfl,
              ⟨⟨rfl, cs, hsub, rfl, rfl, ⟨Nat.find hex, hj16⟩, rfl, hocc2⟩,
                hinv,
                by cases stack with
                 | nil => trivial
                 | cons g r => exact hlink⟩, ?_, by simp⟩
            rw [stackRem, hptrj, frameRem]
            simp only [hsub]
            rw [filter_flatten_split s hs32 hsb cs π rest hwfn c hc16 hnibs.symm,
              flatten_of_isEmptyT _ hcemp, List.filter_nil, List.nil_append]
            have hcong : flattenFrom cs (c + 1) = flattenFrom cs (Nat.find hex) := by
              have h2 := flattenFrom_congr_empty cs (Nat.find hex - (c + 1)) (c + 1)
                (fun m hm1 hm2 => (slot_empty_iff_bit v cs m).mp (by
                  cases hbj : (genBitmaps (renderChildren v cs)).1.testBit m.val with
                  | false => rfl
                  | true =>
                    exact absurd ⟨by omega, hbj⟩ (Nat.find_min hex (by omega))))
              rw [show c + 1 + (Nat.find hex - (c + 1)) = Nat.find hex from by
                have h3 := hspec.1
                omega] at h2
              exact h2
            rw [← hcong]
          · rw [if_neg hcb]
            rw [h15] at hcb
            obtain ⟨stack', hcl, hinv', hrems⟩ := cleanupStack_spec t v stack hinv
            simp only [hcl]
            refine ⟨stack', false, rfl, hinv', ?_, by simp⟩
            rw [hrems, filter_flatten_split s hs32 hsb cs π rest hwfn c hc16
              hnibs.symm, flatten_of_isEmptyT _ hcemp, List.filter_nil,
              List.nil_append]
            have hzero : flattenFrom cs (c + 1) = [] :=
              flattenFrom_empty_tail cs (c + 1) (fun m hm =>
                (slot_empty_iff_bit v cs m).mp (by
                  cases hbj : (genBitmaps (renderChildren v cs)).1.testBit m.val with
                  | false => rfl
                  | true =>
                    have h2 := hbmax m.val (by omega)
                    rw [hbj] at h2
                    exact absurd h2 (by simp)))
            rw [hzero, List.nil_append]

/-- C1: for every well-formed tree rendered as a store at version `v` and
every 32-byte starting key `s`, `JellyfishMerkleIterator::new` succeeds and
successive `next()` calls (run to exhaustion by `collectAll`) yield exactly
the `(key_hash, value)` pairs of the tree whose key hash is `>= s`, in
strictly ascending key-hash order, and then `None`. -/
theorem claim_C1_iterator_new_next (t : JTree) (v : Nat) (s : List Nat)
    (hwf : t.Wf = true) (hs32 : s.length = 32) (hsb : ∀ b ∈ s, b < 256) :
    ∃ st₀, iterNew (storeOf t v) v s = some st₀ ∧
      (∀ fuel, t.flatten.length + 2 ≤ fuel →
        collectAll (storeOf t v) (valuesOf t v) fuel st₀ =
          some (t.flatten.filter (fun kv => bytesLe s kv.1))) ∧
      List.Pairwise (fun a b : List Nat × List Nat => bytesLt a.1 b.1 = true)
        (t.flatten.filter (fun kv => bytesLe s kv.1)) := by
  have hpw : List.Pairwise
      (fun a b : List Nat × List Nat => bytesLt a.1 b.1 = true)
      (t.flatten.filter (fun kv => bytesLe s kv.1)) :=
    List.Pairwise.sublist (List.filter_sublist t.flatten)
      (flatten_pairwise t [] hwf)
  cases ht : t with
  | empty =>
    refine ⟨⟨v, [], true⟩, ?_, ?_, by rw [← ht]; exact hpw⟩
    · rw [iterNew, show (66 : Nat) = 65 + 1 from rfl, iterNewAux]
      have hget : storeOf JTree.empty v (NodeKey.new_empty_path v) =
          some .null := by
        simp [storeOf, NodeKey.new_empty_path, subtreeAt]
      simp only [hget]
    · intro fuel hfuel
      cases fuel with
      | zero => simp [JTree.flatten] at hfuel
      | succ f =>
        rw [collectAll, iterNext, if_pos rfl]
        simp [JTree.flatten]
  | leaf k val =>
    have hget : storeOf (JTree.leaf k val) v (NodeKey.new_empty_path v) =
        some (.leaf ⟨k, [], val⟩) := storeOf_leaf _ v [] k val rfl
    cases hlt : bytesLt k s with
    | true =>
      refine ⟨⟨v, [], true⟩, ?_, ?_, by rw [← ht]; exact hpw⟩
      · rw [iterNew, show (66 : Nat) = 65 + 1 from rfl, iterNewAux]
        simp only [hget, hlt, if_pos rfl]
        rfl
      · intro fuel hfuel
        cases fuel with
        | zero => simp [JTree.flatten] at hfuel
        | succ f =>
          rw [collectAll, iterNext, if_pos rfl]
          have hf : bytesLe s k = false := bytesLe_false_of_lt k s hlt
          simp [JTree.flatten, hf]
    | false =>
      refine ⟨⟨v, [], false⟩, ?_, ?_, by rw [← ht]; exact hpw⟩
      · rw [iterNew, show (66 : Nat) = 65 + 1 from rfl, iterNewAux]
        simp only [hget, hlt]
        rw [if_neg (by simp)]
      · intro fuel hfuel
        have ht2 : bytesLe s k = true := bytesLe_of_not_lt k s hlt
        cases fuel with
        | zero => simp [JTree.flatten] at hfuel
        | succ f =>
          rw [collectAll]
          have hval : valuesOf (JTree.leaf k val) v v k = some val :=
            valuesOf_lookup _ v (by rw [← ht]; exact hwf) k val
              (by simp [JTree.flatten])
          have hnext : iterNext (storeOf (JTree.leaf k val) v)
              (valuesOf (JTree.leaf k val) v) ⟨v, [], false⟩ =
              some (some (k, val), ⟨v, [], true⟩) := by
            rw [iterNext, if_neg (by simp), if_pos rfl]
            simp only [hget, hval]
          rw [hnext]
          show (collectAll (storeOf (JTree.leaf k val) v)
              (valuesOf (JTree.leaf k val) v) f ⟨v, [], true⟩).map
              (fun l => (k, val) :: l) = _
          cases f with
          | zero => simp [JTree.flatten] at hfuel
          | succ f2 =>
            rw [collectAll, iterNext, if_pos rfl]
            simp [JTree.flatten, ht2]
  | node cs0 =>
    obtain ⟨stack', d, heval, hinv', hrem', hdone'⟩ :=
      iterNewAux_descent (JTree.node cs0) v (by rw [← ht]; exact hwf) s hs32 hsb
        (JTree.node cs0) 66 [] (keyNibbles s) [] trivial rfl
        (fun _ => ⟨cs0, rfl⟩) rfl rfl rfl (by simp)
    have hrem2 : stackRem (JTree.node cs0) stack' =
        (JTree.node cs0).flatten.filter (fun kv => bytesLe s kv.1) := by
      rw [hrem']
      simp [stackRemAux]
    refine ⟨⟨v, stack', d⟩, ?_, ?_, by rw [← ht]; exact hpw⟩
    · rw [iterNew]
      exact heval
    · intro fuel hfuel
      cases d with
      | true =>
        have hse := hdone' rfl
        subst hse
        have hfe : (JTree.node cs0).flatten.filter
            (fun kv => bytesLe s kv.1) = [] := by
          rw [← hrem2]
          rfl
        rw [hfe]
        cases fuel with
        | zero => exact absurd hfuel (by omega)
        | succ f =>
          rw [collectAll, iterNext, if_pos rfl]
      | false =>
        have hlen : (stackRem (JTree.node cs0) stack').length < fuel := by
          rw [hrem2]
          have h2 := List.length_filter_le (fun kv => bytesLe s kv.1)
            (JTree.node cs0).flatten
          omega
        rw [collectAll_spec (JTree.node cs0) v (by rw [← ht]; exact hwf) cs0 rfl
          fuel stack' hinv' hlen, hrem2]

/-- Concrete run of C1 on the two-leaf example tree from the zero key. -/
theorem claim_C1_witness :
    wT.Wf = true ∧ wS.length = 32 ∧ (∀ b ∈ wS, b < 256) ∧
    (∃ st₀, iterNew (storeOf wT 0) 0 wS = some st₀ ∧
      (∀ fuel, wT.flatten.length + 2 ≤ fuel →
        collectAll (storeOf wT 0) (valuesOf wT 0) fuel st₀ =
          some (wT.flatten.filter (fun kv => bytesLe wS kv.1))) ∧
      List.Pairwise (fun a b : List Nat × List Nat => bytesLt a.1 b.1 = true)
        (wT.flatten.filter (fun kv => bytesLe wS kv.1))) :=
  ⟨by decide, by decide, by decide,
    claim_C1_iterator_new_next wT 0 wS (by decide) (by decide) (by decide)⟩

theorem flatten_length_leafCount : ∀ u : JTree,
    u.flatten.length = u.leafCount := by
  intro u
  induction u with
  | empty => rfl
  | leaf k val => rfl
  | node cs ih =>
    rw [flatten_node, List.length_join, List.map_map,
      show (List.length ∘ fun i => (cs i).flatten) =
        fun i : Fin 16 => (cs i).leafCount from funext fun i => ih i,
      JTree.leafCount, List.sum_eq_foldr, List.foldr_map]

theorem sumLeafCount_render_aux (v : Nat) (cs : Fin 16 → JTree) :
    ∀ l : List (Fin 16),
      sumLeafCount (l.map (fun i => renderChild v (cs i))) =
        some (l.foldr (fun i acc => (cs i).leafCount + acc) 0) := by
  intro l
  induction l with
  | nil => rfl
  | cons a rest ih =>
    rw [List.map_cons, List.foldr_cons]
    cases hx : cs a with
    | empty =>
      rw [show renderChild v JTree.empty = (none : Option Child) from rfl,
        sumLeafCount, ih,
        show JTree.empty.leafCount = 0 from rfl, Nat.zero_add]
    | leaf k2 v2 =>
      rw [show renderChild v (JTree.leaf k2 v2) =
        some ⟨[], v, .leaf⟩ from rfl, sumLeafCount, ih]
      rfl
    | node cs2 =>
      rw [show renderChild v (JTree.node cs2) =
        some ⟨[], v, .internal (JTree.node cs2).leafCount⟩ from rfl,
        sumLeafCount, ih]
      rfl

theorem sumLeafCount_render (v : Nat) (cs : Fin 16 → JTree) :
    sumLeafCount (renderChildren v cs) = some ((JTree.node cs).leafCount) :=
  sumLeafCount_render_aux v cs (List.finRange 16)

theorem renderChild_version (v : Nat) (u : JTree) (ch : Child)
    (h : renderChild v u = some ch) : ch.version = v := by
  cases u with
  | empty => exact Option.noConfusion h
  | leaf k val =>
    injection h with h2
    subst h2
    rfl
  | node cs =>
    injection h with h2
    subst h2
    rfl

theorem renderChild_leaf_count (v : Nat) (u : JTree) (ch : Child)
    (h : renderChild v u = some ch) : ch.leaf_count = some u.flatten.length := by
  cases u with
  | empty => exact Option.noConfusion h
  | leaf k val =>
    injection h with h2
    subst h2
    rfl
  | node cs =>
    injection h with h2
    subst h2
    show some ((JTree.node cs).leafCount) = some ((JTree.node cs).flatten.length)
    rw [flatten_length_leafCount]

theorem slotsFrom_zero (v : Nat) (cs : Fin 16 → JTree) :
    slotsFrom v cs 0 = childrenSorted (renderChildren v cs) := by
  rw [slotsFrom, childrenSorted, List.drop_zero]

theorem range_drop_cons (c : Nat) (hc : c < 16) :
    (List.range 16).drop c = c :: (List.range 16).drop (c + 1) := by
  rw [List.drop_eq_getElem_cons (by simp [hc])]
  congr 1
  simp

theorem slotsFrom_step_none (v : Nat) (cs : Fin 16 → JTree) (c : Nat)
    (hc : c < 16) (hrc : renderChild v (cs ⟨c, hc⟩) = none) :
    slotsFrom v cs c = slotsFrom v cs (c + 1) := by
  rw [slotsFrom, range_drop_cons c hc, List.filterMap_cons,
    show childAt (renderChildren v cs) c = renderChild v (cs ⟨c, hc⟩) from
      childAt_render v cs ⟨c, hc⟩, hrc]
  rfl

theorem slotsFrom_step_some (v : Nat) (cs : Fin 16 → JTree) (c : Nat)
    (hc : c < 16) (ch : Child) (hrc : renderChild v (cs ⟨c, hc⟩) = some ch) :
    slotsFrom v cs c = (c, ch) :: slotsFrom v cs (c + 1) := by
  rw [slotsFrom, range_drop_cons c hc, List.filterMap_cons,
    show childAt (renderChildren v cs) c = renderChild v (cs ⟨c, hc⟩) from
      childAt_render v cs ⟨c, hc⟩, hrc]
  rfl

theorem skipLeavesAux_spec (v : Nat) (cs : Fin 16 → JTree) (idx : Nat) :
    ∀ (n c ℓ : Nat), c + n = 16 → ℓ ≤ idx →
      idx < ℓ + (flattenFrom cs c).length →
      ∃ (j : Nat) (hj : j < 16) (ch : Child) (l2 : Nat),
        skipLeavesAux idx (slotsFrom v cs c) ℓ = some (j, ch, l2) ∧
        renderChild v (cs ⟨j, hj⟩) = some ch ∧
        c ≤ j ∧ l2 ≤ idx ∧ idx < l2 + (cs ⟨j, hj⟩).flatten.length ∧
        (flattenFrom cs c).drop (idx - ℓ) =
          ((cs ⟨j, hj⟩).flatten).drop (idx - l2) ++ flattenFrom cs (j + 1) := by
  intro n
  induction n with
  | zero =>
    intro c ℓ hc hle hlt
    rw [show c = 16 from by omega, flattenFrom_ge cs 16 (le_refl 16)] at hlt
    simp only [List.length_nil] at hlt
    omega
  | succ n ih =>
    intro c ℓ hc hle hlt
    have hc16 : c < 16 := by omega
    cases hrc : renderChild v (cs ⟨c, hc16⟩) with
    | none =>
      have hemp : (cs ⟨c, hc16⟩).isEmptyT = true := by
        have h2 := renderChild_isSome v (cs ⟨c, hc16⟩)
        cases he : (cs ⟨c, hc16⟩).isEmptyT
        · rw [he, hrc] at h2
          simp at h2
        · rfl
      have hstep : flattenFrom cs c = flattenFrom cs (c + 1) := by
        rw [flattenFrom_step cs c hc16, flatten_of_isEmptyT _ hemp,
          List.nil_append]
      rw [slotsFrom_step_none v cs c hc16 hrc]
      rw [hstep] at hlt
      obtain ⟨j, hj, ch, l2, hskip, hrc2, hcj, hl2, hlt2, hdrop⟩ :=
        ih (c + 1) ℓ (by omega) hle hlt
      exact ⟨j, hj, ch, l2, hskip, hrc2, by omega, hl2, hlt2, by
        rw [hstep]
        exact hdrop⟩
    | some ch =>
      have hcnt : ch.leaf_count = some ((cs ⟨c, hc16⟩).flatten.length) :=
        renderChild_leaf_count v _ ch hrc
      rw [slotsFrom_step_some v cs c hc16 ch hrc, skipLeavesAux]
      simp only [hcnt]
      by_cases hbr : ℓ + (cs ⟨c, hc16⟩).flatten.length ≤ idx
      · rw [if_pos hbr]
        have hlt2 : idx < (ℓ + (cs ⟨c, hc16⟩).flatten.length) +
            (flattenFrom cs (c + 1)).length := by
          rw [flattenFrom_step cs c hc16, List.length_append] at hlt
          omega
        obtain ⟨j, hj, ch2, l2, hskip, hrc2, hcj, hl2, hlt3, hdrop⟩ :=
          ih (c + 1) (ℓ + (cs ⟨c, hc16⟩).flatten.length) (by omega) hbr hlt2
        refine ⟨j, hj, ch2, l2, hskip, hrc2, by omega, hl2, hlt3, ?_⟩
        rw [flattenFrom_step cs c hc16,
          show idx - ℓ = (cs ⟨c, hc16⟩).flatten.length +
            (idx - (ℓ + (cs ⟨c, hc16⟩).flatten.length)) from by omega,
          List.drop_append]
        exact hdrop
      · rw [if_neg hbr]
        refine ⟨c, hc16, ch, ℓ, rfl, hrc, le_refl c, hle, by omega, ?_⟩
        rw [flattenFrom_step cs c hc16,
          List.drop_append_of_le_length (by omega)]

theorem newByIndexAux_descent (t : JTree) (v : Nat) (hwf : t.Wf = true)
    (idx : Nat) :
    ∀ (u : JTree) (fuel : Nat) (π : List Nat) (stack : List NodeVisitInfo)
      (ℓ : Nat) (nd : Node),
      StackInv t v stack →
      (match stack with
       | [] => π = ([] : List Nat)
       | g :: _ => π = g.node_key.nibble_path ++ [framePtr g]) →
      (stack = [] → ∃ csr, u = JTree.node csr) →
      subtreeAt t π = some u →
      renderNode v u = some nd →
      ℓ ≤ idx → idx < ℓ + u.flatten.length →
      65 ≤ fuel + π.length →
      ∃ stack',
        newByIndexAux (storeOf t v) v idx fuel ⟨v, π⟩ nd ℓ stack =
          some ⟨v, stack', false⟩ ∧
        StackInv t v stack' ∧
        stackRem t stack' =
          u.flatten.drop (idx - ℓ) ++ stackRemAux t stack := by
  intro u
  induction u with
  | empty =>
    intro fuel π stack ℓ nd _ _ _ _ hnd _ _ _
    exact Option.noConfusion hnd
  | leaf k val =>
    intro fuel π stack ℓ nd hinv hlink hroot hsub hnd hle hlt hfuel
    have hwfl : (JTree.leaf k val).wfAux π = true := by
      have h2 := wfAux_subtreeAt π t [] _ hwf hsub
      rwa [List.nil_append] at h2
    have hp64 : π.length ≤ 64 := by
      rw [JTree.wfAux] at hwfl
      simp only [Bool.and_eq_true, List.all_eq_true,
        List.isPrefixOf_iff_prefix, decide_eq_true_eq] at hwfl
      have h3 := hwfl.2.length_le
      rw [keyNibbles_length, hwfl.1.1] at h3
      omega
    cases fuel with
    | zero => exact absurd hfuel (by omega)
    | succ fuel =>
      injection hnd with h2
      subst h2
      rw [newByIndexAux]
      have hei : ℓ = idx := by
        simp only [JTree.flatten, List.length_cons, List.length_nil] at hlt
        omega
      refine ⟨stack, ?_, hinv, ?_⟩
      · show (if ℓ = idx then some (⟨v, stack, false⟩ : IterState) else none) =
          some ⟨v, stack, false⟩
        rw [if_pos hei]
      · rw [show idx - ℓ = 0 from by omega]
        cases stack with
        | nil =>
          obtain ⟨csr, hcsr⟩ := hroot rfl
          exact JTree.noConfusion hcsr
        | cons f rest =>
          obtain ⟨csf, p, hverf, hsubf, hnodef, hbmf, hnextf, hoccf, hptrf,
            hsubfp⟩ := frame_destruct t v f hinv.1
          have hlink2 : π = f.node_key.nibble_path ++ [framePtr f] := hlink
          rw [hptrf] at hlink2
          have hcsfp : csf ⟨p.val, p.isLt⟩ = JTree.leaf k val := by
            rw [hlink2] at hsub
            have h2 := hsubfp.symm.trans hsub
            injection h2
          rw [stackRem, stackRemAux, frameRem, frameRem]
          simp only [hsubf]
          rw [hptrf, flattenFrom_step csf p.val p.isLt, hcsfp]
          simp [JTree.flatten]
  | node cs ih =>
    intro fuel π stack ℓ nd hinv hlink hroot hsub hnd hle hlt hfuel
    have hwfn : (JTree.node cs).wfAux π = true := by
      have h2 := wfAux_subtreeAt π t [] _ hwf hsub
      rwa [List.nil_append] at h2
    obtain ⟨hdep, hcnt, hch⟩ := wf_node_parts cs π hwfn
    cases fuel with
    | zero => exact absurd hfuel (by omega)
    | succ fuel =>
      injection hnd with h2
      subst h2
      rw [newByIndexAux]
      obtain ⟨j, hj, ch, l2, hskip, hrc, hcj, hl2, hlt2, hdrop⟩ :=
        skipLeavesAux_spec v cs idx 16 0 ℓ (by omega) hle
          (by rw [flattenFrom_zero]; exact hlt)
      have hcs0 : childrenSorted (renderChildren v cs) = slotsFrom v cs 0 :=
        (slotsFrom_zero v cs).symm
      simp only [hcs0, hskip]
      have hocc : (cs ⟨j, hj⟩).isEmptyT = false := by
        have h2 := renderChild_isSome v (cs ⟨j, hj⟩)
        cases he : (cs ⟨j, hj⟩).isEmptyT
        · rfl
        · rw [he, hrc] at h2
          simp at h2
      have hbitj : (genBitmaps (renderChildren v cs)).1.testBit j = true :=
        (slot_occupied_iff_bit v cs ⟨j, hj⟩).mpr hocc
      have hnn := new_next_spec ⟨v, π⟩
        ⟨renderChildren v cs, sumLeafCount (renderChildren v cs), true⟩ j j
        (render_bm_lt v cs) hbitj (le_refl j)
        (fun j2 h1 h2 => absurd h2 (by omega)) hj
      simp only [hnn]
      have hcv : ch.version = v := renderChild_version v _ ch hrc
      have hkeyc : NodeKey.gen_child_node_key ⟨v, π⟩ ch.version j =
          (⟨v, π ++ [j]⟩ : NodeKey) := by
        rw [NodeKey.gen_child_node_key, hcv]
      rw [hkeyc]
      have hsubj : subtreeAt t (π ++ [j]) = some (cs ⟨j, hj⟩) :=
        subtreeAt_child π t cs hsub ⟨j, hj⟩
      obtain ⟨nd2, hget2, hrn2⟩ : ∃ nd2, storeOf t v ⟨v, π ++ [j]⟩ = some nd2 ∧
          renderNode v (cs ⟨j, hj⟩) = some nd2 := by
        cases hx : cs ⟨j, hj⟩ with
        | empty => rw [hx] at hocc; simp [JTree.isEmptyT] at hocc
        | leaf k2 v2 =>
          refine ⟨.leaf ⟨k2, [], v2⟩, ?_, rfl⟩
          have hsubj2 := hsubj
          rw [hx] at hsubj2
          exact storeOf_leaf t v (π ++ [j]) k2 v2 hsubj2
        | node cs2 =>
          refine ⟨.internal ⟨renderChildren v cs2,
            sumLeafCount (renderChildren v cs2), true⟩, ?_, rfl⟩
          have hsubj2 := hsubj
          rw [hx] at hsubj2
          exact storeOf_internal t v (π ++ [j]) cs2 hsubj2
      simp only [hget2]
      have hptrj : framePtr ⟨⟨v, π⟩, ⟨renderChildren v cs,
          sumLeafCount (renderChildren v cs), true⟩,
          (genBitmaps (renderChildren v cs)).1, 1 <<< j⟩ = j := by
        rw [framePtr]
        exact ctz16_shift j hj
      obtain ⟨stack', heval, hinv', hrem'⟩ :=
        ih ⟨j, hj⟩ fuel (π ++ [j])
          (⟨⟨v, π⟩, ⟨renderChildren v cs,
            sumLeafCount (renderChildren v cs), true⟩,
            (genBitmaps (renderChildren v cs)).1, 1 <<< j⟩ :: stack) l2 nd2
          ⟨⟨rfl, cs, hsub, rfl, rfl, ⟨j, hj⟩, rfl, hocc⟩, hinv,
            by cases stack with
             | nil => trivial
             | cons g r => exact hlink⟩
          (by simp only [hptrj])
          (fun h => List.noConfusion h) hsubj hrn2 hl2 hlt2
          (by simp only [List.length_append, List.length_cons,
            List.length_nil]; omega)
      refine ⟨stack', heval, hinv', ?_⟩
      rw [hrem', stackRemAux, hptrj, frameRem]
      simp only [hsub]
      rw [← List.append_assoc, ← hdrop, flattenFrom_zero]

/-- C7: on a well-formed tree rendered at version `v` (every internal node
exposing a known leaf count), `new_by_index(j)` with `j < n` (for `n`
leaves) builds an iterator that yields exactly the leaves at 0-based
indices `j, …, n-1` in ascending key order; for `j >= n` it is done
immediately and yields nothing. -/
theorem claim_C7_new_by_index (t : JTree) (v idx : Nat) (hwf : t.Wf = true) :
    (idx < t.flatten.length →
      ∃ st₀, iterNewByIndex (storeOf t v) v idx = some st₀ ∧
        (∀ fuel, t.flatten.length + 2 ≤ fuel →
          collectAll (storeOf t v) (valuesOf t v) fuel st₀ =
            some (t.flatten.drop idx)) ∧
        List.Pairwise (fun a b : List Nat × List Nat => bytesLt a.1 b.1 = true)
          (t.flatten.drop idx)) ∧
    (t.flatten.length ≤ idx →
      iterNewByIndex (storeOf t v) v idx = some ⟨v, [], true⟩ ∧
      ∀ fuel, 1 ≤ fuel →
        collectAll (storeOf t v) (valuesOf t v) fuel ⟨v, [], true⟩ =
          some []) := by
  have hpw : List.Pairwise
      (fun a b : List Nat × List Nat => bytesLt a.1 b.1 = true)
      (t.flatten.drop idx) :=
    List.Pairwise.sublist (List.drop_sublist idx t.flatten)
      (flatten_pairwise t [] hwf)
  cases ht : t with
  | empty =>
    constructor
    · intro hidx
      simp [JTree.flatten] at hidx
    · intro hge
      have hget : storeOf JTree.empty v (NodeKey.new_empty_path v) =
          some .null := by
        simp [storeOf, NodeKey.new_empty_path, subtreeAt]
      refine ⟨?_, ?_⟩
      · rw [iterNewByIndex]
        simp only [hget, Node.leaf_count]
        rw [if_pos (by omega)]
      · intro fuel hfuel
        cases fuel with
        | zero => exact absurd hfuel (by omega)
        | succ f =>
          rw [collectAll, iterNext, if_pos rfl]
  | leaf k val =>
    have hget : storeOf (JTree.leaf k val) v (NodeKey.new_empty_path v) =
        some (.leaf ⟨k, [], val⟩) := storeOf_leaf _ v [] k val rfl
    constructor
    · intro hidx
      have hi0 : idx = 0 := by
        simp only [JTree.flatten, List.length_cons, List.length_nil] at hidx
        omega
      subst hi0
      refine ⟨⟨v, [], false⟩, ?_, ?_, by rw [← ht]; exact hpw⟩
      · rw [iterNewByIndex]
        simp only [hget, Node.leaf_count]
        rw [if_neg (by omega), show (65 : Nat) = 64 + 1 from rfl, newByIndexAux]
        show (if (0 : Nat) = 0 then some (⟨v, [], false⟩ : IterState)
          else none) = some ⟨v, [], false⟩
        rw [if_pos rfl]
      · intro fuel hfuel
        cases fuel with
        | zero => simp [JTree.flatten] at hfuel
        | succ f =>
          rw [collectAll]
          have hval : valuesOf (JTree.leaf k val) v v k = some val :=
            valuesOf_lookup _ v (by rw [← ht]; exact hwf) k val
              (by simp [JTree.flatten])
          have hnext : iterNext (storeOf (JTree.leaf k val) v)
              (valuesOf (JTree.leaf k val) v) ⟨v, [], false⟩ =
              some (some (k, val), ⟨v, [], true⟩) := by
            rw [iterNext, if_neg (by simp), if_pos rfl]
            simp only [hget, hval]
          rw [hnext]
          show (collectAll (storeOf (JTree.leaf k val) v)
              (valuesOf (JTree.leaf k val) v) f ⟨v, [], true⟩).map
              (fun l => (k, val) :: l) = _
          cases f with
          | zero => simp [JTree.flatten] at hfuel
          | succ f2 =>
            rw [collectAll, iterNext, if_pos rfl]
            simp [JTree.flatten]
    · intro hge
      have hge1 : 1 ≤ idx := by
        simp only [JTree.flatten, List.length_cons, List.length_nil] at hge
        omega
      refine ⟨?_, ?_⟩
      · rw [iterNewByIndex]
        simp only [hget, Node.leaf_count]
        rw [if_pos hge1]
      · intro fuel hfuel
        cases fuel with
        | zero => exact absurd hfuel (by omega)
        | succ f =>
          rw [collectAll, iterNext, if_pos rfl]
  | node cs0 =>
    have hget : storeOf (JTree.node cs0) v (NodeKey.new_empty_path v) =
        some (.internal ⟨renderChildren v cs0,
          sumLeafCount (renderChildren v cs0), true⟩) :=
      storeOf_internal (JTree.node cs0) v [] cs0 rfl
    have hsum : sumLeafCount (renderChildren v cs0) =
        some ((JTree.node cs0).flatten.length) := by
      rw [sumLeafCount_render, flatten_length_leafCount]
    have hlc : Node.leaf_count (.internal ⟨renderChildren v cs0,
        sumLeafCount (renderChildren v cs0), true⟩) =
        some ((JTree.node cs0).flatten.length) := hsum
    constructor
    · intro hidx
      obtain ⟨stack', heval, hinv', hrem'⟩ :=
        newByIndexAux_descent (JTree.node cs0) v (by rw [← ht]; exact hwf) idx
          (JTree.node cs0) 65 [] [] 0
          (.internal ⟨renderChildren v cs0,
            sumLeafCount (renderChildren v cs0), true⟩)
          trivial rfl (fun _ => ⟨cs0, rfl⟩) rfl rfl (by omega)
          (by simpa using hidx) (by simp)
      refine ⟨⟨v, stack', false⟩, ?_, ?_, by rw [← ht]; exact hpw⟩
      · rw [iterNewByIndex]
        simp only [hget, hlc]
        rw [if_neg (by omega)]
        exact heval
      · intro fuel hfuel
        have hrem2 : stackRem (JTree.node cs0) stack' =
            (JTree.node cs0).flatten.drop idx := by
          rw [hrem']
          simp [stackRemAux]
        have hlen : (stackRem (JTree.node cs0) stack').length < fuel := by
          rw [hrem2]
          have h2 := List.length_drop idx (JTree.node cs0).flatten
          omega
        rw [collectAll_spec (JTree.node cs0) v (by rw [← ht]; exact hwf) cs0 rfl
          fuel stack' hinv' hlen, hrem2]
    · intro hge
      refine ⟨?_, ?_⟩
      · rw [iterNewByIndex]
        simp only [hget, hlc]
        rw [if_pos hge]
      · intro fuel hfuel
        cases fuel with
        | zero => exact absurd hfuel (by omega)
        | succ f =>
          rw [collectAll, iterNext, if_pos rfl]

/-- Concrete run of C7 on the two-leaf example tree at start index 1. -/
theorem claim_C7_witness :
    wT.Wf = true ∧
    ((1 < wT.flatten.length →
      ∃ st₀, iterNewByIndex (storeOf wT 0) 0 1 = some st₀ ∧
        (∀ fuel, wT.flatten.length + 2 ≤ fuel →
          collectAll (storeOf wT 0) (valuesOf wT 0) fuel st₀ =
            some (wT.flatten.drop 1)) ∧
        List.Pairwise (fun a b : List Nat × List Nat => bytesLt a.1 b.1 = true)
          (wT.flatten.drop 1)) ∧
    (wT.flatten.length ≤ 1 →
      iterNewByIndex (storeOf wT 0) 0 1 = some ⟨0, [], true⟩ ∧
      ∀ fuel, 1 ≤ fuel →
        collectAll (storeOf wT 0) (valuesOf wT 0) fuel ⟨0, [], true⟩ =
          some [])) :=
  ⟨by decide, claim_C7_new_by_index wT 0 1 (by decide)⟩

end JMT
